import Mathlib

/-!
Verification development for the InfoTip chat client (script.js + server file).

JavaScript strings are modelled as `List Char` (sequences of Unicode scalar
values).  Pure fragments of the code are translated into executable Lean
functions; the DOM and network are made explicit as data passed in and out.
-/

namespace InfoTip

/-! ### JSON values and `JSON.parse`

The stream consumer in `handleSend` calls the JavaScript built-in
`JSON.parse` on each `data: `-prefixed record.  We embed `JSON.parse` as a
recursive-descent parser over `List Char` following the JSON grammar
(ECMA-404): a value is an object, array, string, number, `true`, `false` or
`null`, with insignificant whitespace, and the whole input must be consumed.
Numbers are kept as their lexemes (no claim depends on numeric values).
String escapes are decoded, surrogate pairs in `\uXXXX` escapes are combined;
lone surrogates (representable in JS strings but not as Unicode scalar
values) are rejected — no claim exercises them. -/

inductive Json where
  | null : Json
  | bool (b : Bool) : Json
  | num (lexeme : List Char) : Json
  | str (s : List Char) : Json
  | arr (elems : List Json) : Json
  | obj (fields : List (List Char × Json)) : Json

/-- Whitespace characters insignificant in JSON. -/
def jsonWs (c : Char) : Bool :=
  c = ' ' || c = '\t' || c = '\n' || c = '\r'

/-- Skip insignificant JSON whitespace. -/
def skipWs : List Char → List Char
  | [] => []
  | c :: cs => if jsonWs c then skipWs cs else c :: cs

/-- Value of one hexadecimal digit. -/
def hexVal (c : Char) : Option Nat :=
  if '0' ≤ c ∧ c ≤ '9' then some (c.toNat - '0'.toNat)
  else if 'a' ≤ c ∧ c ≤ 'f' then some (c.toNat - 'a'.toNat + 10)
  else if 'A' ≤ c ∧ c ≤ 'F' then some (c.toNat - 'A'.toNat + 10)
  else none

/-- Four hexadecimal digits, as used in `\uXXXX` escapes. -/
def parseHex4 : List Char → Option (Nat × List Char)
  | a :: b :: c :: d :: rest =>
    match hexVal a, hexVal b, hexVal c, hexVal d with
    | some va, some vb, some vc, some vd =>
        some ((((va * 16 + vb) * 16 + vc) * 16 + vd), rest)
    | _, _, _, _ => none
  | _ => none

def isHighSurrogate (n : Nat) : Bool := 0xD800 ≤ n && n ≤ 0xDBFF

def isLowSurrogate (n : Nat) : Bool := 0xDC00 ≤ n && n ≤ 0xDFFF

/-- Body of a JSON string after the opening quote: decoded characters plus
the remaining input after the closing quote.  Unescaped control characters
are rejected, as in JSON. -/
def parseJStr : Nat → List Char → Option (List Char × List Char)
  | 0, _ => none
  | _, [] => none
  | fuel + 1, c :: cs =>
    if c = '"' then some ([], cs)
    else if c = '\\' then
      match cs with
      | [] => none
      | e :: cs1 =>
        if e = '"' ∨ e = '\\' ∨ e = '/' then
          (parseJStr fuel cs1).map (fun p => (e :: p.1, p.2))
        else if e = 'b' then (parseJStr fuel cs1).map (fun p => (Char.ofNat 8 :: p.1, p.2))
        else if e = 'f' then (parseJStr fuel cs1).map (fun p => (Char.ofNat 12 :: p.1, p.2))
        else if e = 'n' then (parseJStr fuel cs1).map (fun p => ('\n' :: p.1, p.2))
        else if e = 'r' then (parseJStr fuel cs1).map (fun p => ('\r' :: p.1, p.2))
        else if e = 't' then (parseJStr fuel cs1).map (fun p => ('\t' :: p.1, p.2))
        else if e = 'u' then
          match parseHex4 cs1 with
          | none => none
          | some (n, cs2) =>
            if isHighSurrogate n then
              match cs2 with
              | '\\' :: 'u' :: cs3 =>
                match parseHex4 cs3 with
                | some (m, cs4) =>
                  if isLowSurrogate m then
                    (parseJStr fuel cs4).map
                      (fun p => (Char.ofNat (0x10000 + (n - 0xD800) * 0x400 + (m - 0xDC00)) :: p.1, p.2))
                  else none
                | none => none
              | _ => none
            else if isLowSurrogate n then none
            else (parseJStr fuel cs2).map (fun p => (Char.ofNat n :: p.1, p.2))
        else none
    else if c.toNat < 32 then none
    else (parseJStr fuel cs).map (fun p => (c :: p.1, p.2))

/-- Optional fraction part of a JSON number. -/
def parseFrac (cs : List Char) : Option (List Char × List Char) :=
  match cs with
  | '.' :: r =>
    let p := r.span (fun d => d.isDigit)
    if p.1 = [] then none else some ('.' :: p.1, p.2)
  | _ => some ([], cs)

/-- Optional exponent part of a JSON number. -/
def parseExp (cs : List Char) : Option (List Char × List Char) :=
  match cs with
  | e :: r =>
    if e = 'e' ∨ e = 'E' then
      match r with
      | s :: r1 =>
        if s = '+' ∨ s = '-' then
          let p := r1.span (fun d => d.isDigit)
          if p.1 = [] then none else some (e :: s :: p.1, p.2)
        else
          let p := r.span (fun d => d.isDigit)
          if p.1 = [] then none else some (e :: p.1, p.2)
      | [] => none
    else some ([], cs)
  | [] => some ([], [])

/-- JSON number: `-?(0|[1-9][0-9]*)(\.[0-9]+)?([eE][+-]?[0-9]+)?`, kept as
its lexeme. -/
def parseJNum (cs : List Char) : Option (List Char × List Char) :=
  let signed : List Char × List Char :=
    match cs with
    | '-' :: r => (['-'], r)
    | _ => ([], cs)
  match signed.2 with
  | [] => none
  | c :: r =>
    let intPart : Option (List Char × List Char) :=
      if c = '0' then some (signed.1 ++ ['0'], r)
      else if c.isDigit then
        let p := r.span (fun d => d.isDigit)
        some (signed.1 ++ c :: p.1, p.2)
      else none
    match intPart with
    | none => none
    | some (ip, r1) =>
      match parseFrac r1 with
      | none => none
      | some (fp, r2) =>
        match parseExp r2 with
        | none => none
        | some (ep, r3) => some (ip ++ fp ++ ep, r3)

mutual

/-- JSON value (leading whitespace allowed).  Fuel decreases at each nested
value; `2 * length + 2` at top level is ample since every nesting level
consumes at least one character. -/
def parseJVal : Nat → List Char → Option (Json × List Char)
  | 0, _ => none
  | fuel + 1, cs =>
    match skipWs cs with
    | [] => none
    | c :: rest =>
      if c = '"' then
        (parseJStr (rest.length + 1) rest).map (fun p => (Json.str p.1, p.2))
      else if c = Char.ofNat 123 then
        (parseJFields fuel rest).map (fun p => (Json.obj p.1, p.2))
      else if c = '[' then
        (parseJElems fuel rest).map (fun p => (Json.arr p.1, p.2))
      else if c = 't' then
        match rest with
        | 'r' :: 'u' :: 'e' :: r => some (Json.bool true, r)
        | _ => none
      else if c = 'f' then
        match rest with
        | 'a' :: 'l' :: 's' :: 'e' :: r => some (Json.bool false, r)
        | _ => none
      else if c = 'n' then
        match rest with
        | 'u' :: 'l' :: 'l' :: r => some (Json.null, r)
        | _ => none
      else
        (parseJNum (c :: rest)).map (fun p => (Json.num p.1, p.2))

/-- Array elements after the opening bracket (trailing commas rejected). -/
def parseJElems : Nat → List Char → Option (List Json × List Char)
  | 0, _ => none
  | fuel + 1, cs =>
    match skipWs cs with
    | ']' :: r => some ([], r)
    | cs1 =>
      match parseJVal fuel cs1 with
      | none => none
      | some (v, r) =>
        match skipWs r with
        | ',' :: r2 =>
          match skipWs r2 with
          | ']' :: _ => none
          | _ => (parseJElems fuel r2).map (fun p => (v :: p.1, p.2))
        | ']' :: r2 => some ([v], r2)
        | _ => none

/-- Object members after the opening brace (trailing commas rejected). -/
def parseJFields : Nat → List Char → Option (List (List Char × Json) × List Char)
  | 0, _ => none
  | fuel + 1, cs =>
    match skipWs cs with
    | c :: r =>
      if c = Char.ofNat 125 then some ([], r)
      else if c = '"' then
        match parseJStr (r.length + 1) r with
        | none => none
        | some (k, r1) =>
          match skipWs r1 with
          | ':' :: r2 =>
            match parseJVal fuel r2 with
            | none => none
            | some (v, r3) =>
              match skipWs r3 with
              | ',' :: r4 =>
                match skipWs r4 with
                | '"' :: _ => (parseJFields fuel r4).map (fun p => ((k, v) :: p.1, p.2))
                | _ => none
              | c2 :: r4 =>
                if c2 = Char.ofNat 125 then some ([(k, v)], r4) else none
              | [] => none
          | _ => none
      else none
    | [] => none

end

/-- Embedding of the JavaScript built-in `JSON.parse`: the whole input, up
to trailing whitespace, must parse as one JSON value. -/
def Json.parse (s : List Char) : Option Json :=
  match parseJVal (2 * s.length + 2) s with
  | some (v, r) =>
    match skipWs r with
    | [] => some v
    | _ => none
  | none => none

/-- Property lookup on a parsed JSON object.  `JSON.parse` keeps the last
occurrence of a duplicated key, as JS object literals do. -/
def jLookup (fields : List (List Char × Json)) (key : List Char) : Option Json :=
  (fields.reverse.find? (fun f => f.1 == key)).map (fun f => f.2)

/-! ### Stream consumer (`handleSend`, read loop)

For each line the code runs, inside `try { ... } catch { log }`:

  `const data = JSON.parse(line.slice(6));`
  `if (data.choices && data.choices[0].delta && data.choices[0].delta.content)`
  `  botResponse += data.choices[0].delta.content;`

`extractDelta` returns the appended fragment when the parsed value is an
object whose `choices` is a non-empty array whose first element is an object
with an object `delta` carrying a non-empty string `content`.  In every
other case the JS condition is falsy or property access throws a `TypeError`
that the surrounding `catch` swallows, so nothing is appended — both are
`none` here.  (Records whose `content` is a truthy non-string would be
appended after JS string coercion; the upstream event-stream convention the
code consumes carries only string deltas, so that case is out of scope.) -/
def extractDelta : Json → Option (List Char)
  | .obj fields =>
    match jLookup fields "choices".data with
    | some (.arr (c0 :: _)) =>
      match c0 with
      | .obj f0 =>
        match jLookup f0 "delta".data with
        | some (.obj fd) =>
          match jLookup fd "content".data with
          | some (.str s) => if s = [] then none else some s
          | _ => none
        | _ => none
      | _ => none
    | _ => none
  | _ => none

/-- One line of a chunk, as processed by the loop body:
`if (line.startsWith('data: ') && line !== 'data: [DONE]') { try … }`.
Returns the updated accumulated response `botResponse`. -/
def processLine (acc line : List Char) : List Char :=
  if "data: ".data.isPrefixOf line ∧ line ≠ "data: [DONE]".data then
    match Json.parse (line.drop 6) with
    | some j =>
      match extractDelta j with
      | some d => acc ++ d
      | none => acc
    | none => acc
  else acc

/-- The delta fragment a single record line contributes, if any. -/
def lineDelta (line : List Char) : Option (List Char) :=
  if "data: ".data.isPrefixOf line ∧ line ≠ "data: [DONE]".data then
    (Json.parse (line.drop 6)).bind extractDelta
  else none

/-- JavaScript `chunk.split('\n')`. -/
def splitNl : List Char → List (List Char)
  | [] => [[]]
  | c :: cs =>
    if c = '\n' then [] :: splitNl cs
    else
      match splitNl cs with
      | h :: t => (c :: h) :: t
      | [] => [[c]]

/-- Processing of one decoded transport chunk: split into lines, process
each line in order.  No partial line is carried over to the next chunk. -/
def handleChunk (acc chunk : List Char) : List Char :=
  (splitNl chunk).foldl processLine acc

/-- The read loop of `handleSend`: `while (true) { const {done, value} =
await reader.read(); if (done) break; … }` — each chunk is handled in
arrival order and the loop ends exactly when the transport reports
end-of-data (the chunk list is exhausted). -/
def consumeStream (chunks : List (List Char)) : List Char :=
  chunks.foldl handleChunk []

/-- Accumulation over a sequence of already line-framed records (each
record delivered as its own complete line). -/
def consumeRecords (lines : List (List Char)) : List Char :=
  lines.foldl processLine []

theorem processLine_eq (acc line : List Char) :
    processLine acc line = acc ++ (lineDelta line).getD [] := by
  unfold processLine lineDelta
  split
  · cases hp : Json.parse (line.drop 6) with
    | none => simp
    | some j =>
      cases hd : extractDelta j with
      | none => simp [hd]
      | some d => simp [hd]
  · simp

theorem foldl_processLine_eq (lines : List (List Char)) :
    ∀ acc, lines.foldl processLine acc = acc ++ (lines.filterMap lineDelta).flatten := by
  induction lines with
  | nil => intro acc; simp
  | cons l ls ih =>
    intro acc
    rw [List.foldl_cons, processLine_eq, ih]
    cases h : lineDelta l with
    | none => simp [List.filterMap_cons, h]
    | some d => simp [List.filterMap_cons, h]

theorem consumeStream_eq_foldl (chunks : List (List Char)) :
    consumeStream chunks = ((chunks.map splitNl).flatten).foldl processLine [] := by
  unfold consumeStream
  rw [show (chunks.map splitNl).flatten.foldl processLine [] =
      chunks.foldl (fun acc c => (splitNl c).foldl processLine acc) [] from ?_]
  · rfl
  · generalize ([] : List Char) = acc
    induction chunks generalizing acc with
    | nil => rfl
    | cons c cs ih => simp [List.foldl_append, ih]

/-- C4: a record that fails to parse as JSON is skipped without aborting the
stream — for every record sequence the accumulated text is the concatenation,
in arrival order, of the delta fragments of exactly the well-formed records;
concretely, a malformed record between two valid ones does not interrupt
accumulation of the valid ones, and contributes no fragment itself. -/
theorem malformed_record_skipped_accumulation_exact :
    (∀ lines : List (List Char),
        consumeRecords lines = (lines.filterMap lineDelta).flatten)
    ∧ consumeRecords
        ["data: \x7b\"choices\":[\x7b\"delta\":\x7b\"content\":\"Hel\"\x7d\x7d]\x7d".data,
         "data: \x7bnot json".data,
         "data: \x7b\"choices\":[\x7b\"delta\":\x7b\"content\":\"lo\"\x7d\x7d]\x7d".data]
        = "Hello".data
    ∧ lineDelta "data: \x7bnot json".data = none := by
  refine ⟨fun lines => ?_, by decide, by decide⟩
  exact foldl_processLine_eq lines []

/-- C10: each transport chunk is split into lines and parsed independently of
adjacent chunks (the accumulated text over any chunk sequence is exactly the
per-chunk, per-line fold, with no partial-line buffering); concretely, a
single `data: <JSON>` record split across two transport chunks fails JSON
parsing and its fragment is dropped, while the same bytes in one chunk
yield the fragment. -/
theorem chunks_split_independently_no_reassembly :
    (∀ chunks : List (List Char),
        consumeStream chunks = (((chunks.map splitNl).flatten).filterMap lineDelta).flatten)
    ∧ consumeStream
        ["data: \x7b\"choices\":[\x7b\"delta\":\x7b\"content\":\"Hi\"\x7d\x7d]".data,
         "\x7d\n".data] = []
    ∧ consumeStream
        [("data: \x7b\"choices\":[\x7b\"delta\":\x7b\"content\":\"Hi\"\x7d\x7d]".data
          ++ "\x7d\n".data)] = "Hi".data := by
  refine ⟨fun chunks => ?_, by decide, by decide⟩
  rw [consumeStream_eq_foldl]
  exact foldl_processLine_eq _ []

/-- C1 counterexample: a record sequence containing a `data: [DONE]` record
followed by a well-formed delta record — the reading loop does not stop at
`[DONE]` (only the underlying stream's end-of-data breaks it), so the
fragment of the record arriving after `[DONE]` is accumulated into the
response. -/
theorem delta_after_done_is_accumulated :
    consumeRecords
      ["data: [DONE]".data,
       "data: \x7b\"choices\":[\x7b\"delta\":\x7b\"content\":\"X\"\x7d\x7d]\x7d".data]
      = "X".data
    ∧ lineDelta
        "data: \x7b\"choices\":[\x7b\"delta\":\x7b\"content\":\"X\"\x7d\x7d]\x7d".data
      = some "X".data := by
  constructor
  · decide
  · decide

theorem handleChunk_done (acc : List Char) :
    handleChunk acc "data: [DONE]".data = acc := by
  have hs : splitNl "data: [DONE]".data = ["data: [DONE]".data] := by decide
  unfold handleChunk
  rw [hs, List.foldl_cons, List.foldl_nil, processLine_eq]
  have : lineDelta "data: [DONE]".data = none := by decide
  rw [this]
  simp

/-- C1 amended: the stream consumer terminates exactly when the underlying
byte stream reports end-of-data; a `data: [DONE]` record is merely skipped
(it contributes no fragment) and does not terminate consumption — records
delivered after it are still processed, so dropping the `[DONE]` chunk from
anywhere in the sequence leaves the accumulated response unchanged. -/
theorem done_record_skipped_consumption_continues
    (pre post : List (List Char)) :
    consumeStream (pre ++ "data: [DONE]".data :: post) = consumeStream (pre ++ post) := by
  unfold consumeStream
  rw [List.foldl_append, List.foldl_append, List.foldl_cons, handleChunk_done]

/-! ### Session store (`script.js` lines 2, 90-141, 182-196, 263-265)

Sessions live in the global `sessions` array, mirrored to
`localStorage('infotip_sessions')` by `saveSessions`.  `renderHistory` sorts
the global array in place by `updatedAt` descending (`Array.prototype.sort`
with comparator `b.updatedAt - a.updatedAt`; JS sort is stable, and a stable
insertion sort computes the same list).  `Date.now()` values are passed in
as explicit `now` arguments; `Date.now().toString()` becomes
`(toString now).data`. -/

structure ChatMessage where
  role : List Char
  content : List Char
deriving DecidableEq

structure Session where
  id : List Char
  title : List Char
  messages : List ChatMessage
  updatedAt : Nat
deriving DecidableEq

/-- The two pieces of mutable state the session store touches: the global
`sessions` array, its durable mirror under `localStorage`, and
`currentSessionId`. -/
structure StoreState where
  sessions : List Session
  stored : List Session
  currentSessionId : Option (List Char)
deriving DecidableEq

/-- `saveSessions`: `localStorage.setItem('infotip_sessions', JSON.stringify(sessions))`. -/
def saveSessions (st : StoreState) : StoreState :=
  { st with stored := st.sessions }

/-- Stable descending insertion by `updatedAt`. -/
def insertByUpdatedAt (s : Session) : List Session → List Session
  | [] => [s]
  | t :: ts => if s.updatedAt < t.updatedAt then t :: insertByUpdatedAt s ts else s :: t :: ts

/-- `sessions.sort((a, b) => b.updatedAt - a.updatedAt)` — stable sort,
`updatedAt` descending. -/
def sortByUpdatedAtDesc : List Session → List Session
  | [] => []
  | s :: ss => insertByUpdatedAt s (sortByUpdatedAtDesc ss)

/-- `renderHistory()`: sorts the global array in place (the DOM rendering
itself carries no model state). -/
def renderHistory (st : StoreState) : StoreState :=
  { st with sessions := sortByUpdatedAtDesc st.sessions }

/-- `sessions.find(s => s.id === id)`. -/
def findById (ss : List Session) (i : List Char) : Option Session :=
  ss.find? (fun s => s.id == i)

/-- Mutation of the object returned by `Array.prototype.find`: only the
first element satisfying the predicate is replaced. -/
def updateFirst (p : Session → Bool) (f : Session → Session) : List Session → List Session
  | [] => []
  | s :: ss => if p s then f s :: ss else s :: updateFirst p f ss

/-- `loadSession(id)`: sets the current session and re-renders (the message
redraw is DOM-only; `renderHistory` sorts). -/
def loadSession (i : List Char) (st : StoreState) : StoreState :=
  renderHistory { st with currentSessionId := some i }

/-- The fresh session literal in `createNewSession`. -/
def freshSession (now : Nat) : Session :=
  { id := (toString now).data, title := "New Chat".data, messages := [], updatedAt := now }

/-- `createNewSession()`: push, persist, then load. -/
def createNewSession (now : Nat) (st : StoreState) : StoreState :=
  loadSession (freshSession now).id
    (saveSessions { st with sessions := st.sessions ++ [freshSession now] })

/-- Title derivation: `content.substring(0, 30) + (content.length > 30 ? '...' : '')`. -/
def deriveTitle (content : List Char) : List Char :=
  content.take 30 ++ (if 30 < content.length then "...".data else [])

/-- `{ t with title := … }` step of `updateSessionTitle`. -/
def setTitle (content : List Char) (s : Session) : Session :=
  { s with title := deriveTitle content }

/-- `updateSessionTitle(id, content)`: derives the title only when the
session currently holds exactly one message; persists and re-renders
(in that order: storage receives the pre-sort list). -/
def updateSessionTitle (i content : List Char) (st : StoreState) : StoreState :=
  match findById st.sessions i with
  | some s =>
    if s.messages.length = 1 then
      renderHistory (saveSessions
        { st with sessions := updateFirst (fun t => t.id == i) (setTitle content) st.sessions })
    else st
  | none => st

/-- `session.messages.push({role, content}); session.updatedAt = now`. -/
def pushMsg (role content : List Char) (now : Nat) (s : Session) : Session :=
  { s with messages := s.messages ++ [⟨role, content⟩], updatedAt := now }

/-- The session-store slice of `handleSend` up to the upstream call: append
the user message to the current session, touch `updatedAt`, derive the
title.  (`content` is the already-trimmed input; the empty-input no-op,
lines 183-184, is the first branch.) -/
def sendUserMessage (now : Nat) (content : List Char) (st : StoreState) : StoreState :=
  if content = [] then st
  else
    let st1 := match st.currentSessionId with
      | none => createNewSession now st
      | some _ => st
    match st1.currentSessionId with
    | none => st1
    | some cid =>
      updateSessionTitle cid content
        { st1 with sessions :=
            updateFirst (fun s => s.id == cid) (pushMsg "user".data content now) st1.sessions }

/-- The commit slice of `handleSend` after streaming completes (lines
263-265): append the assistant message, touch `updatedAt`, persist. -/
def commitAssistantMessage (now : Nat) (content : List Char) (st : StoreState) : StoreState :=
  match st.currentSessionId with
  | none => st
  | some cid =>
    saveSessions
      { st with sessions :=
          updateFirst (fun s => s.id == cid) (pushMsg "assistant".data content now) st.sessions }

/-- The mutating operations reachable from the UI. -/
inductive StoreOp where
  | create (now : Nat)
  | load (i : List Char)
  | sendUser (now : Nat) (content : List Char)
  | commitAssistant (now : Nat) (content : List Char)

def stepOp : StoreOp → StoreState → StoreState
  | .create now, st => createNewSession now st
  | .load i, st => loadSession i st
  | .sendUser now c, st => sendUserMessage now c st
  | .commitAssistant now c, st => commitAssistantMessage now c st

/-- Freshness of `Date.now().toString()` as a session id, needed whenever an
operation may create a session (ids are creation-time strings; the code
relies on their uniqueness). -/
def opFresh : StoreOp → StoreState → Prop
  | .create now, st => (toString now).data ∉ st.sessions.map Session.id
  | .sendUser now _, st =>
      st.currentSessionId = none → (toString now).data ∉ st.sessions.map Session.id
  | _, _ => True

theorem insertByUpdatedAt_perm (s : Session) (l : List Session) :
    (insertByUpdatedAt s l).Perm (s :: l) := by
  induction l with
  | nil => exact List.Perm.refl _
  | cons t ts ih =>
    simp only [insertByUpdatedAt]
    split
    · exact (ih.cons t).trans (List.Perm.swap s t ts)
    · exact List.Perm.refl _

theorem sortByUpdatedAtDesc_perm (l : List Session) :
    (sortByUpdatedAtDesc l).Perm l := by
  induction l with
  | nil => exact List.Perm.refl _
  | cons s ss ih => exact (insertByUpdatedAt_perm s _).trans (ih.cons s)

theorem updateFirst_of_forall_neg {p : Session → Bool} {f : Session → Session}
    {l : List Session} (h : ∀ x ∈ l, ¬ p x) : updateFirst p f l = l := by
  induction l with
  | nil => rfl
  | cons a as ih =>
    simp only [updateFirst]
    rw [if_neg (h a (List.mem_cons_self a as)), ih (fun x hx => h x (List.mem_cons_of_mem _ hx))]

theorem find?_updateFirst_eq_some {p : Session → Bool} {f : Session → Session}
    {l : List Session} {t : Session}
    (hpf : ∀ s, p (f s) = p s) (h : l.find? p = some t) :
    (updateFirst p f l).find? p = some (f t) := by
  induction l with
  | nil => simp at h
  | cons a as ih =>
    by_cases hp : p a
    · rw [List.find?_cons_of_pos _ hp] at h
      injection h with h
      subst h
      simp only [updateFirst, if_pos hp]
      exact List.find?_cons_of_pos _ (by rw [hpf]; exact hp)
    · rw [List.find?_cons_of_neg _ hp] at h
      simp only [updateFirst, if_neg hp]
      rw [List.find?_cons_of_neg _ hp]
      exact ih h

theorem mem_updateFirst {p : Session → Bool} {f : Session → Session}
    {l : List Session} {s' : Session} (h : s' ∈ updateFirst p f l) :
    s' ∈ l ∨ ∃ t, l.find? p = some t ∧ s' = f t := by
  induction l with
  | nil => simp [updateFirst] at h
  | cons a as ih =>
    by_cases hp : p a
    · simp only [updateFirst, if_pos hp] at h
      rcases List.mem_cons.mp h with h1 | h1
      · exact Or.inr ⟨a, List.find?_cons_of_pos _ hp, h1⟩
      · exact Or.inl (List.mem_cons_of_mem _ h1)
    · simp only [updateFirst, if_neg hp] at h
      rcases List.mem_cons.mp h with h1 | h1
      · exact Or.inl (h1 ▸ List.mem_cons_self a as)
      · rcases ih h1 with h2 | ⟨t, ht, h3⟩
        · exact Or.inl (List.mem_cons_of_mem _ h2)
        · exact Or.inr ⟨t, by rw [List.find?_cons_of_neg _ hp]; exact ht, h3⟩

theorem image_mem_updateFirst {p : Session → Bool} {f : Session → Session}
    {l : List Session} {t : Session} (h : l.find? p = some t) :
    f t ∈ updateFirst p f l := by
  induction l with
  | nil => simp at h
  | cons a as ih =>
    by_cases hp : p a
    · rw [List.find?_cons_of_pos _ hp] at h
      injection h with h
      subst h
      simp only [updateFirst, if_pos hp]
      exact List.mem_cons_self _ _
    · rw [List.find?_cons_of_neg _ hp] at h
      simp only [updateFirst, if_neg hp]
      exact List.mem_cons_of_mem _ (ih h)

theorem map_id_updateFirst (p : Session → Bool) (f : Session → Session)
    (hf : ∀ s, (f s).id = s.id) (l : List Session) :
    (updateFirst p f l).map Session.id = l.map Session.id := by
  induction l with
  | nil => rfl
  | cons a as ih =>
    by_cases hp : p a
    · simp only [updateFirst, if_pos hp, List.map_cons, hf]
    · simp only [updateFirst, if_neg hp, List.map_cons, ih]

theorem eq_of_mem_of_id_eq {l : List Session} (hnd : (l.map Session.id).Nodup)
    {a b : Session} (ha : a ∈ l) (hb : b ∈ l) (hid : a.id = b.id) : a = b :=
  List.inj_on_of_nodup_map hnd ha hb hid

theorem nodup_ids_sort {l : List Session} (h : (l.map Session.id).Nodup) :
    ((sortByUpdatedAtDesc l).map Session.id).Nodup :=
  (((sortByUpdatedAtDesc_perm l).map Session.id).nodup_iff).mpr h

theorem appendTitle_cases (st1 : StoreState) (cid content : List Char) (now : Nat) :
    (∃ t, findById st1.sessions cid = some t ∧ t.messages = [] ∧
      (updateSessionTitle cid content
        { st1 with sessions :=
            updateFirst (fun s => s.id == cid) (pushMsg "user".data content now) st1.sessions }).sessions
        = sortByUpdatedAtDesc (updateFirst (fun s => s.id == cid) (setTitle content)
            (updateFirst (fun s => s.id == cid) (pushMsg "user".data content now) st1.sessions)))
    ∨ ((findById st1.sessions cid = none
        ∨ ∃ t, findById st1.sessions cid = some t ∧ t.messages ≠ []) ∧
      (updateSessionTitle cid content
        { st1 with sessions :=
            updateFirst (fun s => s.id == cid) (pushMsg "user".data content now) st1.sessions }).sessions
        = updateFirst (fun s => s.id == cid) (pushMsg "user".data content now) st1.sessions) := by
  cases hf1 : findById st1.sessions cid with
  | none =>
    right
    have he : updateFirst (fun s => s.id == cid) (pushMsg "user".data content now) st1.sessions
        = st1.sessions :=
      updateFirst_of_forall_neg (List.find?_eq_none.mp hf1)
    refine ⟨Or.inl rfl, ?_⟩
    simp only [updateSessionTitle, he, hf1]
  | some t =>
    have hput : findById (updateFirst (fun s => s.id == cid)
        (pushMsg "user".data content now) st1.sessions) cid
        = some (pushMsg "user".data content now t) :=
      find?_updateFirst_eq_some (fun _ => rfl) hf1
    by_cases hl : t.messages = []
    · left
      refine ⟨t, rfl, hl, ?_⟩
      have hlen : (pushMsg "user".data content now t).messages.length = 1 := by
        simp [pushMsg, hl]
      simp only [updateSessionTitle, hput, hlen, if_pos, renderHistory, saveSessions]
    · right
      refine ⟨Or.inr ⟨t, rfl, hl⟩, ?_⟩
      have hlen : ¬ (pushMsg "user".data content now t).messages.length = 1 := by
        have h0 : t.messages.length ≠ 0 := fun h => hl (List.length_eq_zero.mp h)
        have h1 : (pushMsg "user".data content now t).messages.length
            = t.messages.length + 1 := by
          simp [pushMsg]
        omega
      simp only [updateSessionTitle, hput, if_neg hlen]

theorem mem_appendTitle {st1 : StoreState} {cid content : List Char} {now : Nat} {s' : Session}
    (h : s' ∈ (updateSessionTitle cid content
      { st1 with sessions :=
          updateFirst (fun s => s.id == cid) (pushMsg "user".data content now) st1.sessions }).sessions) :
    s' ∈ st1.sessions
    ∨ ∃ t, findById st1.sessions cid = some t ∧
        (s' = pushMsg "user".data content now t
         ∨ (t.messages = [] ∧ s' = setTitle content (pushMsg "user".data content now t))) := by
  rcases appendTitle_cases st1 cid content now with ⟨t, hf1, ht, he⟩ | ⟨_, he⟩
  · rw [he] at h
    have h2 := (sortByUpdatedAtDesc_perm _).mem_iff.mp h
    rcases mem_updateFirst h2 with h3 | ⟨v, hv, h4⟩
    · rcases mem_updateFirst h3 with h5 | ⟨w, hw, h6⟩
      · exact Or.inl h5
      · exact Or.inr ⟨w, hw, Or.inl h6⟩
    · have hput : (updateFirst (fun s => s.id == cid)
          (pushMsg "user".data content now) st1.sessions).find? (fun s => s.id == cid)
          = some (pushMsg "user".data content now t) :=
        find?_updateFirst_eq_some (fun _ => rfl) hf1
      rw [hput] at hv
      injection hv with hv
      subst hv
      exact Or.inr ⟨t, hf1, Or.inr ⟨ht, h4⟩⟩
  · rw [he] at h
    rcases mem_updateFirst h with h3 | ⟨w, hw, h6⟩
    · exact Or.inl h3
    · exact Or.inr ⟨w, hw, Or.inl h6⟩

theorem nodup_ids_appendTitle {st1 : StoreState} {cid content : List Char} {now : Nat}
    (hnd : (st1.sessions.map Session.id).Nodup) :
    (((updateSessionTitle cid content
      { st1 with sessions :=
          updateFirst (fun s => s.id == cid) (pushMsg "user".data content now) st1.sessions }).sessions).map Session.id).Nodup := by
  rcases appendTitle_cases st1 cid content now with ⟨t, _, _, he⟩ | ⟨_, he⟩
  · rw [he]
    apply nodup_ids_sort
    rw [map_id_updateFirst _ (setTitle content) (fun _ => rfl),
        map_id_updateFirst _ (pushMsg "user".data content now) (fun _ => rfl)]
    exact hnd
  · rw [he, map_id_updateFirst _ (pushMsg "user".data content now) (fun _ => rfl)]
    exact hnd

/-- The shared title consequence of a first-message send: the current
session acquires exactly the derived title. -/
theorem sendUser_title_exact
    (st : StoreState) (now : Nat) (content cid : List Char) (t : Session)
    (hnd : (st.sessions.map Session.id).Nodup)
    (hcur : st.currentSessionId = some cid)
    (hfind : findById st.sessions cid = some t)
    (ht : t.messages = []) (hc : content ≠ []) :
    setTitle content (pushMsg "user".data content now t) ∈ (sendUserMessage now content st).sessions
    ∧ ∀ s' ∈ (sendUserMessage now content st).sessions, s'.id = cid →
        s'.title = deriveTitle content := by
  have hsu : (sendUserMessage now content st) = updateSessionTitle cid content
      { st with sessions :=
          updateFirst (fun s => s.id == cid) (pushMsg "user".data content now) st.sessions } := by
    simp only [sendUserMessage, if_neg hc, hcur]
  have htid : t.id = cid := by
    have hfind' : st.sessions.find? (fun s => s.id == cid) = some t := hfind
    have hbeq := List.find?_some hfind'
    simp only [] at hbeq
    exact eq_of_beq hbeq
  have hmem : setTitle content (pushMsg "user".data content now t)
      ∈ (sendUserMessage now content st).sessions := by
    rw [hsu]
    rcases appendTitle_cases st cid content now with ⟨t', hf1, _, he⟩ | ⟨hbad, he⟩
    · rw [hfind] at hf1
      injection hf1 with hf1
      subst hf1
      rw [he]
      refine (sortByUpdatedAtDesc_perm _).mem_iff.mpr ?_
      exact image_mem_updateFirst (find?_updateFirst_eq_some (fun _ => rfl) hfind)
    · rcases hbad with hnone | ⟨t', hf1, hne⟩
      · rw [hfind] at hnone; exact absurd hnone (by simp)
      · rw [hfind] at hf1
        injection hf1 with hf1
        subst hf1
        exact absurd ht hne
  refine ⟨hmem, fun s' hs' hsid => ?_⟩
  have hnd' : (((sendUserMessage now content st).sessions).map Session.id).Nodup := by
    rw [hsu]; exact nodup_ids_appendTitle hnd
  have heid : (setTitle content (pushMsg "user".data content now t)).id = cid := htid
  have : s' = setTitle content (pushMsg "user".data content now t) :=
    eq_of_mem_of_id_eq hnd' hs' hmem (by rw [hsid, heid])
  rw [this]
  rfl

/-- Titles are untouched by every store operation once a session has a
message: only the 0-to-1-messages transition of `updateSessionTitle` writes
a title, and pushing a message never does. -/
theorem step_preserves_title
    (st : StoreState) (op : StoreOp) (s s' : Session)
    (hnd : (st.sessions.map Session.id).Nodup) (hfresh : opFresh op st)
    (hs : s ∈ st.sessions) (hmsgs : s.messages ≠ [])
    (hs' : s' ∈ (stepOp op st).sessions) (hid : s'.id = s.id) :
    s'.title = s.title := by
  cases op with
  | create now =>
    have hss' : s' ∈ sortByUpdatedAtDesc (st.sessions ++ [freshSession now]) := hs'
    have h2 := (sortByUpdatedAtDesc_perm _).mem_iff.mp hss'
    rcases List.mem_append.mp h2 with h3 | h3
    · exact congrArg Session.title (eq_of_mem_of_id_eq hnd h3 hs hid)
    · have h4 : s' = freshSession now := by simpa using h3
      have hfid : (toString now).data = s.id := by rw [← hid, h4]; rfl
      exact absurd (hfid ▸ List.mem_map_of_mem Session.id hs) hfresh
  | load i =>
    have hss' : s' ∈ sortByUpdatedAtDesc st.sessions := hs'
    have h2 := (sortByUpdatedAtDesc_perm _).mem_iff.mp hss'
    exact congrArg Session.title (eq_of_mem_of_id_eq hnd h2 hs hid)
  | commitAssistant now content =>
    cases hcur : st.currentSessionId with
    | none =>
      have heq : stepOp (.commitAssistant now content) st = st := by
        simp only [stepOp, commitAssistantMessage, hcur]
      rw [heq] at hs'
      exact congrArg Session.title (eq_of_mem_of_id_eq hnd hs' hs hid)
    | some cid =>
      have heq : (stepOp (.commitAssistant now content) st).sessions
          = updateFirst (fun x => x.id == cid) (pushMsg "assistant".data content now)
              st.sessions := by
        simp only [stepOp, commitAssistantMessage, hcur, saveSessions]
      rw [heq] at hs'
      rcases mem_updateFirst hs' with h3 | ⟨w, hw, h6⟩
      · exact congrArg Session.title (eq_of_mem_of_id_eq hnd h3 hs hid)
      · have hwmem : w ∈ st.sessions := List.mem_of_find?_eq_some hw
        have hws : w = s := eq_of_mem_of_id_eq hnd hwmem hs (by rw [← hid, h6]; rfl)
        rw [h6, hws]
        rfl
  | sendUser now content =>
    by_cases hc : content = []
    · have heq : stepOp (.sendUser now content) st = st := by
        simp only [stepOp, sendUserMessage, if_pos hc]
      rw [heq] at hs'
      exact congrArg Session.title (eq_of_mem_of_id_eq hnd hs' hs hid)
    · cases hcur : st.currentSessionId with
      | some cid =>
        have hsu : stepOp (.sendUser now content) st = updateSessionTitle cid content
            { st with sessions :=
                updateFirst (fun x => x.id == cid) (pushMsg "user".data content now) st.sessions } := by
          simp only [stepOp, sendUserMessage, if_neg hc, hcur]
        rw [hsu] at hs'
        rcases mem_appendTitle hs' with h3 | ⟨t, hfind, h4⟩
        · exact congrArg Session.title (eq_of_mem_of_id_eq hnd h3 hs hid)
        · have htmem : t ∈ st.sessions := List.mem_of_find?_eq_some hfind
          rcases h4 with h5 | ⟨hte, h5⟩
          · have hts : t = s := eq_of_mem_of_id_eq hnd htmem hs (by rw [← hid, h5]; rfl)
            rw [h5, hts]
            rfl
          · have hts : t = s := eq_of_mem_of_id_eq hnd htmem hs (by rw [← hid, h5]; rfl)
            exact absurd (hts ▸ hte) hmsgs
      | none =>
        have hfr : (toString now).data ∉ st.sessions.map Session.id := hfresh hcur
        set stc := createNewSession now st with hstc
        have hsu : stepOp (.sendUser now content) st
            = updateSessionTitle (freshSession now).id content
              { stc with sessions :=
                  updateFirst (fun x => x.id == (freshSession now).id) (pushMsg "user".data content now) stc.sessions } := by
          simp only [stepOp, sendUserMessage, if_neg hc, hcur, hstc, createNewSession,
            loadSession, renderHistory, saveSessions]
        rw [hsu] at hs'
        rcases mem_appendTitle hs' with h3 | ⟨t, hfind, h4⟩
        · have h3' : s' ∈ sortByUpdatedAtDesc (st.sessions ++ [freshSession now]) := by
            rw [hstc] at h3; exact h3
          have h2 := (sortByUpdatedAtDesc_perm _).mem_iff.mp h3'
          rcases List.mem_append.mp h2 with h5 | h5
          · exact congrArg Session.title (eq_of_mem_of_id_eq hnd h5 hs hid)
          · have h6 : s' = freshSession now := by simpa using h5
            have hfid : (toString now).data = s.id := by rw [← hid, h6]; rfl
            exact absurd (hfid ▸ List.mem_map_of_mem Session.id hs) hfr
        · have hfind' : (stc.sessions).find?
              (fun x => x.id == (freshSession now).id) = some t := hfind
          have hbeq := List.find?_some hfind'
          simp only [] at hbeq
          have htid : t.id = (freshSession now).id := eq_of_beq hbeq
          have hsid : s'.id = t.id := by
            rcases h4 with h5 | ⟨_, h5⟩ <;> rw [h5] <;> rfl
          have hfid : (toString now).data = s.id := by
            rw [← hid, hsid, htid]; rfl
          exact absurd (hfid ▸ List.mem_map_of_mem Session.id hs) hfr

/-- `deriveTitle` by cases on the 30-character threshold. -/
theorem deriveTitle_eq (content : List Char) :
    deriveTitle content
      = if 30 < content.length then content.take 30 ++ "...".data else content := by
  unfold deriveTitle
  by_cases h : 30 < content.length
  · rw [if_pos h, if_pos h]
  · rw [if_neg h, if_neg h, List.take_of_length_le (by omega), List.append_nil]

theorem create_persists (now : Nat) (st : StoreState) :
    ((createNewSession now st).stored).Perm ((createNewSession now st).sessions) := by
  simp only [createNewSession, loadSession, renderHistory, saveSessions]
  exact (sortByUpdatedAtDesc_perm _).symm

theorem sendUser_persists_first
    (st : StoreState) (now : Nat) (content cid : List Char) (t : Session)
    (hcur : st.currentSessionId = some cid) (hfind : findById st.sessions cid = some t)
    (ht : t.messages = []) (hc : content ≠ []) :
    ((sendUserMessage now content st).stored).Perm ((sendUserMessage now content st).sessions) := by
  have hsu : sendUserMessage now content st = updateSessionTitle cid content
      { st with sessions :=
          updateFirst (fun s => s.id == cid) (pushMsg "user".data content now) st.sessions } := by
    simp only [sendUserMessage, if_neg hc, hcur]
  have hput : findById (updateFirst (fun s => s.id == cid)
      (pushMsg "user".data content now) st.sessions) cid
      = some (pushMsg "user".data content now t) :=
    find?_updateFirst_eq_some (fun _ => rfl) hfind
  have hlen : (pushMsg "user".data content now t).messages.length = 1 := by
    simp [pushMsg, ht]
  rw [hsu]
  simp only [updateSessionTitle, hput, hlen, if_pos, renderHistory, saveSessions]
  exact (sortByUpdatedAtDesc_perm _).symm

theorem commit_persists (st : StoreState) (now : Nat) (content cid : List Char)
    (hcur : st.currentSessionId = some cid) :
    (commitAssistantMessage now content st).stored
      = (commitAssistantMessage now content st).sessions := by
  simp only [commitAssistantMessage, hcur, saveSessions]

/-- C3 amended: the persist points of the session store are `createSession`,
the title derivation (which runs only when the appended user message is the
session's first), and the assistant commit — after those, durable storage
holds the same sessions as memory (the commit even gives exact list
equality; creation and first-send agree up to the display reordering done
after saving).  A user message appended to a session that already has
messages is not persisted at send time (see the counterexample). -/
theorem persist_on_create_first_send_and_commit :
    (∀ (now : Nat) (st : StoreState),
        ((stepOp (.create now) st).stored).Perm ((stepOp (.create now) st).sessions))
    ∧ (∀ (st : StoreState) (now : Nat) (content cid : List Char) (t : Session),
        st.currentSessionId = some cid →
        findById st.sessions cid = some t → t.messages = [] → content ≠ [] →
        ((stepOp (.sendUser now content) st).stored).Perm
          ((stepOp (.sendUser now content) st).sessions))
    ∧ (∀ (st : StoreState) (now : Nat) (content cid : List Char),
        st.currentSessionId = some cid →
        (stepOp (.commitAssistant now content) st).stored
          = (stepOp (.commitAssistant now content) st).sessions) :=
  ⟨fun now st => create_persists now st,
   fun st now content cid t hcur hfind ht hc =>
     sendUser_persists_first st now content cid t hcur hfind ht hc,
   fun st now content cid hcur => commit_persists st now content cid hcur⟩

theorem persist_on_create_first_send_and_commit_witness :
    ((⟨[⟨"1".data, "New Chat".data, [], 1⟩], [], some "1".data⟩ : StoreState).currentSessionId
        = some "1".data)
    ∧ (findById [⟨"1".data, "New Chat".data, [], 1⟩] "1".data
        = some ⟨"1".data, "New Chat".data, [], 1⟩)
    ∧ ((stepOp (.sendUser 2 "hi".data)
          ⟨[⟨"1".data, "New Chat".data, [], 1⟩], [], some "1".data⟩).stored).Perm
        ((stepOp (.sendUser 2 "hi".data)
          ⟨[⟨"1".data, "New Chat".data, [], 1⟩], [], some "1".data⟩).sessions) := by
  refine ⟨by decide, by decide, ?_⟩
  exact persist_on_create_first_send_and_commit.2.1
    ⟨[⟨"1".data, "New Chat".data, [], 1⟩], [], some "1".data⟩ 2 "hi".data "1".data
    ⟨"1".data, "New Chat".data, [], 1⟩ (by decide) (by decide) (by decide) (by decide)

/-- C3 counterexample: a user message appended to a session that already has
messages is not persisted when sent.  Run `create`, first send, assistant
commit, then a second send: the in-memory session then holds three messages
while durable storage still holds two — so storage does not mirror memory
after this mutating operation, and the second user message is not durably
stored before the upstream call completes. -/
theorem user_append_not_persisted :
    (findById (stepOp (.sendUser 4 "again".data) (stepOp (.commitAssistant 3 "yo".data)
        (stepOp (.sendUser 2 "hi".data) (stepOp (.create 1)
          ⟨[], [], none⟩)))).sessions "1".data).map (fun s => s.messages.length) = some 3
    ∧ (findById (stepOp (.sendUser 4 "again".data) (stepOp (.commitAssistant 3 "yo".data)
        (stepOp (.sendUser 2 "hi".data) (stepOp (.create 1)
          ⟨[], [], none⟩)))).stored "1".data).map (fun s => s.messages.length) = some 2 := by
  constructor
  · decide
  · decide

/-- C6: when a session's first message is appended, a content longer than 30
characters yields a title of exactly its first 30 characters followed by the
ellipsis marker (33 characters in all, so a 45-character message gives 30
characters plus the marker), and a content of at most 30 characters becomes
the title unchanged. -/
theorem title_truncation :
    (∀ (st : StoreState) (now : Nat) (content cid : List Char) (t : Session),
        (st.sessions.map Session.id).Nodup →
        st.currentSessionId = some cid →
        findById st.sessions cid = some t → t.messages = [] → content ≠ [] →
        ∀ s' ∈ (stepOp (.sendUser now content) st).sessions, s'.id = cid →
          s'.title = if 30 < content.length then content.take 30 ++ "...".data else content)
    ∧ (∀ content : List Char, 30 < content.length →
        (content.take 30 ++ "...".data).length = 33) := by
  constructor
  · intro st now content cid t hnd hcur hfind ht hc s' hs' hsid
    have h := (sendUser_title_exact st now content cid t hnd hcur hfind ht hc).2 s' hs' hsid
    rw [h, deriveTitle_eq]
  · intro content h
    rw [List.length_append, List.length_take]
    show min 30 content.length + 3 = 33
    omega

theorem title_truncation_witness :
    ("012345678901234567890123456789012345678901234".data.length = 45)
    ∧ (setTitle "012345678901234567890123456789012345678901234".data
        (pushMsg "user".data "012345678901234567890123456789012345678901234".data 2
          ⟨"1".data, "New Chat".data, [], 1⟩)
        ∈ (stepOp (.sendUser 2 "012345678901234567890123456789012345678901234".data)
            ⟨[⟨"1".data, "New Chat".data, [], 1⟩], [], some "1".data⟩).sessions)
    ∧ (setTitle "012345678901234567890123456789012345678901234".data
        (pushMsg "user".data "012345678901234567890123456789012345678901234".data 2
          ⟨"1".data, "New Chat".data, [], 1⟩)).title
        = "012345678901234567890123456789...".data := by
  refine ⟨by decide, by decide, ?_⟩
  have h := title_truncation.1
    ⟨[⟨"1".data, "New Chat".data, [], 1⟩], [], some "1".data⟩ 2
    "012345678901234567890123456789012345678901234".data "1".data
    ⟨"1".data, "New Chat".data, [], 1⟩
    (by decide) (by decide) (by decide) (by decide) (by decide)
    (setTitle "012345678901234567890123456789012345678901234".data
      (pushMsg "user".data "012345678901234567890123456789012345678901234".data 2
        ⟨"1".data, "New Chat".data, [], 1⟩))
    (by decide) (by decide)
  rw [h]
  decide

/-- C7: a session's title is written exactly at that session's 0-to-1
messages transition, derived from the first message's content; once a
session has any message, no store operation (create, load, user append,
assistant commit) recomputes its title. -/
theorem title_set_once :
    (∀ (st : StoreState) (op : StoreOp) (s s' : Session),
        (st.sessions.map Session.id).Nodup → opFresh op st →
        s ∈ st.sessions → s.messages ≠ [] →
        s' ∈ (stepOp op st).sessions → s'.id = s.id → s'.title = s.title)
    ∧ (∀ (st : StoreState) (now : Nat) (content cid : List Char) (t : Session),
        (st.sessions.map Session.id).Nodup →
        st.currentSessionId = some cid →
        findById st.sessions cid = some t → t.messages = [] → content ≠ [] →
        ∀ s' ∈ (stepOp (.sendUser now content) st).sessions, s'.id = cid →
          s'.title = deriveTitle content) :=
  ⟨step_preserves_title,
   fun st now content cid t hnd hcur hfind ht hc =>
     (sendUser_title_exact st now content cid t hnd hcur hfind ht hc).2⟩

theorem title_set_once_witness :
    ((⟨"1".data, "hello".data, [⟨"user".data, "hi".data⟩], 1⟩ : Session).messages ≠ [])
    ∧ (⟨"1".data, "hello".data, [⟨"user".data, "hi".data⟩, ⟨"user".data, "again".data⟩], 5⟩
          : Session).title
        = (⟨"1".data, "hello".data, [⟨"user".data, "hi".data⟩], 1⟩ : Session).title := by
  refine ⟨by decide, ?_⟩
  exact title_set_once.1
    ⟨[⟨"1".data, "hello".data, [⟨"user".data, "hi".data⟩], 1⟩],
      [⟨"1".data, "hello".data, [⟨"user".data, "hi".data⟩], 1⟩], some "1".data⟩
    (.sendUser 5 "again".data)
    ⟨"1".data, "hello".data, [⟨"user".data, "hi".data⟩], 1⟩
    ⟨"1".data, "hello".data, [⟨"user".data, "hi".data⟩, ⟨"user".data, "again".data⟩], 5⟩
    (by decide) (fun h => Option.noConfusion h) (by decide) (by decide) (by decide) (by decide)

/-! ### Credential resolution and 401 handling
(`getApiKey`, `ensureApiKey`, `handleSend` lines 182-233)

The three sources of `getApiKey` are passed in explicitly: the build-time
`import.meta.env` value, the runtime `process.env` value (each the empty
string when absent or empty — both are falsy in JS), and the
`localStorage('infotip_openai_key')` entry (`none` when absent;
`getItem(...) || ''` makes it the empty string).  The interactive `prompt`
reply is `none` when the user cancels. -/

/-- JS `String.prototype.trim` over the usual whitespace. -/
def jsTrim (s : List Char) : List Char :=
  ((s.dropWhile Char.isWhitespace).reverse.dropWhile Char.isWhitespace).reverse

structure KeyEnv where
  viteKey : List Char
  nodeKey : List Char
  storedKey : Option (List Char)
  promptReply : Option (List Char)
deriving DecidableEq

/-- `getApiKey()`: ordered fallback chain, empty values fall through. -/
def getApiKey (viteKey nodeKey : List Char) (storedKey : Option (List Char)) : List Char :=
  if viteKey ≠ [] then viteKey
  else if nodeKey ≠ [] then nodeKey
  else storedKey.getD []

structure EnsureResult where
  key : List Char
  storedKey : Option (List Char)
  prompted : Bool
deriving DecidableEq

/-- `ensureApiKey()`: prompt only when the chain yields nothing; a
non-blank reply is trimmed, cached in storage and used; a cancelled or
blank reply leaves no key (an error toast is shown). -/
def ensureApiKey (env : KeyEnv) : EnsureResult :=
  let key := getApiKey env.viteKey env.nodeKey env.storedKey
  if key = [] then
    match env.promptReply with
    | some userInput =>
      if jsTrim userInput ≠ [] then
        { key := jsTrim userInput, storedKey := some (jsTrim userInput), prompted := true }
      else
        { key := [], storedKey := env.storedKey, prompted := true }
    | none => { key := [], storedKey := env.storedKey, prompted := true }
  else
    { key := key, storedKey := env.storedKey, prompted := false }

structure UpstreamResponse where
  status : Nat
deriving DecidableEq

/-- `response.ok` of the Fetch API. -/
def responseOk (r : UpstreamResponse) : Bool := 200 ≤ r.status && r.status < 300

structure SendAuthResult where
  fetches : Nat
  storedKey : Option (List Char)
  errorShown : Bool
deriving DecidableEq

/-- The credential/response slice of `handleSend`: empty input returns at
once; a missing credential aborts before any request; otherwise exactly one
upstream request is issued.  On a non-ok response the code throws — after
`localStorage.removeItem('infotip_openai_key')` when the status is 401 —
and the catch block renders the error inline; no path issues a second
request. -/
def handleSendAuth (env : KeyEnv) (content : List Char) (resp : UpstreamResponse) :
    SendAuthResult :=
  if content = [] then { fetches := 0, storedKey := env.storedKey, errorShown := false }
  else
    let er := ensureApiKey env
    if er.key = [] then { fetches := 0, storedKey := er.storedKey, errorShown := false }
    else if responseOk resp then
      { fetches := 1, storedKey := er.storedKey, errorShown := false }
    else if resp.status = 401 then
      { fetches := 1, storedKey := none, errorShown := true }
    else
      { fetches := 1, storedKey := er.storedKey, errorShown := true }

/-- C8: on an HTTP 401 the cached credential is purged from storage, the
attempt issues exactly one upstream request (and no code path ever issues
more than one — no automatic retry), and a subsequent credential
resolution with no build-time or environment value finds no key and
re-prompts the user. -/
theorem purge_on_401_and_reprompt :
    (∀ (env : KeyEnv) (content : List Char) (resp : UpstreamResponse),
        (handleSendAuth env content resp).fetches ≤ 1)
    ∧ (∀ (env : KeyEnv) (content : List Char) (resp : UpstreamResponse),
        content ≠ [] → (ensureApiKey env).key ≠ [] → resp.status = 401 →
        (handleSendAuth env content resp).fetches = 1
        ∧ (handleSendAuth env content resp).storedKey = none
        ∧ (handleSendAuth env content resp).errorShown = true
        ∧ ∀ reply : Option (List Char),
            (ensureApiKey ⟨[], [], (handleSendAuth env content resp).storedKey, reply⟩).prompted
              = true) := by
  constructor
  · intro env content resp
    unfold handleSendAuth
    dsimp only
    repeat' split
    all_goals simp
  · intro env content resp hc hk hstatus
    have hok : responseOk resp = false := by
      simp [responseOk, hstatus]
    have hres : handleSendAuth env content resp
        = { fetches := 1, storedKey := none, errorShown := true } := by
      unfold handleSendAuth
      rw [if_neg hc, if_neg hk, hok]
      simp [hstatus]
    refine ⟨by rw [hres], by rw [hres], by rw [hres], ?_⟩
    intro reply
    rw [hres]
    show (ensureApiKey ⟨[], [], none, reply⟩).prompted = true
    unfold ensureApiKey getApiKey
    cases reply with
    | none => rfl
    | some u =>
      by_cases hu : jsTrim u ≠ []
      · simp [hu]
      · simp [hu]

theorem purge_on_401_and_reprompt_witness :
    ("hi".data ≠ [] ∧ (ensureApiKey ⟨[], [], some "sk-abc".data, none⟩).key ≠ [])
    ∧ (handleSendAuth ⟨[], [], some "sk-abc".data, none⟩ "hi".data ⟨401⟩).storedKey = none
    ∧ (ensureApiKey ⟨[], [],
        (handleSendAuth ⟨[], [], some "sk-abc".data, none⟩ "hi".data ⟨401⟩).storedKey,
        some "sk-new".data⟩).prompted = true := by
  refine ⟨⟨by decide, by decide⟩, ?_, ?_⟩
  · exact (purge_on_401_and_reprompt.2 ⟨[], [], some "sk-abc".data, none⟩ "hi".data ⟨401⟩
      (by decide) (by decide) (by decide)).2.1
  · exact (purge_on_401_and_reprompt.2 ⟨[], [], some "sk-abc".data, none⟩ "hi".data ⟨401⟩
      (by decide) (by decide) (by decide)).2.2.2 (some "sk-new".data)

/-! ### Copy-to-clipboard pipeline (`copyText`, `appendMessage`, commit
re-attachment; lines 143-178 and 267-271)

`appendMessage` writes an inline handler attribute
`onclick="copyText('<encodeURIComponent(content)>')"` into the markup, and
after streaming completes the commit code re-attaches the same shape with
the final content.  Clicking evaluates the attribute text as JavaScript;
`copyText` applies `decodeURIComponent` and writes to the clipboard. -/

/-- Characters `encodeURIComponent` leaves unescaped:
`A-Z a-z 0-9 - _ . ! ~ * ' ( )`. -/
def uriUnreserved (c : Char) : Bool :=
  c.isAlphanum || c = '-' || c = '_' || c = '.' || c = '!' || c = '~' || c = '*'
    || c = Char.ofNat 39 || c = '(' || c = ')'

/-- UTF-8 bytes of one scalar value. -/
def utf8Bytes (c : Char) : List Nat :=
  let n := c.toNat
  if n < 0x80 then [n]
  else if n < 0x800 then [0xC0 + n / 64, 0x80 + n % 64]
  else if n < 0x10000 then [0xE0 + n / 4096, 0x80 + (n / 64) % 64, 0x80 + n % 64]
  else [0xF0 + n / 262144, 0x80 + (n / 4096) % 64, 0x80 + (n / 64) % 64, 0x80 + n % 64]

def hexDigitUpper (n : Nat) : Char :=
  if n < 10 then Char.ofNat ('0'.toNat + n) else Char.ofNat ('A'.toNat + n - 10)

def percentByte (b : Nat) : List Char :=
  ['%', hexDigitUpper (b / 16), hexDigitUpper (b % 16)]

/-- JS `encodeURIComponent`: unreserved characters pass through, all others
are percent-encoded as their UTF-8 bytes. -/
def encodeURIComponent (s : List Char) : List Char :=
  s.flatMap (fun c => if uriUnreserved c then [c] else (utf8Bytes c).flatMap percentByte)

/-- JS `decodeURIComponent` (`none` models the `URIError` throw): percent
sequences are decoded as UTF-8, with continuation-byte, overlong-form,
surrogate and range checks. -/
def decodeUri (fuel : Nat) (cs : List Char) : Option (List Char) :=
  match fuel, cs with
  | _, [] => some []
  | 0, _ => none
  | fuel + 1, c :: rest =>
    if c = '%' then
      match rest with
      | h1 :: h2 :: r1 =>
        match hexVal h1, hexVal h2 with
        | some v1, some v2 =>
          let b := v1 * 16 + v2
          if b < 0x80 then (decodeUri fuel r1).map (fun t => Char.ofNat b :: t)
          else if b < 0xC2 then none
          else if b < 0xE0 then
            match r1 with
            | '%' :: g1 :: g2 :: r2 =>
              match hexVal g1, hexVal g2 with
              | some w1, some w2 =>
                let b2 := w1 * 16 + w2
                if 0x80 ≤ b2 ∧ b2 < 0xC0 then
                  (decodeUri fuel r2).map
                    (fun t => Char.ofNat ((b - 0xC0) * 64 + (b2 - 0x80)) :: t)
                else none
              | _, _ => none
            | _ => none
          else if b < 0xF0 then
            match r1 with
            | '%' :: g1 :: g2 :: '%' :: g3 :: g4 :: r2 =>
              match hexVal g1, hexVal g2, hexVal g3, hexVal g4 with
              | some w1, some w2, some w3, some w4 =>
                let b2 := w1 * 16 + w2
                let b3 := w3 * 16 + w4
                if (0x80 ≤ b2 ∧ b2 < 0xC0) ∧ (0x80 ≤ b3 ∧ b3 < 0xC0) then
                  let n := ((b - 0xE0) * 64 + (b2 - 0x80)) * 64 + (b3 - 0x80)
                  if n < 0x800 ∨ (0xD800 ≤ n ∧ n < 0xE000) then none
                  else (decodeUri fuel r2).map (fun t => Char.ofNat n :: t)
                else none
              | _, _, _, _ => none
            | _ => none
          else if b < 0xF5 then
            match r1 with
            | '%' :: g1 :: g2 :: '%' :: g3 :: g4 :: '%' :: g5 :: g6 :: r2 =>
              match hexVal g1, hexVal g2, hexVal g3, hexVal g4, hexVal g5, hexVal g6 with
              | some w1, some w2, some w3, some w4, some w5, some w6 =>
                let b2 := w1 * 16 + w2
                let b3 := w3 * 16 + w4
                let b4 := w5 * 16 + w6
                if (0x80 ≤ b2 ∧ b2 < 0xC0) ∧ (0x80 ≤ b3 ∧ b3 < 0xC0)
                    ∧ (0x80 ≤ b4 ∧ b4 < 0xC0) then
                  let n := (((b - 0xF0) * 64 + (b2 - 0x80)) * 64 + (b3 - 0x80)) * 64
                    + (b4 - 0x80)
                  if n < 0x10000 ∨ 0x110000 ≤ n then none
                  else (decodeUri fuel r2).map (fun t => Char.ofNat n :: t)
                else none
              | _, _, _, _, _, _ => none
            | _ => none
          else none
        | _, _ => none
      | _ => none
    else (decodeUri fuel rest).map (fun t => c :: t)

/-- `copyText(text)`: decode the handler argument and write it to the
clipboard; the copied text, or `none` when decoding throws. -/
def copyText (text : List Char) : Option (List Char) :=
  decodeUri text.length text

/-- The inline handler attribute written by `appendMessage` and by the
post-stream re-attachment: `copyText('<encoded>')`. -/
def onclickAttr (content : List Char) : List Char :=
  "copyText('".data ++ encodeURIComponent content ++ "')".data

/-- Browser evaluation of the inline `onclick` attribute text as
JavaScript.  For the single shape this code writes — a `copyText` call on a
single-quoted literal (the encoded payload never contains a backslash, so
no escape sequences arise) — the argument is the text up to the next
apostrophe, and the statement is well-formed only if exactly `)` follows
the closing quote.  Anything else is a syntax error: the handler throws and
nothing reaches `copyText` (`none`). -/
def evalOnclick (attr : List Char) : Option (List Char) :=
  if "copyText('".data.isPrefixOf attr then
    let rest := attr.drop 10
    let lit := rest.takeWhile (fun c => c ≠ Char.ofNat 39)
    match rest.drop lit.length with
    | q :: r => if q = Char.ofNat 39 ∧ r = [')'] then some lit else none
    | [] => none
  else none

/-- Activating the copy affordance on a message with the given content:
evaluate the attached handler, then run `copyText` on its argument. -/
def activateCopy (content : List Char) : Option (List Char) :=
  (evalOnclick (onclickAttr content)).bind copyText

/-- C9: the copy affordance fails to capture content containing an
apostrophe.  `encodeURIComponent` leaves `'` unescaped, so for the content
`it's` the attached handler text is `copyText('it's')` — a JavaScript
syntax error — and activating copy yields nothing instead of the original
text.  For apostrophe-free content (such as the streamed `Hello`) the
decode does invert the encode and copy returns the original. -/
theorem copy_fails_on_apostrophe :
    onclickAttr "it's".data = "copyText('it's')".data
    ∧ activateCopy "it's".data = none
    ∧ activateCopy "Hello".data = some "Hello".data
    ∧ activateCopy "100% sure".data = some "100% sure".data := by
  refine ⟨by decide, by decide, by decide, by decide⟩

/-! ### Redactor (`redactBtn` click handler, lines 303-327)

The four regexes are embedded as executable matchers over `List Char` with
JavaScript leftmost / greedy-with-backtracking semantics, and global
replacement (`String.replace` with the `g` flag) as a left-to-right scan
that restarts after each match.  Optional single-character elements
(`\+?`, `[-.\s]?`, `\(?`, `\)?`, `["']?`) try the greedy branch first and
fall back; counted digit groups try the longest count first. -/

/-- `\s` of JavaScript regexes (the characters the inputs here can carry;
exotic Unicode space separators behave identically for these patterns). -/
def jsWhitespace (c : Char) : Bool :=
  c = ' ' || c = '\t' || c = '\n' || c = '\r'
    || c = Char.ofNat 11 || c = Char.ofNat 12 || c = Char.ofNat 0xA0 || c = Char.ofNat 0xFEFF

/-- `[a-zA-Z0-9._%+-]` — the email local-part class. -/
def emailLocalChar (c : Char) : Bool :=
  c.isAlphanum || c = '.' || c = '_' || c = '%' || c = '+' || c = '-'

/-- `[a-zA-Z0-9.-]` — the email domain class. -/
def emailDomainChar (c : Char) : Bool :=
  c.isAlphanum || c = '.' || c = '-'

def letterRunLen (cs : List Char) : Nat := (cs.takeWhile Char.isAlpha).length

/-- Backtracking of `[a-zA-Z0-9.-]+\.[a-zA-Z]{2,}` inside the maximal
domain-class run `dp`: the `+` tries the longest take first, so the dot is
searched from the right; the argument is the candidate number of class
characters consumed before the dot (at least 1). -/
def emailDomainSplit (dp : List Char) : Nat → Option Nat
  | 0 => none
  | d + 1 =>
    match dp.drop (d + 1) with
    | '.' :: tail =>
      if 2 ≤ letterRunLen tail then some ((d + 1) + 1 + letterRunLen tail)
      else emailDomainSplit dp d
    | _ => emailDomainSplit dp d

/-- Match attempt of `emailRegex` at the head of `cs`; returns the matched
length.  The local part is the maximal run (a shorter take is followed by a
local-class character, never `@`, so no backtracking arises). -/
def matchEmail (cs : List Char) : Option Nat :=
  let lp := cs.takeWhile emailLocalChar
  if lp = [] then none
  else
    match cs.drop lp.length with
    | '@' :: rest =>
      let dp := rest.takeWhile emailDomainChar
      (emailDomainSplit dp (dp.length - 1)).map (fun dlen => lp.length + 1 + dlen)
    | _ => none

/-- Greedy optional single character: take it if it matches, and retry
without it if the continuation fails. -/
def tryOptChar (p : Char → Bool) (cs : List Char) (k : List Char → Nat → Option Nat) :
    Option Nat :=
  match cs with
  | c :: rest =>
    if p c then
      match k rest 1 with
      | some r => some r
      | none => k cs 0
    else k cs 0
  | [] => k cs 0

/-- Greedy counted digit group: try `n` digits, then `n - 1`, …, down to
`lo`, handing the remainder and the count to the continuation. -/
def tryDigitsFrom (cs : List Char) (lo : Nat) (k : List Char → Nat → Option Nat) :
    Nat → Option Nat
  | 0 => if lo = 0 then k cs 0 else none
  | n + 1 =>
    if lo ≤ n + 1 then
      match k (cs.drop (n + 1)) (n + 1) with
      | some r => some r
      | none => tryDigitsFrom cs lo k n
    else none

/-- `[0-9]{lo,hi}` with greedy backtracking. -/
def tryDigits (lo hi : Nat) (cs : List Char) (k : List Char → Nat → Option Nat) :
    Option Nat :=
  tryDigitsFrom cs lo k (min hi ((cs.takeWhile Char.isDigit).length))

def phoneSepChar (c : Char) : Bool := c = '-' || c = '.' || jsWhitespace c

/-- Match attempt of `phoneRegex`
`\+?[0-9]{1,3}[-.\s]?\(?[0-9]{1,3}\)?[-.\s]?[0-9]{3,4}[-.\s]?[0-9]{4}`
at the head of `cs`, with full backtracking in greedy order. -/
def matchPhone (cs0 : List Char) : Option Nat :=
  tryOptChar (fun c => c = '+') cs0 (fun cs1 n1 =>
    tryDigits 1 3 cs1 (fun cs2 n2 =>
      tryOptChar phoneSepChar cs2 (fun cs3 n3 =>
        tryOptChar (fun c => c = '(') cs3 (fun cs4 n4 =>
          tryDigits 1 3 cs4 (fun cs5 n5 =>
            tryOptChar (fun c => c = ')') cs5 (fun cs6 n6 =>
              tryOptChar phoneSepChar cs6 (fun cs7 n7 =>
                tryDigits 3 4 cs7 (fun cs8 n8 =>
                  tryOptChar phoneSepChar cs8 (fun cs9 n9 =>
                    tryDigits 4 4 cs9 (fun _ n10 =>
                      some (n1 + n2 + n3 + n4 + n5 + n6 + n7 + n8 + n9 + n10)))))))))))

/-- `\w` of JavaScript: `[A-Za-z0-9_]`. -/
def wordChar (c : Char) : Bool := c.isAlphanum || c = '_'

/-- `\d{1,3}\.` — an octet then a dot.  A digit run longer than 3 cannot
match (any shorter take is followed by a digit, not a dot). -/
def matchIpOctetDot (cs : List Char) : Option (List Char × Nat) :=
  let run := (cs.takeWhile Char.isDigit).length
  if 1 ≤ run ∧ run ≤ 3 then
    match cs.drop run with
    | '.' :: rest => some (rest, run + 1)
    | _ => none
  else none

/-- Match attempt of `ipRegex` `\b\d{1,3}\.\d{1,3}\.\d{1,3}\.\d{1,3}\b` at
the head of `cs`; `prev` is the character before this position (`none` at
the string start), used for the leading word boundary. -/
def matchIp (prev : Option Char) (cs : List Char) : Option Nat :=
  if (prev.map wordChar).getD false then none
  else
    match matchIpOctetDot cs with
    | none => none
    | some (cs1, n1) =>
      match matchIpOctetDot cs1 with
      | none => none
      | some (cs2, n2) =>
        match matchIpOctetDot cs2 with
        | none => none
        | some (cs3, n3) =>
          let run := (cs3.takeWhile Char.isDigit).length
          if 1 ≤ run ∧ run ≤ 3 then
            match cs3.drop run with
            | [] => some (n1 + n2 + n3 + run)
            | c :: _ => if wordChar c then none else some (n1 + n2 + n3 + run)
          else none

/-- Case-insensitive literal prefix test (ASCII, as in these patterns). -/
def ciPrefix (pat cs : List Char) : Bool :=
  (cs.take pat.length).map Char.toLower == pat

/-- The keyword alternation `(bearer|api[_-]?key|secret|token|password)`
with `/i`; alternatives are tried in order and `[_-]?` greedily.  At any
one position at most one alternative can match (no keyword is a prefix of
another up to case), so the first hit is the only one. -/
def matchKeyword (cs : List Char) : Option Nat :=
  if ciPrefix "bearer".data cs then some 6
  else if ciPrefix "api_key".data cs then some 7
  else if ciPrefix "api-key".data cs then some 7
  else if ciPrefix "apikey".data cs then some 6
  else if ciPrefix "secret".data cs then some 6
  else if ciPrefix "token".data cs then some 5
  else if ciPrefix "password".data cs then some 8
  else none

def secretSepChar (c : Char) : Bool := jsWhitespace c || c = ':' || c = '='

def secretValueChar (c : Char) : Bool := c.isAlphanum || c = '-' || c = '_'

def quoteChar (c : Char) : Bool := c = '"' || c = Char.ofNat 39

/-- Match attempt of `secretRegex`
`(bearer|api[_-]?key|secret|token|password)[\s:=]+["']?[a-zA-Z0-9\-_]{16,}["']?`
(`/gi`) at the head of `cs`; returns (total length, keyword length) — the
keyword is capture group 1.  The separator run is forced maximal (a shorter
take leaves a separator character where a quote or value character is
required), the optional quote is forced when present (a quote is not a
value character), and the value run is greedy with nothing after it. -/
def matchSecret (cs : List Char) : Option (Nat × Nat) :=
  match matchKeyword cs with
  | none => none
  | some kn =>
    let cs1 := cs.drop kn
    let sepRun := (cs1.takeWhile secretSepChar).length
    if sepRun = 0 then none
    else
      let cs2 := cs1.drop sepRun
      let qpair : Nat × List Char :=
        match cs2 with
        | c :: rest => if quoteChar c then (1, rest) else (0, cs2)
        | [] => (0, cs2)
      let valRun := (qpair.2.takeWhile secretValueChar).length
      if 16 ≤ valRun then
        let cs4 := qpair.2.drop valRun
        let qn2 : Nat :=
          match cs4 with
          | c :: _ => if quoteChar c then 1 else 0
          | [] => 0
        some (kn + sepRun + qpair.1 + valRun + qn2, kn)
      else none

/-- One pass of JS `String.replace(regex, replacement)` with the `g` flag:
scan left to right; at a match emit the replacement and resume immediately
after the matched text of the original string (so the boundary context of
later attempts is the original's characters — `prev` becomes the last
matched character).  `fuel` only bounds the recursion; the wrapper passes
the input length, which every step strictly consumes. -/
def replaceScanF (m : Option Char → List Char → Option (Nat × List Char)) :
    Nat → Option Char → List Char → List Char
  | _, _, [] => []
  | 0, _, cs => cs
  | fuel + 1, prev, c :: rest =>
    match m prev (c :: rest) with
    | some (n + 1, repl) =>
        repl ++ replaceScanF m fuel (((c :: rest).take (n + 1)).getLast?) (rest.drop n)
    | _ => c :: replaceScanF m fuel (some c) rest

def replaceScan (m : Option Char → List Char → Option (Nat × List Char))
    (cs : List Char) : List Char :=
  replaceScanF m cs.length none cs

def emailMatcher (_ : Option Char) (cs : List Char) : Option (Nat × List Char) :=
  (matchEmail cs).map (fun n => (n, "[REDACTED_EMAIL]".data))

def phoneMatcher (_ : Option Char) (cs : List Char) : Option (Nat × List Char) :=
  (matchPhone cs).map (fun n => (n, "[REDACTED_PHONE]".data))

def ipMatcher (prev : Option Char) (cs : List Char) : Option (Nat × List Char) :=
  (matchIp prev cs).map (fun n => (n, "[REDACTED_IP]".data))

/-- Replacement `'$1: [REDACTED_SECRET]'` keeps the keyword as matched. -/
def secretMatcher (_ : Option Char) (cs : List Char) : Option (Nat × List Char) :=
  (matchSecret cs).map (fun p => (p.1, cs.take p.2 ++ ": [REDACTED_SECRET]".data))

/-- The four ordered substitutions of the redact handler. -/
def redact (t : List Char) : List Char :=
  replaceScan secretMatcher (replaceScan ipMatcher (replaceScan phoneMatcher
    (replaceScan emailMatcher t)))

structure RedactOutcome where
  inputValue : List Char
  toast : List Char
deriving DecidableEq

/-- The redact button click handler: empty input shows an error toast;
otherwise the input box is overwritten with the redacted text and the
completeness check runs `content.length !== originalLen || content !==
chatInput.value` — evaluated after the assignment `chatInput.value =
content`, so the second disjunct compares the new box value against itself
and is always false. -/
def redactClick (input : List Char) : RedactOutcome :=
  if input = [] then
    { inputValue := input, toast := "Nothing to redact in the input box".data }
  else
    let originalLen := input.length
    let content := redact input
    let newValue := content
    if content.length ≠ originalLen ∨ content ≠ newValue then
      { inputValue := newValue, toast := "PII and Secrets Redacted from input".data }
    else
      { inputValue := newValue, toast := "No PII/Secrets found in input".data }

/-- C2 counterexample: for the 16-character input `abcd@example.com` the
email substitution rewrites the entire text to the 16-character placeholder
`[REDACTED_EMAIL]` — a substitution occurred and the text changed — yet the
handler reports `No PII/Secrets found in input`: its check compares only
lengths, since the second disjunct compares the freshly assigned input box
against itself. -/
theorem redact_report_misses_equal_length_substitution :
    redact "abcd@example.com".data = "[REDACTED_EMAIL]".data
    ∧ redact "abcd@example.com".data ≠ "abcd@example.com".data
    ∧ (redactClick "abcd@example.com".data).toast = "No PII/Secrets found in input".data := by
  refine ⟨by decide, by decide, by decide⟩

/-- C2 amended: on non-empty input the handler reports that redaction
happened exactly when the redacted text's length differs from the
original's; an equal-length substitution is misreported as `No PII/Secrets
found` even though the text changed (and conversely a genuine no-op is
reported correctly, since a no-op preserves the length). -/
theorem redact_report_iff_length_changed (input : List Char) (h : input ≠ []) :
    (redactClick input).inputValue = redact input
    ∧ ((redactClick input).toast = "PII and Secrets Redacted from input".data
        ↔ (redact input).length ≠ input.length)
    ∧ ((redactClick input).toast = "No PII/Secrets found in input".data
        ↔ (redact input).length = input.length) := by
  unfold redactClick
  rw [if_neg h]
  dsimp only
  by_cases hl : (redact input).length = input.length
  · rw [if_neg]
    · refine ⟨rfl, ?_, ?_⟩
      · constructor
        · intro htoast
          have h2 : "No PII/Secrets found in input".data
              = "PII and Secrets Redacted from input".data := htoast
          exact absurd h2 (by decide)
        · intro hne
          exact absurd hl hne
      · exact ⟨fun _ => hl, fun _ => rfl⟩
    · rintro (hbad | hbad)
      · exact hbad hl
      · exact hbad rfl
  · rw [if_pos (Or.inl hl)]
    refine ⟨rfl, ⟨fun _ => hl, fun _ => rfl⟩, ?_⟩
    constructor
    · intro htoast
      have h2 : "PII and Secrets Redacted from input".data
          = "No PII/Secrets found in input".data := htoast
      exact absurd h2 (by decide)
    · intro heq
      exact absurd heq hl

theorem redact_report_iff_length_changed_witness :
    ("hello world".data ≠ [])
    ∧ ((redactClick "hello world".data).toast = "No PII/Secrets found in input".data
        ↔ (redact "hello world".data).length = "hello world".data.length) := by
  refine ⟨by decide, ?_⟩
  exact (redact_report_iff_length_changed "hello world".data (by decide)).2.2

/-! ### Redactor idempotence: declarative match shapes

A regex engine matches at a position exactly when some decomposition of a
prefix fits the pattern; the executable matchers above realise the
leftmost-greedy search.  For the idempotence proof each pattern gets a
declarative shape predicate on the consumed prefix, equivalent to the
matcher's success. -/

/-- A prefix matching `emailRegex`: local part, `@`, domain part, dot, at
least two letters. -/
def EmailShape (w : List Char) : Prop :=
  ∃ l d ts, w = l ++ '@' :: (d ++ '.' :: ts)
    ∧ l ≠ [] ∧ (∀ c ∈ l, emailLocalChar c)
    ∧ d ≠ [] ∧ (∀ c ∈ d, emailDomainChar c)
    ∧ 2 ≤ ts.length ∧ (∀ c ∈ ts, c.isAlpha)

/-- Some prefix of `cs` matches `emailRegex`. -/
def EmailAt (cs : List Char) : Prop :=
  ∃ n, EmailShape (cs.take n)

theorem takeWhile_spec {p : Char → Bool} {cs : List Char} :
    (∀ c ∈ cs.takeWhile p, p c)
    ∧ (∀ rest, cs.drop (cs.takeWhile p).length = rest →
        rest = [] ∨ ∃ c r, rest = c :: r ∧ ¬ p c) := by
  constructor
  · exact fun c h => List.mem_takeWhile_imp h
  · intro rest hrest
    subst hrest
    induction cs with
    | nil => exact Or.inl rfl
    | cons a as ih =>
      by_cases hp : p a
      · simpa [List.takeWhile_cons, hp] using ih
      · exact Or.inr ⟨a, as, by simp [List.takeWhile_cons, hp], hp⟩

/-- A run of `p`-characters starting a list is contained in its
`takeWhile`. -/
theorem prefix_all_le_takeWhile {p : Char → Bool} {l rest : List Char}
    (hall : ∀ c ∈ l, p c) :
    l.length ≤ ((l ++ rest).takeWhile p).length := by
  induction l with
  | nil => simp
  | cons a as ih =>
    have hpa : p a := hall a (List.mem_cons_self a as)
    simp only [List.cons_append, List.takeWhile_cons, hpa]
    simpa using ih (fun c hc => hall c (List.mem_cons_of_mem _ hc))

theorem takeWhile_append_of_all {p : Char → Bool} {l : List Char} {c : Char} {rest : List Char}
    (hall : ∀ x ∈ l, p x) (hc : ¬ p c) :
    (l ++ c :: rest).takeWhile p = l := by
  induction l with
  | nil => simp [List.takeWhile_cons, hc]
  | cons a as ih =>
    have hpa : p a := hall a (List.mem_cons_self a as)
    simp only [List.cons_append, List.takeWhile_cons, hpa, if_pos]
    rw [ih (fun x hx => hall x (List.mem_cons_of_mem _ hx))]

theorem letterRunLen_ge {ts rest : List Char} (hts : ∀ c ∈ ts, c.isAlpha) :
    ts.length ≤ letterRunLen (ts ++ rest) :=
  prefix_all_le_takeWhile hts

theorem emailDomainSplit_sound {dp : List Char} {k m : Nat}
    (h : emailDomainSplit dp k = some m) :
    ∃ d tail, 1 ≤ d ∧ dp.drop d = '.' :: tail ∧ 2 ≤ letterRunLen tail
      ∧ m = d + 1 + letterRunLen tail := by
  induction k with
  | zero => simp [emailDomainSplit] at h
  | succ k ih =>
    rw [emailDomainSplit] at h
    split at h
    · split at h
      · rename_i tail heq hl
        injection h with h
        exact ⟨k + 1, tail, by omega, heq, hl, h.symm⟩
      · exact ih h
    · exact ih h

theorem matchEmail_sound {cs : List Char} {n : Nat} (h : matchEmail cs = some n) :
    EmailShape (cs.take n) ∧ 1 ≤ n ∧ n ≤ cs.length := by
  unfold matchEmail at h
  dsimp only at h
  split at h
  · exact absurd h (by simp)
  · rename_i hlp
    split at h
    case h_2 => exact absurd h (by simp)
    case h_1 rest heq =>
      simp only [Option.map_eq_some'] at h
      obtain ⟨dlen, hsplit, hn⟩ := h
      obtain ⟨d, tail, hd1, hdp, hlr, hm⟩ := emailDomainSplit_sound hsplit
      set lp := cs.takeWhile emailLocalChar with hlpdef
      set dp := rest.takeWhile emailDomainChar with hdpdef
      have hcs : cs = lp ++ '@' :: rest := by
        have h1 : cs.take lp.length = lp :=
          (List.prefix_iff_eq_take.mp (List.takeWhile_prefix _)).symm
        calc cs = cs.take lp.length ++ cs.drop lp.length := (List.take_append_drop _ _).symm
        _ = lp ++ '@' :: rest := by rw [h1, heq]
      have hrest : rest = dp ++ rest.dropWhile emailDomainChar := by
        rw [hdpdef]; exact (List.takeWhile_append_dropWhile _ _).symm
      have hdp2 : dp = dp.take d ++ '.' :: tail := by
        calc dp = dp.take d ++ dp.drop d := (List.take_append_drop _ _).symm
        _ = dp.take d ++ '.' :: tail := by rw [hdp]
      set lr := tail.takeWhile Char.isAlpha with hlrdef
      have htail : tail = lr ++ tail.dropWhile Char.isAlpha := by
        rw [hlrdef]; exact (List.takeWhile_append_dropWhile _ _).symm
      have hdlen : d ≤ dp.length := by
        by_contra hgt
        rw [List.drop_eq_nil_of_le (by omega)] at hdp
        exact absurd hdp (by simp)
      have hlrlen : lr.length = letterRunLen tail := rfl
      have hw : cs = (lp ++ '@' :: (dp.take d ++ '.' :: lr))
          ++ (tail.dropWhile Char.isAlpha ++ rest.dropWhile emailDomainChar) := by
        conv_lhs => rw [hcs]
        conv_lhs => rw [hrest]
        conv_lhs => rw [hdp2]
        conv_lhs => rw [htail]
        simp only [List.append_assoc, List.cons_append]
      have hlen : (lp ++ '@' :: (dp.take d ++ '.' :: lr)).length = n := by
        simp only [List.length_append, List.length_cons, List.length_take]
        have hmin : d ⊓ dp.length = d := by omega
        rw [hmin]
        omega
      have htake : cs.take n = lp ++ '@' :: (dp.take d ++ '.' :: lr) := by
        rw [hw]
        exact List.take_left' hlen
      refine ⟨⟨lp, dp.take d, lr, htake, hlp, ?_, ?_, ?_, ?_, ?_⟩, ?_, ?_⟩
      · exact fun c hc => List.mem_takeWhile_imp hc
      · intro hdnil
        have h0 : (dp.take d).length = 0 := by rw [hdnil]; rfl
        rw [List.length_take] at h0
        omega
      · intro c hc
        exact List.mem_takeWhile_imp (List.mem_of_mem_take hc)
      · omega
      · exact fun c hc => List.mem_takeWhile_imp hc
      · omega
      · have : n ≤ (lp ++ '@' :: (dp.take d ++ '.' :: lr)).length
            + (tail.dropWhile Char.isAlpha ++ rest.dropWhile emailDomainChar).length := by
          omega
        calc n = (cs.take n).length := by
              rw [htake]; omega
        _ ≤ cs.length := by
              rw [List.length_take]; omega

theorem alpha_isDomain {c : Char} (h : c.isAlpha) : emailDomainChar c := by
  unfold emailDomainChar
  simp [Char.isAlphanum, h]

theorem emailDomainSplit_complete {dp tail : List Char} {d k : Nat}
    (hd1 : 1 ≤ d) (hdk : d ≤ k) (hdp : dp.drop d = '.' :: tail)
    (hlr : 2 ≤ letterRunLen tail) :
    emailDomainSplit dp k ≠ none := by
  induction k with
  | zero => omega
  | succ k ih =>
    rw [emailDomainSplit]
    split
    · split
      · simp
      · rename_i heq hl
        by_cases hdeq : d = k + 1
        · subst hdeq
          rw [hdp] at heq
          injection heq with h1 h2
          subst h2
          exact absurd hlr hl
        · exact ih (by omega)
    · rename_i hne
      by_cases hdeq : d = k + 1
      · subst hdeq
        exact (hne tail hdp).elim
      · exact ih (by omega)

theorem matchEmail_complete {cs : List Char} (h : EmailAt cs) :
    matchEmail cs ≠ none := by
  obtain ⟨n, l, d, ts, htake, hl, hlc, hd, hdc, hts, htsc⟩ := h
  have hcs : cs = l ++ '@' :: ((d ++ '.' :: ts) ++ cs.drop n) := by
    conv_lhs => rw [← List.take_append_drop n cs]
    rw [htake]
    simp [List.append_assoc]
  unfold matchEmail
  dsimp only
  have hlp : cs.takeWhile emailLocalChar = l := by
    conv_lhs => rw [hcs]
    exact takeWhile_append_of_all hlc (by decide)
  rw [hlp, if_neg hl]
  have hdrop : cs.drop l.length = '@' :: ((d ++ '.' :: ts) ++ cs.drop n) := by
    conv_lhs => rw [hcs]
    exact List.drop_left _ _
  rw [hdrop]
  have hassoc : ((d ++ '.' :: ts) ++ cs.drop n) = d ++ '.' :: (ts ++ cs.drop n) := by
    simp [List.append_assoc]
  rw [hassoc]
  have hdp : (d ++ '.' :: (ts ++ cs.drop n)).takeWhile emailDomainChar
      = d ++ '.' :: ((ts ++ cs.drop n).takeWhile emailDomainChar) := by
    rw [List.takeWhile_append_of_pos hdc]
    simp [List.takeWhile_cons, show emailDomainChar '.' = true from by decide]
  split
  case h_2 hne => exact (hne _ rfl).elim
  case h_1 rest heq =>
    injection heq with h1 h2
    subst h2
    rw [hdp]
    set Z := (ts ++ cs.drop n).takeWhile emailDomainChar with hZ
    have hZts : Z = ts ++ (cs.drop n).takeWhile emailDomainChar := by
      rw [hZ, List.takeWhile_append_of_pos (fun c hc => alpha_isDomain (htsc c hc))]
    have hlrZ : 2 ≤ letterRunLen Z := by
      rw [hZts]
      calc 2 ≤ ts.length := hts
      _ ≤ letterRunLen (ts ++ (cs.drop n).takeWhile emailDomainChar) := letterRunLen_ge htsc
    have hdropd : (d ++ '.' :: Z).drop d.length = '.' :: Z := List.drop_left _ _
    have hd1 : 1 ≤ d.length := by
      cases d with
      | nil => exact absurd rfl hd
      | cons a as => simp
    have hk : d.length ≤ (d ++ '.' :: Z).length - 1 := by
      simp only [List.length_append, List.length_cons]
      omega
    have hsplit := emailDomainSplit_complete hd1 hk hdropd hlrZ
    intro hmap
    rcases hmm : emailDomainSplit (d ++ '.' :: Z) ((d ++ '.' :: Z).length - 1) with _ | v
    · exact hsplit hmm
    · rw [hmm] at hmap
      exact absurd hmap (by simp)

/-- An optional single-character regex element (`x?`). -/
def OptSeg (p : Char → Bool) (seg : List Char) : Prop :=
  seg = [] ∨ ∃ c, seg = [c] ∧ p c

/-- A counted digit group (`[0-9]{lo,hi}`). -/
def DigSeg (lo hi : Nat) (seg : List Char) : Prop :=
  lo ≤ seg.length ∧ seg.length ≤ hi ∧ ∀ c ∈ seg, c.isDigit

/-- A prefix matching `phoneRegex`, as ten consecutive segments. -/
def PhoneShape (w : List Char) : Prop :=
  ∃ p g1 s1 lp g2 rp s2 g3 s3 g4,
    w = p ++ (g1 ++ (s1 ++ (lp ++ (g2 ++ (rp ++ (s2 ++ (g3 ++ (s3 ++ g4))))))))
    ∧ OptSeg (fun c => c = '+') p ∧ DigSeg 1 3 g1 ∧ OptSeg phoneSepChar s1
    ∧ OptSeg (fun c => c = '(') lp ∧ DigSeg 1 3 g2 ∧ OptSeg (fun c => c = ')') rp
    ∧ OptSeg phoneSepChar s2 ∧ DigSeg 3 4 g3 ∧ OptSeg phoneSepChar s3 ∧ DigSeg 4 4 g4

def PhoneAt (cs : List Char) : Prop := ∃ n, PhoneShape (cs.take n)

theorem tryOptChar_none_complete {p : Char → Bool} {seg rest : List Char}
    {k : List Char → Nat → Option Nat}
    (hseg : OptSeg p seg) (h : tryOptChar p (seg ++ rest) k = none) :
    k rest seg.length = none := by
  rcases hseg with rfl | ⟨c, rfl, hpc⟩
  · rcases rest with _ | ⟨c, r⟩
    · exact h
    · dsimp only [tryOptChar, List.nil_append, List.cons_append, List.singleton_append] at h
      by_cases hpc : p c
      · rw [if_pos hpc] at h
        rcases hk : k r 1 with _ | v
        · rw [hk] at h; exact h
        · rw [hk] at h; exact absurd h (by simp)
      · rw [if_neg hpc] at h
        exact h
  · dsimp only [tryOptChar, List.nil_append, List.cons_append, List.singleton_append] at h
    rw [if_pos hpc] at h
    rcases hk : k rest 1 with _ | v
    · exact hk
    · rw [hk] at h; exact absurd h (by simp)

theorem tryDigitsFrom_none_forall {cs : List Char} {lo : Nat}
    {k : List Char → Nat → Option Nat} {start : Nat}
    (h : tryDigitsFrom cs lo k start = none) :
    ∀ m, lo ≤ m → m ≤ start → k (cs.drop m) m = none := by
  induction start with
  | zero =>
    intro m hlo hm
    have hm0 : m = 0 := by omega
    subst hm0
    rw [tryDigitsFrom, if_pos (by omega)] at h
    simpa using h
  | succ s ih =>
    intro m hlo hm
    rw [tryDigitsFrom] at h
    by_cases hle : lo ≤ s + 1
    · rw [if_pos hle] at h
      rcases hk : k (cs.drop (s + 1)) (s + 1) with _ | v
      · rw [hk] at h
        by_cases hms : m = s + 1
        · subst hms; exact hk
        · exact ih h m hlo (by omega)
      · rw [hk] at h; exact absurd h (by simp)
    · omega

theorem digits_take_all {cs : List Char} {m : Nat}
    (hm : m ≤ (cs.takeWhile Char.isDigit).length) :
    ∀ c ∈ cs.take m, c.isDigit := by
  intro c hc
  have h1 : cs.take m = (cs.takeWhile Char.isDigit).take m := by
    have hpre := List.takeWhile_prefix (l := cs) (p := Char.isDigit)
    obtain ⟨t, ht⟩ := hpre
    conv_lhs => rw [← ht]
    rw [List.take_append_of_le_length hm]
  rw [h1] at hc
  exact List.mem_takeWhile_imp (List.mem_of_mem_take hc)

theorem tryDigits_none_complete {lo hi : Nat} {seg rest : List Char}
    {k : List Char → Nat → Option Nat}
    (hseg : DigSeg lo hi seg) (h : tryDigits lo hi (seg ++ rest) k = none) :
    k rest seg.length = none := by
  obtain ⟨hlo, hhi, hdig⟩ := hseg
  have hrun : seg.length ≤ ((seg ++ rest).takeWhile Char.isDigit).length :=
    prefix_all_le_takeWhile hdig
  have hstart : seg.length ≤ min hi ((seg ++ rest).takeWhile Char.isDigit).length := by
    omega
  have hdropm : (seg ++ rest).drop seg.length = rest := List.drop_left _ _
  have := tryDigitsFrom_none_forall h seg.length hlo hstart
  rw [hdropm] at this
  exact this

theorem tryOptChar_sound {p : Char → Bool} {cs : List Char}
    {k : List Char → Nat → Option Nat} {r : Nat}
    (h : tryOptChar p cs k = some r) :
    ∃ seg rest, cs = seg ++ rest ∧ OptSeg p seg ∧ k rest seg.length = some r := by
  rcases cs with _ | ⟨c, cs'⟩
  · exact ⟨[], [], rfl, Or.inl rfl, h⟩
  · dsimp only [tryOptChar, List.nil_append, List.cons_append, List.singleton_append] at h
    by_cases hpc : p c
    · rw [if_pos hpc] at h
      rcases hk : k cs' 1 with _ | v
      · rw [hk] at h
        exact ⟨[], c :: cs', rfl, Or.inl rfl, h⟩
      · rw [hk] at h
        injection h with h
        subst h
        exact ⟨[c], cs', rfl, Or.inr ⟨c, rfl, hpc⟩, hk⟩
    · rw [if_neg hpc] at h
      exact ⟨[], c :: cs', rfl, Or.inl rfl, h⟩

theorem tryDigitsFrom_sound {cs : List Char} {lo : Nat}
    {k : List Char → Nat → Option Nat} {start : Nat} {r : Nat}
    (h : tryDigitsFrom cs lo k start = some r) :
    ∃ m, lo ≤ m ∧ m ≤ start ∧ k (cs.drop m) m = some r := by
  induction start with
  | zero =>
    rw [tryDigitsFrom] at h
    by_cases hlo : lo = 0
    · rw [if_pos hlo] at h
      exact ⟨0, by omega, le_refl 0, by simpa using h⟩
    · rw [if_neg hlo] at h
      exact absurd h (by simp)
  | succ s ih =>
    rw [tryDigitsFrom] at h
    by_cases hle : lo ≤ s + 1
    · rw [if_pos hle] at h
      rcases hk : k (cs.drop (s + 1)) (s + 1) with _ | v
      · rw [hk] at h
        obtain ⟨m, h1, h2, h3⟩ := ih h
        exact ⟨m, h1, by omega, h3⟩
      · rw [hk] at h
        injection h with h
        subst h
        exact ⟨s + 1, hle, le_refl _, hk⟩
    · rw [if_neg hle] at h
      exact absurd h (by simp)

theorem tryDigits_sound {lo hi : Nat} {cs : List Char}
    {k : List Char → Nat → Option Nat} {r : Nat}
    (h : tryDigits lo hi cs k = some r) :
    ∃ seg rest, cs = seg ++ rest ∧ DigSeg lo hi seg ∧ k rest seg.length = some r := by
  obtain ⟨m, h1, h2, h3⟩ := tryDigitsFrom_sound h
  have hmrun : m ≤ (cs.takeWhile Char.isDigit).length := by omega
  refine ⟨cs.take m, cs.drop m, (List.take_append_drop _ _).symm, ?_, ?_⟩
  · refine ⟨?_, ?_, digits_take_all hmrun⟩
    · have : (cs.takeWhile Char.isDigit).length ≤ cs.length :=
        List.length_le_of_sublist (List.takeWhile_sublist _)
      rw [List.length_take]
      omega
    · rw [List.length_take]
      omega
  · have hlen : (cs.take m).length = m := by
      have : (cs.takeWhile Char.isDigit).length ≤ cs.length :=
        List.length_le_of_sublist (List.takeWhile_sublist _)
      rw [List.length_take]
      omega
    rw [hlen]
    exact h3

theorem matchPhone_sound {cs : List Char} {n : Nat}
    (h : matchPhone cs = some n) :
    PhoneShape (cs.take n) ∧ 1 ≤ n ∧ n ≤ cs.length := by
  unfold matchPhone at h
  obtain ⟨p, r1, hcs, hp, h⟩ := tryOptChar_sound h
  obtain ⟨g1, r2, hr1, hg1, h⟩ := tryDigits_sound h
  obtain ⟨s1, r3, hr2, hs1, h⟩ := tryOptChar_sound h
  obtain ⟨lp, r4, hr3, hlp, h⟩ := tryOptChar_sound h
  obtain ⟨g2, r5, hr4, hg2, h⟩ := tryDigits_sound h
  obtain ⟨rp, r6, hr5, hrp, h⟩ := tryOptChar_sound h
  obtain ⟨s2, r7, hr6, hs2, h⟩ := tryOptChar_sound h
  obtain ⟨g3, r8, hr7, hg3, h⟩ := tryDigits_sound h
  obtain ⟨s3, r9, hr8, hs3, h⟩ := tryOptChar_sound h
  obtain ⟨g4, r10, hr9, hg4, h⟩ := tryDigits_sound h
  have hn : n = p.length + g1.length + s1.length + lp.length + g2.length
      + rp.length + s2.length + g3.length + s3.length + g4.length := by
    injection h with h
    omega
  have hW : cs = (p ++ (g1 ++ (s1 ++ (lp ++ (g2 ++ (rp ++ (s2 ++ (g3 ++
      (s3 ++ g4))))))))) ++ r10 := by
    subst hcs hr1 hr2 hr3 hr4 hr5 hr6 hr7 hr8 hr9
    simp [List.append_assoc]
  have hWlen : (p ++ (g1 ++ (s1 ++ (lp ++ (g2 ++ (rp ++ (s2 ++ (g3 ++
      (s3 ++ g4))))))))).length = n := by
    simp only [List.length_append]
    omega
  have htake : cs.take n = p ++ (g1 ++ (s1 ++ (lp ++ (g2 ++ (rp ++ (s2 ++
      (g3 ++ (s3 ++ g4)))))))) := by
    rw [hW]
    exact List.take_left' hWlen
  refine ⟨⟨p, g1, s1, lp, g2, rp, s2, g3, s3, g4, htake, hp, hg1, hs1, hlp,
    hg2, hrp, hs2, hg3, hs3, hg4⟩, ?_, ?_⟩
  · have := hg4.1
    omega
  · rw [hW]
    simp only [List.length_append]
    omega

theorem matchPhone_complete {cs : List Char} (hP : PhoneAt cs) :
    matchPhone cs ≠ none := by
  obtain ⟨n, p, g1, s1, lp, g2, rp, s2, g3, s3, g4, hw, hp, hg1, hs1, hlp,
    hg2, hrp, hs2, hg3, hs3, hg4⟩ := hP
  intro hnone
  unfold matchPhone at hnone
  have hcs : cs = p ++ (g1 ++ (s1 ++ (lp ++ (g2 ++ (rp ++ (s2 ++ (g3 ++
      (s3 ++ (g4 ++ cs.drop n))))))))) := by
    conv_lhs => rw [← List.take_append_drop n cs, hw]
    simp [List.append_assoc]
  rw [hcs] at hnone
  have h1 := tryOptChar_none_complete hp hnone
  have h2 := tryDigits_none_complete hg1 h1
  have h3 := tryOptChar_none_complete hs1 h2
  have h4 := tryOptChar_none_complete hlp h3
  have h5 := tryDigits_none_complete hg2 h4
  have h6 := tryOptChar_none_complete hrp h5
  have h7 := tryOptChar_none_complete hs2 h6
  have h8 := tryDigits_none_complete hg3 h7
  have h9 := tryOptChar_none_complete hs3 h8
  have h10 := tryDigits_none_complete hg4 h9
  exact absurd h10 (by simp)

/-- No match of `m` fires at any scan position of `cs`; `prev` is the
character before the first position. -/
def Clean (m : Option Char → List Char → Option (Nat × List Char)) :
    Option Char → List Char → Prop
  | _, [] => True
  | prev, c :: rest => m prev (c :: rest) = none ∧ Clean m (some c) rest

/-- Last character of `A`, falling back to `prev` when `A` is empty: the
scan context left of a position after skipping `A`. -/
def lastOr (prev : Option Char) (A : List Char) : Option Char :=
  match A.getLast? with
  | some c => some c
  | none => prev

theorem lastOr_nil {prev : Option Char} : lastOr prev [] = prev := rfl

theorem lastOr_cons {prev : Option Char} {c : Char} {A : List Char} :
    lastOr prev (c :: A) = lastOr (some c) A := by
  cases A with
  | nil => rfl
  | cons b A' =>
    unfold lastOr
    rw [List.getLast?_cons_cons]
    rcases h : (b :: A').getLast? with _ | x
    · exact absurd (List.getLast?_eq_none_iff.mp h) (by simp)
    · rfl

theorem lastOr_of_ne_nil {prev : Option Char} {A : List Char} (h : A ≠ []) :
    lastOr prev A = A.getLast? := by
  rcases hA : A.getLast? with _ | c
  · exact absurd (List.getLast?_eq_none_iff.mp hA) h
  · simp [lastOr, hA]

theorem clean_id {m : Option Char → List Char → Option (Nat × List Char)}
    {prev : Option Char} {cs : List Char} (h : Clean m prev cs) :
    ∀ fuel, replaceScanF m fuel prev cs = cs := by
  induction cs generalizing prev with
  | nil => intro fuel; cases fuel <;> rfl
  | cons c rest ih =>
    intro fuel
    cases fuel with
    | zero => rfl
    | succ f =>
      rw [replaceScanF, h.1]
      rw [ih h.2 f]

theorem Clean_drop {m : Option Char → List Char → Option (Nat × List Char)}
    {prev : Option Char} {cs : List Char} (h : Clean m prev cs) :
    ∀ k, Clean m (lastOr prev (cs.take k)) (cs.drop k) := by
  induction cs generalizing prev with
  | nil => intro k; cases k <;> trivial
  | cons c rest ih =>
    intro k
    cases k with
    | zero => exact h
    | succ k' =>
      have := ih h.2 k'
      simp only [List.take_succ_cons, List.drop_succ_cons, lastOr_cons]
      exact this

theorem Clean_append {m : Option Char → List Char → Option (Nat × List Char)}
    (ph tail : List Char) (prev : Option Char)
    (h2 : ∀ pr : Option Char, Clean m pr tail) :
    (∀ pr j, j < ph.length → m pr (ph.drop j ++ tail) = none) →
    Clean m prev (ph ++ tail) := by
  induction ph generalizing prev with
  | nil => intro _; simpa using h2 prev
  | cons a ph' ih =>
    intro h1
    refine ⟨by simpa using h1 prev 0 (by simp), ?_⟩
    exact ih (some a) (fun pr j hj => by
      simpa using h1 pr (j + 1) (by simp only [List.length_cons]; omega))

theorem Clean_retarget {m : Option Char → List Char → Option (Nat × List Char)}
    {p q : Option Char} {cs : List Char}
    (h0 : m q cs = none) (h : Clean m p cs) : Clean m q cs := by
  cases cs with
  | nil => trivial
  | cons c rest => exact ⟨h0, h.2⟩

theorem clean_of_insensitive {m : Option Char → List Char → Option (Nat × List Char)}
    (hins : ∀ p q s, m p s = m q s) {p q : Option Char} {cs : List Char}
    (h : Clean m p cs) : Clean m q cs := by
  cases cs with
  | nil => trivial
  | cons c rest => exact ⟨(hins q p (c :: rest)).trans h.1, h.2⟩

/-- The scanned output agrees with the input up to a common prefix and then
(if anything was replaced) continues with `'['`, the head of the
bracket-placeholders. -/
def AgreeB (input output : List Char) : Prop :=
  output = input ∨ ∃ A i o, input = A ++ i ∧ output = A ++ '[' :: o

/-- Agreement for the ip scan, recording that the character left of the
divergence is not a word character (the matched `\b`). -/
def AgreeI (prev : Option Char) (input output : List Char) : Prop :=
  output = input ∨ ∃ A i o, input = A ++ i ∧ output = A ++ '[' :: o ∧
    (∀ c, lastOr prev A = some c → wordChar c = false)

/-- Agreement for the secret scan: the replacement repeats the matched
keyword, so the common prefix extends through it and the output diverges
with `": ["` where the input has a separator character. -/
def AgreeS (input output : List Char) : Prop :=
  output = input ∨ ∃ A c i o, input = A ++ c :: i ∧ secretSepChar c ∧
    output = A ++ ':' :: ' ' :: '[' :: o

theorem agreeB_cons {c : Char} {i o : List Char} (h : AgreeB i o) :
    AgreeB (c :: i) (c :: o) := by
  rcases h with rfl | ⟨A, i', o', rfl, rfl⟩
  · exact Or.inl rfl
  · exact Or.inr ⟨c :: A, i', o', rfl, rfl⟩

theorem agreeS_cons {c : Char} {i o : List Char} (h : AgreeS i o) :
    AgreeS (c :: i) (c :: o) := by
  rcases h with rfl | ⟨A, cc, i', o', rfl, hcc, rfl⟩
  · exact Or.inl rfl
  · exact Or.inr ⟨c :: A, cc, i', o', rfl, hcc, rfl⟩

theorem OptSeg_mem {p : Char → Bool} {seg : List Char} (h : OptSeg p seg) :
    ∀ c ∈ seg, p c := by
  rcases h with rfl | ⟨x, rfl, hx⟩
  · intro c hc; simp at hc
  · intro c hc
    simp at hc
    subst hc
    exact hx

def EmailChar (c : Char) : Bool :=
  emailLocalChar c || c = '@' || emailDomainChar c || c = '.' || c.isAlpha

def PhoneChar (c : Char) : Bool :=
  c = '+' || c.isDigit || phoneSepChar c || c = '(' || c = ')'

theorem emailShape_chars {w : List Char} (h : EmailShape w) :
    ∀ c ∈ w, EmailChar c := by
  obtain ⟨l, d, ts, rfl, _, hl, _, hd, _, hts⟩ := h
  intro c hc
  simp only [List.mem_append, List.mem_cons] at hc
  unfold EmailChar
  rcases hc with hc | rfl | hc | rfl | hc
  · simp [hl c hc]
  · simp
  · simp [hd c hc]
  · simp
  · simp [hts c hc]

theorem emailShape_at {w : List Char} (h : EmailShape w) : '@' ∈ w := by
  obtain ⟨l, d, ts, rfl, _⟩ := h
  simp

theorem phoneShape_chars {w : List Char} (h : PhoneShape w) :
    ∀ c ∈ w, PhoneChar c := by
  obtain ⟨p, g1, s1, lp, g2, rp, s2, g3, s3, g4, rfl, hp, hg1, hs1, hlp, hg2,
    hrp, hs2, hg3, hs3, hg4⟩ := h
  intro c hc
  simp only [List.mem_append] at hc
  unfold PhoneChar
  rcases hc with hc | hc | hc | hc | hc | hc | hc | hc | hc | hc
  · have := OptSeg_mem hp c hc; simp at this; simp [this]
  · simp [hg1.2.2 c hc]
  · simp [OptSeg_mem hs1 c hc]
  · have := OptSeg_mem hlp c hc; simp at this; simp [this]
  · simp [hg2.2.2 c hc]
  · have := OptSeg_mem hrp c hc; simp at this; simp [this]
  · simp [OptSeg_mem hs2 c hc]
  · simp [hg3.2.2 c hc]
  · simp [OptSeg_mem hs3 c hc]
  · simp [hg4.2.2 c hc]

theorem phoneShape_digit {w : List Char} (h : PhoneShape w) :
    ∃ c ∈ w, c.isDigit := by
  obtain ⟨p, g1, s1, lp, g2, rp, s2, g3, s3, g4, rfl, hp, hg1, hs1, hlp, hg2,
    hrp, hs2, hg3, hs3, hg4⟩ := h
  rcases hw : g4 with _ | ⟨d, g4'⟩
  · exfalso
    have := hg4.1
    rw [hw] at this
    simp at this
  · refine ⟨d, ?_, ?_⟩
    · simp [hw]
    · exact hg4.2.2 d (by simp [hw])

/-- A prefix-determined pattern whose spans exclude `ban` cannot appear in the
output where it did not appear in the input, when the two share a common
prefix and the output then continues with `ban`. -/
theorem transfer_prefix {P : List Char → Prop} {ban : Char}
    (hban : ∀ w, P w → ban ∉ w)
    {A i o : List Char}
    (hno : ∀ k, ¬ P ((A ++ i).take k)) :
    ∀ n, ¬ P ((A ++ ban :: o).take n) := by
  intro n hP
  by_cases hn : n ≤ A.length
  · refine hno n ?_
    rw [List.take_append_of_le_length hn] at hP
    rw [List.take_append_of_le_length hn]
    exact hP
  · refine hban _ hP ?_
    have h2 : n = A.length + ((n - A.length - 1) + 1) := by omega
    rw [h2, List.take_append]
    simp

/-- A pattern needing a `needP` character but excluding `']'` cannot start
inside a block that contains no `needP` character and ends with `']'`. -/
theorem no_shape_in_block {P : List Char → Prop} {needP : Char → Bool}
    {blk : List Char}
    (hlast : blk.getLast? = some ']')
    (hneed : ∀ c ∈ blk, needP c = false)
    (hP1 : ∀ w, P w → ∃ c ∈ w, needP c)
    (hP2 : ∀ w, P w → ']' ∉ w) :
    ∀ j tail n, j < blk.length → ¬ P ((blk.drop j ++ tail).take n) := by
  intro j tail n hj hP
  by_cases hn : n ≤ blk.length - j
  · obtain ⟨c, hc, hcneed⟩ := hP1 _ hP
    rw [List.take_append_of_le_length (by simp [List.length_drop]; omega)] at hc
    have hcblk : c ∈ blk := List.mem_of_mem_drop (List.mem_of_mem_take hc)
    rw [hneed c hcblk] at hcneed
    exact absurd hcneed (by simp)
  · refine hP2 _ hP ?_
    have hdrop_ne : blk.drop j ≠ [] := by
      intro hnil
      have := List.length_drop j blk ▸ congrArg List.length hnil
      simp at this
      omega
    have hdlast : (blk.drop j).getLast? = some ']' := by
      have hsplit : blk = blk.take j ++ blk.drop j := (List.take_append_drop j blk).symm
      rw [hsplit, List.getLast?_append] at hlast
      rcases hq : (blk.drop j).getLast? with _ | y
      · exact absurd (List.getLast?_eq_none_iff.mp hq) hdrop_ne
      · rw [hq] at hlast
        simpa [Option.or] using hlast
    have hmem : ']' ∈ blk.drop j := List.mem_of_mem_getLast? hdlast
    have hlen : (blk.drop j).length ≤ n := by
      simp [List.length_drop]
      omega
    have : (blk.drop j ++ tail).take n = blk.drop j ++ tail.take (n - (blk.drop j).length) := by
      have h2 : n = (blk.drop j).length + (n - (blk.drop j).length) := by omega
      rw [h2, List.take_append]
      have h3 : (blk.drop j).length + (n - (blk.drop j).length) - (blk.drop j).length
          = n - (blk.drop j).length := by omega
      rw [h3]
    rw [this]
    exact List.mem_append_left _ hmem

theorem scanB_agree (m : Option Char → List Char → Option (Nat × List Char))
    (hm : ∀ pr s n repl, m pr s = some (n, repl) → ∃ r', repl = '[' :: r') :
    ∀ fuel prev cs, AgreeB cs (replaceScanF m fuel prev cs) := by
  intro fuel
  induction fuel with
  | zero => intro prev cs; cases cs <;> exact Or.inl rfl
  | succ f ih =>
    intro prev cs
    cases cs with
    | nil => exact Or.inl rfl
    | cons c rest =>
      rw [replaceScanF]
      rcases hmm : m prev (c :: rest) with _ | ⟨n, repl⟩
      · exact agreeB_cons (ih (some c) rest)
      · rcases n with _ | n'
        · exact agreeB_cons (ih (some c) rest)
        · obtain ⟨r', rfl⟩ := hm prev (c :: rest) (n' + 1) repl hmm
          exact Or.inr ⟨[], c :: rest, r' ++ replaceScanF m f
            (((c :: rest).take (n' + 1)).getLast?) (rest.drop n'), rfl, rfl⟩

/-- Scan-induction core: a pass of `m` over any input produces an output on
which `m` never fires, provided no pattern can start inside a replacement
block and no-match positions transfer along the agreement relation. -/
theorem scan_own_clean (m : Option Char → List Char → Option (Nat × List Char))
    (G : List Char → List Char → Prop)
    (hins : ∀ p q s, m p s = m q s)
    (hpos : ∀ pr s n repl, m pr s = some (n, repl) → 1 ≤ n)
    (hagree : ∀ fuel pr cs, G cs (replaceScanF m fuel pr cs))
    (hcons : ∀ (c : Char) i o, G i o → G (c :: i) (c :: o))
    (htrans : ∀ pr inp out, G inp out → m pr inp = none → m pr out = none)
    (hblock : ∀ pr s n repl, m pr s = some (n, repl) →
      ∀ q j tail, j < repl.length → m q (repl.drop j ++ tail) = none) :
    ∀ fuel prev cs, cs.length ≤ fuel → Clean m prev (replaceScanF m fuel prev cs) := by
  intro fuel
  induction fuel with
  | zero =>
    intro prev cs hlen
    have : cs = [] := List.length_eq_zero.mp (by omega)
    subst this
    trivial
  | succ f ih =>
    intro prev cs hlen
    cases cs with
    | nil => trivial
    | cons c rest =>
      rw [replaceScanF]
      rcases hm : m prev (c :: rest) with _ | ⟨n, repl⟩
      · refine ⟨?_, ?_⟩
        · exact htrans prev (c :: rest) (c :: replaceScanF m f (some c) rest)
            (hcons c rest _ (hagree f (some c) rest)) hm
        · exact ih (some c) rest (by simpa using Nat.le_of_succ_le_succ hlen)
      · rcases n with _ | n'
        · exact absurd (hpos prev (c :: rest) 0 repl hm) (by omega)
        · have hlen2 : (rest.drop n').length ≤ f := by
            simp only [List.length_drop]
            simp at hlen
            omega
          refine Clean_append repl _ prev ?_ ?_
          · intro pr
            exact clean_of_insensitive hins
              (ih (((c :: rest).take (n' + 1)).getLast?) (rest.drop n') hlen2)
          · intro pr j hj
            exact hblock prev (c :: rest) (n' + 1) repl hm pr j _ hj

/-- Scan-induction core for preservation: if `m1` never fires on the input,
it never fires on the output of a pass of `m2`. -/
theorem scan_preserves_clean
    (m1 m2 : Option Char → List Char → Option (Nat × List Char))
    (G : List Char → List Char → Prop)
    (hins : ∀ p q s, m1 p s = m1 q s)
    (hagree : ∀ fuel pr cs, G cs (replaceScanF m2 fuel pr cs))
    (hcons : ∀ (c : Char) i o, G i o → G (c :: i) (c :: o))
    (htrans : ∀ pr inp out, G inp out → m1 pr inp = none → m1 pr out = none)
    (hblock : ∀ pr s n repl, m2 pr s = some (n, repl) →
      ∀ q j tail, j < repl.length → m1 q (repl.drop j ++ tail) = none) :
    ∀ fuel prev cs, Clean m1 prev cs →
      Clean m1 prev (replaceScanF m2 fuel prev cs) := by
  intro fuel
  induction fuel with
  | zero =>
    intro prev cs hc
    cases cs <;> simpa [replaceScanF] using hc
  | succ f ih =>
    intro prev cs hc
    cases cs with
    | nil => trivial
    | cons c rest =>
      rw [replaceScanF]
      rcases hm : m2 prev (c :: rest) with _ | ⟨n, repl⟩
      · refine ⟨?_, ih (some c) rest hc.2⟩
        exact htrans prev (c :: rest) (c :: replaceScanF m2 f (some c) rest)
          (hcons c rest _ (hagree f (some c) rest)) hc.1
      · rcases n with _ | n'
        · refine ⟨?_, ih (some c) rest hc.2⟩
          exact htrans prev (c :: rest) (c :: replaceScanF m2 f (some c) rest)
            (hcons c rest _ (hagree f (some c) rest)) hc.1
        · have hsuff : Clean m1 (lastOr prev ((c :: rest).take (n' + 1))) (rest.drop n') :=
            Clean_drop hc (n' + 1)
          refine Clean_append repl _ prev ?_ ?_
          · intro pr
            exact clean_of_insensitive hins
              (ih (((c :: rest).take (n' + 1)).getLast?) (rest.drop n')
                (clean_of_insensitive hins hsuff))
          · intro pr j hj
            exact hblock prev (c :: rest) (n' + 1) repl hm pr j _ hj

theorem emailMatcher_none_iff {pr : Option Char} {s : List Char} :
    emailMatcher pr s = none ↔ matchEmail s = none := by
  simp [emailMatcher]

theorem phoneMatcher_none_iff {pr : Option Char} {s : List Char} :
    phoneMatcher pr s = none ↔ matchPhone s = none := by
  simp [phoneMatcher]

theorem matchEmail_no_span {cs : List Char} (h : matchEmail cs = none) :
    ∀ k, ¬ EmailShape (cs.take k) :=
  fun k hk => matchEmail_complete ⟨k, hk⟩ h

theorem matchPhone_no_span {cs : List Char} (h : matchPhone cs = none) :
    ∀ k, ¬ PhoneShape (cs.take k) :=
  fun k hk => matchPhone_complete ⟨k, hk⟩ h

theorem emailShape_not_rb {w : List Char} (h : EmailShape w) : ']' ∉ w :=
  fun hmem => absurd (emailShape_chars h _ hmem) (by decide)

theorem emailShape_not_lb {w : List Char} (h : EmailShape w) : '[' ∉ w :=
  fun hmem => absurd (emailShape_chars h _ hmem) (by decide)

theorem emailShape_not_colon {w : List Char} (h : EmailShape w) : ':' ∉ w :=
  fun hmem => absurd (emailShape_chars h _ hmem) (by decide)

theorem phoneShape_not_rb {w : List Char} (h : PhoneShape w) : ']' ∉ w :=
  fun hmem => absurd (phoneShape_chars h _ hmem) (by decide)

theorem phoneShape_not_lb {w : List Char} (h : PhoneShape w) : '[' ∉ w :=
  fun hmem => absurd (phoneShape_chars h _ hmem) (by decide)

theorem phoneShape_not_colon {w : List Char} (h : PhoneShape w) : ':' ∉ w :=
  fun hmem => absurd (phoneShape_chars h _ hmem) (by decide)

theorem matchEmail_transfer_B {inp out : List Char} (hag : AgreeB inp out)
    (h : matchEmail inp = none) : matchEmail out = none := by
  rcases hout : matchEmail out with _ | n
  · rfl
  · exfalso
    have hs := (matchEmail_sound hout).1
    rcases hag with rfl | ⟨A, i, o, rfl, rfl⟩
    · rw [h] at hout; exact absurd hout (by simp)
    · exact transfer_prefix (fun w hw => emailShape_not_lb hw)
        (matchEmail_no_span h) n hs

theorem matchEmail_transfer_S {inp out : List Char} (hag : AgreeS inp out)
    (h : matchEmail inp = none) : matchEmail out = none := by
  rcases hout : matchEmail out with _ | n
  · rfl
  · exfalso
    have hs := (matchEmail_sound hout).1
    rcases hag with rfl | ⟨A, cc, i, o, rfl, hcc, rfl⟩
    · rw [h] at hout; exact absurd hout (by simp)
    · exact transfer_prefix (fun w hw => emailShape_not_colon hw)
        (matchEmail_no_span h) n hs

theorem matchPhone_transfer_B {inp out : List Char} (hag : AgreeB inp out)
    (h : matchPhone inp = none) : matchPhone out = none := by
  rcases hout : matchPhone out with _ | n
  · rfl
  · exfalso
    have hs := (matchPhone_sound hout).1
    rcases hag with rfl | ⟨A, i, o, rfl, rfl⟩
    · rw [h] at hout; exact absurd hout (by simp)
    · exact transfer_prefix (fun w hw => phoneShape_not_lb hw)
        (matchPhone_no_span h) n hs

theorem matchPhone_transfer_S {inp out : List Char} (hag : AgreeS inp out)
    (h : matchPhone inp = none) : matchPhone out = none := by
  rcases hout : matchPhone out with _ | n
  · rfl
  · exfalso
    have hs := (matchPhone_sound hout).1
    rcases hag with rfl | ⟨A, cc, i, o, rfl, hcc, rfl⟩
    · rw [h] at hout; exact absurd hout (by simp)
    · exact transfer_prefix (fun w hw => phoneShape_not_colon hw)
        (matchPhone_no_span h) n hs

/-- No email pattern can start inside a block that contains no `'@'` and
ends with `']'`. -/
theorem emailMatcher_block {blk : List Char} (hlast : blk.getLast? = some ']')
    (hat : ∀ c ∈ blk, (c == '@') = false) :
    ∀ (q : Option Char) j tail, j < blk.length →
      emailMatcher q (blk.drop j ++ tail) = none := by
  intro q j tail hj
  rw [emailMatcher_none_iff]
  rcases hout : matchEmail (blk.drop j ++ tail) with _ | n
  · rfl
  · exfalso
    have hs := (matchEmail_sound hout).1
    exact no_shape_in_block hlast hat
      (fun w hw => ⟨'@', emailShape_at hw, by simp⟩)
      (fun w hw => emailShape_not_rb hw) j tail n hj hs

/-- No phone pattern can start inside a block that contains no digit and
ends with `']'`. -/
theorem phoneMatcher_block {blk : List Char} (hlast : blk.getLast? = some ']')
    (hdig : ∀ c ∈ blk, c.isDigit = false) :
    ∀ (q : Option Char) j tail, j < blk.length →
      phoneMatcher q (blk.drop j ++ tail) = none := by
  intro q j tail hj
  rw [phoneMatcher_none_iff]
  rcases hout : matchPhone (blk.drop j ++ tail) with _ | n
  · rfl
  · exfalso
    have hs := (matchPhone_sound hout).1
    exact no_shape_in_block hlast hdig
      (fun w hw => phoneShape_digit hw)
      (fun w hw => phoneShape_not_rb hw) j tail n hj hs

theorem emailMatcher_pos : ∀ (pr : Option Char) s n repl,
    emailMatcher pr s = some (n, repl) → 1 ≤ n := by
  intro pr s n repl h
  simp only [emailMatcher, Option.map_eq_some'] at h
  obtain ⟨a, ha, hpair⟩ := h
  obtain ⟨rfl, -⟩ := Prod.mk.injEq .. ▸ hpair
  exact (matchEmail_sound ha).2.1

theorem emailMatcher_repl : ∀ (pr : Option Char) s n repl,
    emailMatcher pr s = some (n, repl) → repl = "[REDACTED_EMAIL]".data := by
  intro pr s n repl h
  simp only [emailMatcher, Option.map_eq_some'] at h
  obtain ⟨a, ha, hpair⟩ := h
  obtain ⟨-, h2⟩ := Prod.mk.injEq .. ▸ hpair
  exact h2.symm

theorem phoneMatcher_pos : ∀ (pr : Option Char) s n repl,
    phoneMatcher pr s = some (n, repl) → 1 ≤ n := by
  intro pr s n repl h
  simp only [phoneMatcher, Option.map_eq_some'] at h
  obtain ⟨a, ha, hpair⟩ := h
  obtain ⟨rfl, -⟩ := Prod.mk.injEq .. ▸ hpair
  exact (matchPhone_sound ha).2.1

theorem phoneMatcher_repl : ∀ (pr : Option Char) s n repl,
    phoneMatcher pr s = some (n, repl) → repl = "[REDACTED_PHONE]".data := by
  intro pr s n repl h
  simp only [phoneMatcher, Option.map_eq_some'] at h
  obtain ⟨a, ha, hpair⟩ := h
  obtain ⟨-, h2⟩ := Prod.mk.injEq .. ▸ hpair
  exact h2.symm

theorem scanE_clean : ∀ fuel prev cs, cs.length ≤ fuel →
    Clean emailMatcher prev (replaceScanF emailMatcher fuel prev cs) :=
  scan_own_clean emailMatcher AgreeB
    (fun _ _ _ => rfl)
    emailMatcher_pos
    (scanB_agree emailMatcher (fun pr s n repl h => by
      rw [emailMatcher_repl pr s n repl h]; exact ⟨_, rfl⟩))
    (fun c i o => agreeB_cons)
    (fun pr inp out hag h => by
      rw [emailMatcher_none_iff] at h ⊢
      exact matchEmail_transfer_B hag h)
    (fun pr s n repl h q j tail hj => by
      rw [emailMatcher_repl pr s n repl h] at hj ⊢
      exact emailMatcher_block (by decide) (by decide) q j tail hj)

theorem scanP_clean : ∀ fuel prev cs, cs.length ≤ fuel →
    Clean phoneMatcher prev (replaceScanF phoneMatcher fuel prev cs) :=
  scan_own_clean phoneMatcher AgreeB
    (fun _ _ _ => rfl)
    phoneMatcher_pos
    (scanB_agree phoneMatcher (fun pr s n repl h => by
      rw [phoneMatcher_repl pr s n repl h]; exact ⟨_, rfl⟩))
    (fun c i o => agreeB_cons)
    (fun pr inp out hag h => by
      rw [phoneMatcher_none_iff] at h ⊢
      exact matchPhone_transfer_B hag h)
    (fun pr s n repl h q j tail hj => by
      rw [phoneMatcher_repl pr s n repl h] at hj ⊢
      exact phoneMatcher_block (by decide) (by decide) q j tail hj)

theorem email_clean_through_P : ∀ fuel prev cs, Clean emailMatcher prev cs →
    Clean emailMatcher prev (replaceScanF phoneMatcher fuel prev cs) :=
  scan_preserves_clean emailMatcher phoneMatcher AgreeB
    (fun _ _ _ => rfl)
    (scanB_agree phoneMatcher (fun pr s n repl h => by
      rw [phoneMatcher_repl pr s n repl h]; exact ⟨_, rfl⟩))
    (fun c i o => agreeB_cons)
    (fun pr inp out hag h => by
      rw [emailMatcher_none_iff] at h ⊢
      exact matchEmail_transfer_B hag h)
    (fun pr s n repl h q j tail hj => by
      rw [phoneMatcher_repl pr s n repl h] at hj ⊢
      exact emailMatcher_block (by decide) (by decide) q j tail hj)

def Octet (seg : List Char) : Prop :=
  1 ≤ seg.length ∧ seg.length ≤ 3 ∧ ∀ c ∈ seg, c.isDigit

/-- A full match of `ipRegex`'s character structure (four dot-separated
octets); the word boundaries are stated separately. -/
def IpCore (w : List Char) : Prop :=
  ∃ o1 o2 o3 o4, w = o1 ++ '.' :: (o2 ++ '.' :: (o3 ++ '.' :: o4))
    ∧ Octet o1 ∧ Octet o2 ∧ Octet o3 ∧ Octet o4

/-- The trailing `\b` after a digit: end of input or a non-word character. -/
def Boundary (r : List Char) : Prop :=
  r = [] ∨ ∃ c t, r = c :: t ∧ wordChar c = false

/-- The leading `\b` before a digit: no word character on the left. -/
def PrevOk (prev : Option Char) : Prop :=
  ∀ c, prev = some c → wordChar c = false

def IpAt (prev : Option Char) (cs : List Char) : Prop :=
  PrevOk prev ∧ ∃ w r, cs = w ++ r ∧ IpCore w ∧ Boundary r

theorem digit_wordChar {c : Char} (h : c.isDigit) : wordChar c = true := by
  simp [wordChar, Char.isAlphanum, h]

theorem takeWhile_drop_split (p : Char → Bool) (l : List Char) :
    l = l.takeWhile p ++ l.drop (l.takeWhile p).length := by
  induction l with
  | nil => rfl
  | cons a t ih =>
    rw [List.takeWhile_cons]
    by_cases hp : p a
    · rw [if_pos hp]
      simp only [List.cons_append, List.length_cons, List.drop_succ_cons]
      exact congrArg (List.cons a) ih
    · rw [if_neg hp]
      simp

theorem matchIpOctetDot_sound {cs cs1 : List Char} {m : Nat}
    (h : matchIpOctetDot cs = some (cs1, m)) :
    ∃ o, cs = o ++ '.' :: cs1 ∧ Octet o ∧ m = o.length + 1 := by
  unfold matchIpOctetDot at h
  dsimp only at h
  split at h
  · rename_i hrun
    split at h
    · rename_i rest heq
      have hp : cs1 = rest ∧ m = (cs.takeWhile Char.isDigit).length + 1 := by
        have h2 := h
        simp at h2
        exact ⟨h2.1.symm, h2.2.symm⟩
      obtain ⟨rfl, rfl⟩ := hp
      refine ⟨cs.takeWhile Char.isDigit, ?_,
        ⟨hrun.1, hrun.2, fun c hc => List.mem_takeWhile_imp hc⟩, rfl⟩
      conv_lhs => rw [takeWhile_drop_split Char.isDigit cs]
      rw [heq]
    · exact absurd h (by simp)
  · exact absurd h (by simp)

theorem matchIpOctetDot_complete {o rest : List Char} (ho : Octet o) :
    matchIpOctetDot (o ++ '.' :: rest) = some (rest, o.length + 1) := by
  unfold matchIpOctetDot
  have hrun : ((o ++ '.' :: rest).takeWhile Char.isDigit) = o :=
    takeWhile_append_of_all ho.2.2 (by decide)
  dsimp only
  rw [hrun, if_pos ⟨ho.1, ho.2.1⟩, List.drop_left]
  split
  · rename_i rest' heq
    injection heq with h1 h2
    rw [h2]
  · rename_i hne
    exact absurd rfl (hne rest)

theorem matchIp_sound {prev : Option Char} {cs : List Char} {n : Nat}
    (h : matchIp prev cs = some n) :
    PrevOk prev ∧ ∃ w r, cs = w ++ r ∧ IpCore w ∧ Boundary r
      ∧ w.length = n ∧ 1 ≤ n := by
  unfold matchIp at h
  split at h
  · exact absurd h (by simp)
  · rename_i hprev
    have hpo : PrevOk prev := by
      intro c hc
      subst hc
      simp at hprev
      simpa using hprev
    split at h
    · exact absurd h (by simp)
    · rename_i cs1 n1 h1
      obtain ⟨o1, hcs1, ho1, hn1⟩ := matchIpOctetDot_sound h1
      split at h
      · exact absurd h (by simp)
      · rename_i cs2 n2 h2
        obtain ⟨o2, hcs2, ho2, hn2⟩ := matchIpOctetDot_sound h2
        split at h
        · exact absurd h (by simp)
        · rename_i cs3 n3 h3
          obtain ⟨o3, hcs3, ho3, hn3⟩ := matchIpOctetDot_sound h3
          dsimp only at h
          split at h
          · rename_i hrun
            have ho4 : Octet (cs3.takeWhile Char.isDigit) :=
              ⟨hrun.1, hrun.2, fun c hc => List.mem_takeWhile_imp hc⟩
            have hcs3' : cs3 = cs3.takeWhile Char.isDigit
                ++ cs3.drop (cs3.takeWhile Char.isDigit).length :=
              takeWhile_drop_split Char.isDigit cs3
            have hr : Boundary (cs3.drop (cs3.takeWhile Char.isDigit).length) ∧
                n = n1 + n2 + n3 + (cs3.takeWhile Char.isDigit).length := by
              rcases hd : cs3.drop (cs3.takeWhile Char.isDigit).length with _ | ⟨c, t⟩
              · rw [hd] at h
                injection h with h
                exact ⟨Or.inl rfl, h.symm⟩
              · rw [hd] at h
                dsimp only at h
                by_cases hw : wordChar c
                · rw [if_pos hw] at h
                  exact absurd h (by simp)
                · rw [if_neg hw] at h
                  injection h with h
                  exact ⟨Or.inr ⟨c, t, rfl, by simpa using hw⟩, h.symm⟩
            refine ⟨hpo,
              o1 ++ '.' :: (o2 ++ '.' :: (o3 ++ '.' :: cs3.takeWhile Char.isDigit)),
              cs3.drop (cs3.takeWhile Char.isDigit).length, ?_,
              ⟨o1, o2, o3, _, rfl, ho1, ho2, ho3, ho4⟩, hr.1, ?_, ?_⟩
            · rw [hcs1, hcs2, hcs3]
              conv_lhs => rw [hcs3']
              simp [List.append_assoc]
            · simp only [List.length_append, List.length_cons]
              omega
            · omega
          · exact absurd h (by simp)

theorem matchIp_complete {prev : Option Char} {cs : List Char} (hip : IpAt prev cs) :
    matchIp prev cs ≠ none := by
  obtain ⟨hprev, w, r, rfl, ⟨o1, o2, o3, o4, rfl, h1, h2, h3, h4⟩, hb⟩ := hip
  have hpf : (Option.map wordChar prev).getD false = false := by
    rcases prev with _ | c
    · rfl
    · simpa using hprev c rfl
  unfold matchIp
  rw [hpf, if_neg (by simp)]
  have hassoc : (o1 ++ '.' :: (o2 ++ '.' :: (o3 ++ '.' :: o4))) ++ r
      = o1 ++ '.' :: (o2 ++ '.' :: (o3 ++ '.' :: (o4 ++ r))) := by
    simp [List.append_assoc]
  rw [hassoc, matchIpOctetDot_complete h1]
  dsimp only
  rw [matchIpOctetDot_complete h2]
  dsimp only
  rw [matchIpOctetDot_complete h3]
  dsimp only
  have hrun : (o4 ++ r).takeWhile Char.isDigit = o4 := by
    rcases hb with rfl | ⟨c, t, rfl, hw⟩
    · simp [List.takeWhile_eq_self_iff.mpr h4.2.2]
    · refine takeWhile_append_of_all h4.2.2 ?_
      intro hdig
      rw [digit_wordChar hdig] at hw
      exact absurd hw (by simp)
  rw [hrun, if_pos ⟨h4.1, h4.2.1⟩, List.drop_left]
  rcases hb with rfl | ⟨c, t, rfl, hw⟩
  · simp
  · dsimp only
    rw [hw]
    simp

theorem getLast?_append_right {l r : List Char} (h : r ≠ []) :
    (l ++ r).getLast? = r.getLast? := by
  rw [List.getLast?_append]
  rcases hq : r.getLast? with _ | y
  · exact absurd (List.getLast?_eq_none_iff.mp hq) h
  · rfl

theorem ipCore_chars {w : List Char} (h : IpCore w) :
    ∀ c ∈ w, c.isDigit = true ∨ c = '.' := by
  obtain ⟨o1, o2, o3, o4, rfl, h1, h2, h3, h4⟩ := h
  intro c hc
  simp only [List.mem_append, List.mem_cons] at hc
  rcases hc with hc | rfl | hc | rfl | hc | rfl | hc
  · exact Or.inl (h1.2.2 c hc)
  · exact Or.inr rfl
  · exact Or.inl (h2.2.2 c hc)
  · exact Or.inr rfl
  · exact Or.inl (h3.2.2 c hc)
  · exact Or.inr rfl
  · exact Or.inl (h4.2.2 c hc)

theorem ipCore_last_digit {w : List Char} (h : IpCore w) :
    ∃ d, w.getLast? = some d ∧ d.isDigit := by
  obtain ⟨o1, o2, o3, o4, rfl, h1, h2, h3, h4⟩ := h
  have hne : o4 ≠ [] := by
    intro hnil
    have := h4.1
    rw [hnil] at this
    simp at this
  have hw : (o1 ++ '.' :: (o2 ++ '.' :: (o3 ++ '.' :: o4))).getLast?
      = o4.getLast? := by
    rw [getLast?_append_right (by simp)]
    rw [show ('.' :: (o2 ++ '.' :: (o3 ++ '.' :: o4)))
      = ['.'] ++ (o2 ++ '.' :: (o3 ++ '.' :: o4)) from rfl]
    rw [getLast?_append_right (by simp)]
    rw [getLast?_append_right (by simp)]
    rw [show ('.' :: (o3 ++ '.' :: o4)) = ['.'] ++ (o3 ++ '.' :: o4) from rfl]
    rw [getLast?_append_right (by simp)]
    rw [getLast?_append_right (by simp [hne])]
    rw [show ('.' :: o4) = ['.'] ++ o4 from rfl]
    rw [getLast?_append_right hne]
  rcases hq : o4.getLast? with _ | d
  · exact absurd (List.getLast?_eq_none_iff.mp hq) hne
  · exact ⟨d, by rw [hw, hq], h4.2.2 d (List.mem_of_mem_getLast? hq)⟩

theorem ipMatcher_none_iff {pr : Option Char} {s : List Char} :
    ipMatcher pr s = none ↔ matchIp pr s = none := by
  simp [ipMatcher]

theorem ipMatcher_eq_some {pr : Option Char} {s : List Char} {n : Nat}
    {repl : List Char} (h : ipMatcher pr s = some (n, repl)) :
    matchIp pr s = some n ∧ repl = "[REDACTED_IP]".data := by
  simp only [ipMatcher, Option.map_eq_some'] at h
  obtain ⟨a, ha, hpair⟩ := h
  obtain ⟨h1, h2⟩ := Prod.mk.injEq .. ▸ hpair
  exact ⟨h1 ▸ ha, h2.symm⟩

theorem matchIp_none_head {pr : Option Char} {cs : List Char}
    (h : ∀ d t, cs = d :: t → d.isDigit = false) : matchIp pr cs = none := by
  unfold matchIp
  split
  · rfl
  · have hrun : (cs.takeWhile Char.isDigit).length = 0 := by
      rcases cs with _ | ⟨d, t⟩
      · rfl
      · rw [List.takeWhile_cons, h d t rfl]
        rfl
    have hod : matchIpOctetDot cs = none := by
      unfold matchIpOctetDot
      dsimp only
      rw [hrun, if_neg (by omega)]
    rw [hod]

theorem nonword_nondigit {c : Char} (h : wordChar c = false) :
    c.isDigit = false := by
  by_cases hd : c.isDigit
  · rw [digit_wordChar hd] at h
    exact absurd h (by simp)
  · simpa using hd

theorem agreeI_cons {prev : Option Char} {c : Char} {i o : List Char}
    (h : AgreeI (some c) i o) : AgreeI prev (c :: i) (c :: o) := by
  rcases h with rfl | ⟨A, i', o', rfl, rfl, hcond⟩
  · exact Or.inl rfl
  · refine Or.inr ⟨c :: A, i', o', rfl, rfl, ?_⟩
    intro d hd
    rw [lastOr_cons] at hd
    exact hcond d hd

theorem scanI_agree :
    ∀ fuel prev cs, AgreeI prev cs (replaceScanF ipMatcher fuel prev cs) := by
  intro fuel
  induction fuel with
  | zero => intro prev cs; cases cs <;> exact Or.inl rfl
  | succ f ih =>
    intro prev cs
    cases cs with
    | nil => exact Or.inl rfl
    | cons c rest =>
      rw [replaceScanF]
      rcases hm : ipMatcher prev (c :: rest) with _ | ⟨n, repl⟩
      · exact agreeI_cons (ih (some c) rest)
      · rcases n with _ | n'
        · exact agreeI_cons (ih (some c) rest)
        · obtain ⟨hsome, rfl⟩ := ipMatcher_eq_some hm
          have hpo : PrevOk prev := (matchIp_sound hsome).1
          refine Or.inr ⟨[], c :: rest, _, rfl, rfl, ?_⟩
          intro d hd
          rw [lastOr_nil] at hd
          exact hpo d hd

theorem matchIp_transfer_I {prev : Option Char} {inp out : List Char}
    (hag : AgreeI prev inp out) (h : matchIp prev inp = none) :
    matchIp prev out = none := by
  rcases hout : matchIp prev out with _ | m
  · rfl
  · exfalso
    obtain ⟨hpo, w, r, hwr, hcore, hbnd, hlen, hmpos⟩ := matchIp_sound hout
    rcases hag with rfl | ⟨A, i, o, rfl, rfl, hcond⟩
    · rw [h] at hout
      exact absurd hout (by simp)
    · have hw : (A ++ '[' :: o).take m = w := by
        rw [hwr]
        exact List.take_left' hlen
      by_cases hm : m ≤ A.length
      · have hwA : w = A.take m := by
          rw [← hw, List.take_append_of_le_length hm]
        by_cases hmA : m = A.length
        · obtain ⟨d, hdlast, hddig⟩ := ipCore_last_digit hcore
          have hAne : A ≠ [] := by
            intro hnil
            rw [hnil] at hmA
            simp at hmA
            omega
          have hwAfull : w = A := by
            rw [hwA, hmA, List.take_length]
          have hlast : lastOr prev A = some d := by
            rw [lastOr_of_ne_nil hAne, ← hwAfull, hdlast]
          have hnw := hcond d hlast
          rw [digit_wordChar hddig] at hnw
          exact absurd hnw (by simp)
        · have hmlt : m < A.length := by omega
          apply matchIp_complete _ h
          refine ⟨hpo, w, (A ++ i).drop m, ?_, hcore, ?_⟩
          · rw [hwA, ← List.take_append_of_le_length (le_of_lt hmlt)]
            exact (List.take_append_drop m (A ++ i)).symm
          · have hr : r = (A ++ '[' :: o).drop m := by
              rw [hwr, ← hlen, List.drop_left]
            rcases hAd : A.drop m with _ | ⟨a0, arest⟩
            · exfalso
              have := congrArg List.length hAd
              simp at this
              omega
            · have hrform : r = a0 :: (arest ++ '[' :: o) := by
                rw [hr, List.drop_append_of_le_length (le_of_lt hmlt), hAd]
                rfl
              rcases hbnd with hnil | ⟨cb, tb, heq, hnw⟩
              · rw [hnil] at hrform
                exact absurd hrform.symm (by simp)
              · rw [hrform] at heq
                injection heq with hh1 hh2
                subst hh1
                refine Or.inr ⟨a0, arest ++ i, ?_, hnw⟩
                rw [List.drop_append_of_le_length (le_of_lt hmlt), hAd]
                rfl
      · have hmem : '[' ∈ w := by
          rw [← hw]
          have h2 : m = A.length + ((m - A.length - 1) + 1) := by omega
          rw [h2, List.take_append]
          simp
        exact absurd (ipCore_chars hcore '[' hmem) (by decide)

theorem Clean_append_last {m : Option Char → List Char → Option (Nat × List Char)}
    (ph tail : List Char) (prev pl : Option Char)
    (h2 : Clean m pl tail) :
    ph.getLast? = pl →
    (∀ pr j, j < ph.length → m pr (ph.drop j ++ tail) = none) →
    ph ≠ [] →
    Clean m prev (ph ++ tail) := by
  induction ph generalizing prev with
  | nil =>
    intro _ _ hne
    exact absurd rfl hne
  | cons a ph' ih =>
    intro hl h1 _
    rcases ph' with _ | ⟨b, ph''⟩
    · refine ⟨by simpa using h1 prev 0 (by simp), ?_⟩
      have hpl : pl = some a := by
        rw [← hl]
        rfl
      subst hpl
      simpa using h2
    · refine ⟨by simpa using h1 prev 0 (by simp), ?_⟩
      refine ih (some a) ?_ ?_ (by simp)
      · rw [← hl]
        exact (List.getLast?_cons_cons ..).symm
      · intro pr j hj
        have hj2 : j + 1 < (a :: b :: ph'').length := by
          simp only [List.length_cons] at hj ⊢
          omega
        simpa using h1 pr (j + 1) hj2

theorem ipMatcher_block_nodigit {blk : List Char}
    (hdig : ∀ c ∈ blk, c.isDigit = false) :
    ∀ (q : Option Char) j tail, j < blk.length →
      ipMatcher q (blk.drop j ++ tail) = none := by
  intro q j tail hj
  rw [ipMatcher_none_iff]
  apply matchIp_none_head
  intro d t hdt
  rcases hbd : blk.drop j with _ | ⟨d', r'⟩
  · exfalso
    have := congrArg List.length hbd
    simp at this
    omega
  · rw [hbd] at hdt
    injection hdt with hh1 hh2
    have hmem : d' ∈ blk.drop j := by
      rw [hbd]
      exact List.mem_cons_self d' r'
    rw [← hh1]
    exact hdig d' (List.mem_of_mem_drop hmem)

theorem scanI_clean : ∀ fuel prev cs, cs.length ≤ fuel →
    Clean ipMatcher prev (replaceScanF ipMatcher fuel prev cs) := by
  intro fuel
  induction fuel with
  | zero =>
    intro prev cs hlen
    have : cs = [] := List.length_eq_zero.mp (by omega)
    subst this
    trivial
  | succ f ih =>
    intro prev cs hlen
    cases cs with
    | nil => trivial
    | cons c rest =>
      rw [replaceScanF]
      rcases hm : ipMatcher prev (c :: rest) with _ | ⟨n, repl⟩
      · refine ⟨?_, ih (some c) rest (by simpa using Nat.le_of_succ_le_succ hlen)⟩
        rw [ipMatcher_none_iff] at hm ⊢
        exact matchIp_transfer_I (agreeI_cons (scanI_agree f (some c) rest)) hm
      · rcases n with _ | n'
        · obtain ⟨hsome, -⟩ := ipMatcher_eq_some hm
          obtain ⟨-, w, r, hwr, hcore, hbnd, hlen0, hpos1⟩ := matchIp_sound hsome
          omega
        · obtain ⟨hsome, rfl⟩ := ipMatcher_eq_some hm
          obtain ⟨hpo, w, r, hwr, hcore, hbnd, hwlen, hp1⟩ := matchIp_sound hsome
          have hlen2 : (rest.drop n').length ≤ f := by
            simp only [List.length_drop]
            simp at hlen
            omega
          have hr : rest.drop n' = r := by
            have hdd := congrArg (List.drop (n' + 1)) hwr
            rw [List.drop_succ_cons] at hdd
            rw [hdd, ← hwlen, List.drop_left]
          refine Clean_append_last "[REDACTED_IP]".data _ prev (some ']')
            ?_ (by decide)
            (fun pr j hj => ipMatcher_block_nodigit (by decide) pr j _ hj)
            (by decide)
          refine Clean_retarget ?_
            (ih (((c :: rest).take (n' + 1)).getLast?) (rest.drop n') hlen2)
          rw [ipMatcher_none_iff]
          apply matchIp_none_head
          intro d t hdt
          have hag := scanI_agree f (((c :: rest).take (n' + 1)).getLast?) (rest.drop n')
          rcases hag with heq | ⟨A, i, o, hin, houtag, hcond⟩
          · rw [heq, hr] at hdt
            rcases hbnd with hnil | ⟨cb, tb, hbeq, hnw⟩
            · rw [hnil] at hdt
              exact absurd hdt.symm (by simp)
            · rw [hbeq] at hdt
              injection hdt with hh1 hh2
              rw [← hh1]
              exact nonword_nondigit hnw
          · rw [houtag] at hdt
            rcases A with _ | ⟨a0, A'⟩
            · rw [List.nil_append] at hdt
              injection hdt with hh1 hh2
              rw [← hh1]
              decide
            · injection hdt with hh1 hh2
              have hrform : r = a0 :: (A' ++ i) := by
                rw [← hr, hin]
                rfl
              rcases hbnd with hnil | ⟨cb, tb, hbeq, hnw⟩
              · rw [hnil] at hrform
                exact absurd hrform (by simp)
              · rw [hrform] at hbeq
                injection hbeq with hh3 hh4
                rw [← hh1, hh3]
                exact nonword_nondigit hnw

theorem email_clean_through_I : ∀ fuel prev cs, Clean emailMatcher prev cs →
    Clean emailMatcher prev (replaceScanF ipMatcher fuel prev cs) :=
  scan_preserves_clean emailMatcher ipMatcher AgreeB
    (fun _ _ _ => rfl)
    (scanB_agree ipMatcher (fun pr s n repl h => by
      rw [(ipMatcher_eq_some h).2]
      exact ⟨_, rfl⟩))
    (fun c i o => agreeB_cons)
    (fun pr inp out hag h => by
      rw [emailMatcher_none_iff] at h ⊢
      exact matchEmail_transfer_B hag h)
    (fun pr s n repl h q j tail hj => by
      rw [(ipMatcher_eq_some h).2] at hj ⊢
      exact emailMatcher_block (by decide) (by decide) q j tail hj)

theorem phone_clean_through_I : ∀ fuel prev cs, Clean phoneMatcher prev cs →
    Clean phoneMatcher prev (replaceScanF ipMatcher fuel prev cs) :=
  scan_preserves_clean phoneMatcher ipMatcher AgreeB
    (fun _ _ _ => rfl)
    (scanB_agree ipMatcher (fun pr s n repl h => by
      rw [(ipMatcher_eq_some h).2]
      exact ⟨_, rfl⟩))
    (fun c i o => agreeB_cons)
    (fun pr inp out hag h => by
      rw [phoneMatcher_none_iff] at h ⊢
      exact matchPhone_transfer_B hag h)
    (fun pr s n repl h q j tail hj => by
      rw [(ipMatcher_eq_some h).2] at hj ⊢
      exact phoneMatcher_block (by decide) (by decide) q j tail hj)

def KeywordList : List (List Char) :=
  ["bearer".data, "api_key".data, "api-key".data, "apikey".data,
   "secret".data, "token".data, "password".data]

/-- A witness that `secretRegex` matches at the head of `cs`: a
case-insensitive keyword, a nonempty separator run, an optional opening
quote and at least 16 value characters. -/
def SecretAt (cs : List Char) : Prop :=
  ∃ kw s q v r, cs = kw ++ (s ++ (q ++ (v ++ r)))
    ∧ kw.map Char.toLower ∈ KeywordList
    ∧ s ≠ [] ∧ (∀ c ∈ s, secretSepChar c)
    ∧ (q = [] ∨ ∃ qc, q = [qc] ∧ quoteChar qc)
    ∧ 16 ≤ v.length ∧ (∀ c ∈ v, secretValueChar c)

theorem sep_not_value {c : Char} (h : secretSepChar c = true) :
    secretValueChar c = false := by
  simp only [secretSepChar, jsWhitespace, Bool.or_eq_true, decide_eq_true_eq] at h
  rcases h with ((((((((h | h) | h) | h) | h) | h) | h) | h) | h) | h <;>
    subst h <;> decide

theorem quote_cases {c : Char} (h : quoteChar c = true) :
    c = '"' ∨ c = Char.ofNat 39 := by
  simp only [quoteChar, Bool.or_eq_true, decide_eq_true_eq] at h
  exact h

theorem quote_not_sep {c : Char} (h : quoteChar c = true) :
    secretSepChar c = false := by
  rcases quote_cases h with rfl | rfl <;> decide

theorem value_not_quote {c : Char} (h : secretValueChar c = true) :
    quoteChar c = false := by
  by_cases hq : quoteChar c
  · rcases quote_cases hq with rfl | rfl <;> exact absurd h (by decide)
  · simpa using hq

theorem value_not_sep {c : Char} (h : secretValueChar c = true) :
    secretSepChar c = false := by
  by_cases hs : secretSepChar c
  · rw [sep_not_value hs] at h
    exact absurd h (by simp)
  · simpa using hs

theorem KL_take_eq : ∀ p1 ∈ KeywordList, ∀ p2 ∈ KeywordList,
    p2.take p1.length = p1 → p1 = p2 := by decide

theorem ciPrefix_eq {pat cs : List Char} (h : ciPrefix pat cs = true) :
    (cs.take pat.length).map Char.toLower = pat := by
  simpa [ciPrefix] using h

theorem ciPrefix_of_append {kw rest pat : List Char}
    (hk : kw.map Char.toLower = pat) : ciPrefix pat (kw ++ rest) = true := by
  have hlen : kw.length = pat.length := by
    rw [← hk]
    simp
  unfold ciPrefix
  rw [← hlen, List.take_left, hk]
  simp

theorem ciPrefix_unique_le {p1 p2 cs : List Char}
    (hp1 : p1 ∈ KeywordList) (hp2 : p2 ∈ KeywordList)
    (h1 : ciPrefix p1 cs = true) (h2 : ciPrefix p2 cs = true)
    (hle : p1.length ≤ p2.length) : p1 = p2 := by
  have e1 := ciPrefix_eq h1
  have e2 := ciPrefix_eq h2
  refine KL_take_eq p1 hp1 p2 hp2 ?_
  rw [← e2, ← List.map_take, List.take_take, min_eq_left hle, e1]

theorem ciPrefix_unique {p1 p2 cs : List Char}
    (hp1 : p1 ∈ KeywordList) (hp2 : p2 ∈ KeywordList)
    (h1 : ciPrefix p1 cs = true) (h2 : ciPrefix p2 cs = true) : p1 = p2 := by
  by_cases hle : p1.length ≤ p2.length
  · exact ciPrefix_unique_le hp1 hp2 h1 h2 hle
  · exact (ciPrefix_unique_le hp2 hp1 h2 h1 (by omega)).symm

theorem matchKeyword_complete {kw rest : List Char}
    (hk : kw.map Char.toLower ∈ KeywordList) :
    matchKeyword (kw ++ rest) = some kw.length := by
  have huniq : ∀ P, P ∈ KeywordList → ciPrefix P (kw ++ rest) = true →
      P = kw.map Char.toLower :=
    fun P hP hciP => ciPrefix_unique hP hk hciP (ciPrefix_of_append rfl)
  have hfalse : ∀ P, P ∈ KeywordList → P ≠ kw.map Char.toLower →
      ciPrefix P (kw ++ rest) = false := by
    intro P hP hne
    cases hc : ciPrefix P (kw ++ rest)
    · rfl
    · exact absurd (huniq P hP hc) hne
  have hlen : kw.length = (kw.map Char.toLower).length := by simp
  simp only [KeywordList, List.mem_cons, List.not_mem_nil, or_false] at hk
  unfold matchKeyword
  rcases hk with hK | hK | hK | hK | hK | hK | hK <;>
    rw [hK] at hlen huniq hfalse
  · -- bearer
    rw [if_pos (ciPrefix_of_append hK), hlen]
    decide
  · -- api_key
    rw [if_neg (by rw [hfalse "bearer".data (by decide) (by decide)]; simp)]
    rw [if_pos (ciPrefix_of_append hK), hlen]
    decide
  · -- api-key
    rw [if_neg (by rw [hfalse "bearer".data (by decide) (by decide)]; simp)]
    rw [if_neg (by rw [hfalse "api_key".data (by decide) (by decide)]; simp)]
    rw [if_pos (ciPrefix_of_append hK), hlen]
    decide
  · -- apikey
    rw [if_neg (by rw [hfalse "bearer".data (by decide) (by decide)]; simp)]
    rw [if_neg (by rw [hfalse "api_key".data (by decide) (by decide)]; simp)]
    rw [if_neg (by rw [hfalse "api-key".data (by decide) (by decide)]; simp)]
    rw [if_pos (ciPrefix_of_append hK), hlen]
    decide
  · -- secret
    rw [if_neg (by rw [hfalse "bearer".data (by decide) (by decide)]; simp)]
    rw [if_neg (by rw [hfalse "api_key".data (by decide) (by decide)]; simp)]
    rw [if_neg (by rw [hfalse "api-key".data (by decide) (by decide)]; simp)]
    rw [if_neg (by rw [hfalse "apikey".data (by decide) (by decide)]; simp)]
    rw [if_pos (ciPrefix_of_append hK), hlen]
    decide
  · -- token
    rw [if_neg (by rw [hfalse "bearer".data (by decide) (by decide)]; simp)]
    rw [if_neg (by rw [hfalse "api_key".data (by decide) (by decide)]; simp)]
    rw [if_neg (by rw [hfalse "api-key".data (by decide) (by decide)]; simp)]
    rw [if_neg (by rw [hfalse "apikey".data (by decide) (by decide)]; simp)]
    rw [if_neg (by rw [hfalse "secret".data (by decide) (by decide)]; simp)]
    rw [if_pos (ciPrefix_of_append hK), hlen]
    decide
  · -- password
    rw [if_neg (by rw [hfalse "bearer".data (by decide) (by decide)]; simp)]
    rw [if_neg (by rw [hfalse "api_key".data (by decide) (by decide)]; simp)]
    rw [if_neg (by rw [hfalse "api-key".data (by decide) (by decide)]; simp)]
    rw [if_neg (by rw [hfalse "apikey".data (by decide) (by decide)]; simp)]
    rw [if_neg (by rw [hfalse "secret".data (by decide) (by decide)]; simp)]
    rw [if_neg (by rw [hfalse "token".data (by decide) (by decide)]; simp)]
    rw [if_pos (ciPrefix_of_append hK), hlen]
    decide

theorem matchKeyword_sound {cs : List Char} {kn : Nat}
    (h : matchKeyword cs = some kn) :
    (cs.take kn).map Char.toLower ∈ KeywordList ∧ kn ≤ cs.length ∧ 1 ≤ kn := by
  have hgen : ∀ pat, pat ∈ KeywordList → ciPrefix pat cs = true → kn = pat.length →
      (cs.take kn).map Char.toLower ∈ KeywordList ∧ kn ≤ cs.length ∧ 1 ≤ kn := by
    intro pat hmem hci hkn
    have he := ciPrefix_eq hci
    have hlen : (cs.take pat.length).length = pat.length := by
      have := congrArg List.length he
      simpa using this
    have hle : pat.length ≤ cs.length := by
      rw [List.length_take] at hlen
      omega
    have hpos : 1 ≤ pat.length := by
      rcases hmem2 : pat with _ | ⟨a, t⟩
      · rw [hmem2] at hmem
        exact absurd hmem (by decide)
      · simp
    subst hkn
    rw [he]
    exact ⟨hmem, hle, hpos⟩
  unfold matchKeyword at h
  split_ifs at h with h1 h2 h3 h4 h5 h6 h7
  · exact hgen _ (by decide) h1 (by injection h with h; rw [← h]; decide)
  · exact hgen _ (by decide) h2 (by injection h with h; rw [← h]; decide)
  · exact hgen _ (by decide) h3 (by injection h with h; rw [← h]; decide)
  · exact hgen _ (by decide) h4 (by injection h with h; rw [← h]; decide)
  · exact hgen _ (by decide) h5 (by injection h with h; rw [← h]; decide)
  · exact hgen _ (by decide) h6 (by injection h with h; rw [← h]; decide)
  · exact hgen _ (by decide) h7 (by injection h with h; rw [← h]; decide)

theorem matchSecret_complete {cs : List Char} (h : SecretAt cs) :
    matchSecret cs ≠ none := by
  obtain ⟨kw, s, q, v, r, rfl, hkw, hsne, hsall, hq, hvlen, hvall⟩ := h
  have hvne : v ≠ [] := by
    intro hnil
    rw [hnil] at hvlen
    simp at hvlen
  unfold matchSecret
  rw [matchKeyword_complete hkw]
  dsimp only
  rw [List.drop_left]
  have hhead : ∃ c0 t0, q ++ (v ++ r) = c0 :: t0 ∧ secretSepChar c0 = false := by
    rcases hq with rfl | ⟨qc, rfl, hqc⟩
    · rcases hv : v with _ | ⟨v0, vt⟩
      · exact absurd hv hvne
      · exact ⟨v0, vt ++ r, rfl,
          value_not_sep (hvall v0 (by rw [hv]; simp))⟩
    · exact ⟨qc, v ++ r, rfl, quote_not_sep hqc⟩
  obtain ⟨c0, t0, hct, hc0⟩ := hhead
  have hsep : ((s ++ (q ++ (v ++ r))).takeWhile secretSepChar) = s := by
    rw [hct]
    exact takeWhile_append_of_all hsall (by simp [hc0])
  rw [hsep]
  rw [if_neg (by simp [hsne])]
  rw [List.drop_left]
  rcases hq with rfl | ⟨qc, rfl, hqc⟩
  · rcases hv : v with _ | ⟨v0, vt⟩
    · exact absurd hv hvne
    · subst hv
      simp only [List.nil_append, List.cons_append]
      rw [value_not_quote (hvall v0 (by simp))]
      simp only [Bool.false_eq_true, if_false]
      have hge : (v0 :: vt).length
          ≤ (((v0 :: vt) ++ r).takeWhile secretValueChar).length :=
        prefix_all_le_takeWhile hvall
      rw [if_pos (by simp at hvlen hge ⊢; omega)]
      simp
  · simp only [List.singleton_append]
    rw [if_pos hqc]
    dsimp only
    rcases hv : v with _ | ⟨v0, vt⟩
    · exact absurd hv hvne
    · subst hv
      have hge : (v0 :: vt).length
          ≤ (((v0 :: vt) ++ r).takeWhile secretValueChar).length :=
        prefix_all_le_takeWhile hvall
      rw [if_pos (by simp at hvlen hge ⊢; omega)]
      simp

theorem getLast?_append_singleton {l : List Char} {c : Char} :
    (l ++ [c]).getLast? = some c := by
  rw [getLast?_append_right (by simp)]
  rfl

/-- Packaging of a successful `matchSecret` run into the declarative witness
plus the facts about the match end used by the scan lemmas. -/
theorem secretAt_package {cs : List Char} {n k kn : Nat} {s q v tail : List Char}
    (hKW : (cs.take kn).map Char.toLower ∈ KeywordList)
    (hknle : kn ≤ cs.length) (hknpos : 1 ≤ kn)
    (hdec : cs.drop kn = s ++ (q ++ (v ++ tail)))
    (hsne : s ≠ []) (hsall : ∀ c ∈ s, secretSepChar c)
    (hq : q = [] ∨ ∃ qc, q = [qc] ∧ quoteChar qc)
    (hvlen : 16 ≤ v.length) (hvall : ∀ c ∈ v, secretValueChar c)
    (hk : kn = k)
    (hend : (∃ qc tail', tail = qc :: tail' ∧ quoteChar qc
              ∧ n = kn + s.length + q.length + v.length + 1)
            ∨ ((tail = [] ∨ ∃ d t, tail = d :: t ∧ secretValueChar d = false)
               ∧ n = kn + s.length + q.length + v.length)) :
    ∃ kw s' q' v' rest2,
      cs = kw ++ (s' ++ (q' ++ (v' ++ rest2)))
      ∧ kw.map Char.toLower ∈ KeywordList
      ∧ kw.length = k
      ∧ s' ≠ [] ∧ (∀ c ∈ s', secretSepChar c)
      ∧ (q' = [] ∨ ∃ qc, q' = [qc] ∧ quoteChar qc)
      ∧ 16 ≤ v'.length ∧ (∀ c ∈ v', secretValueChar c)
      ∧ n ≤ cs.length ∧ 1 ≤ n
      ∧ ((∃ qc, (cs.take n).getLast? = some qc ∧ quoteChar qc)
         ∨ cs.drop n = [] ∨ ∃ d t, cs.drop n = d :: t ∧ secretValueChar d = false) := by
  have hkwlen : (cs.take kn).length = kn := by
    rw [List.length_take]
    omega
  have hcs : cs = cs.take kn ++ (s ++ (q ++ (v ++ tail))) := by
    rw [← hdec]
    exact (List.take_append_drop kn cs).symm
  have hlencs : cs.length = kn + (s.length + (q.length + (v.length + tail.length))) := by
    conv_lhs => rw [hcs]
    simp [List.length_append, hkwlen]
  refine ⟨cs.take kn, s, q, v, tail, hcs, hKW, by rw [hkwlen, hk], hsne, hsall,
    hq, hvlen, hvall, ?_, ?_, ?_⟩
  · rcases hend with ⟨qc, tail', htail, hqc, hn⟩ | ⟨htail, hn⟩
    · rw [htail] at hlencs
      simp at hlencs
      omega
    · omega
  · rcases hend with ⟨qc, tail', htail, hqc, hn⟩ | ⟨htail, hn⟩ <;> omega
  · rcases hend with ⟨qc, tail', htail, hqc, hn⟩ | ⟨htail, hn⟩
    · -- the match ends with a closing quote
      left
      have hcs2 : cs = ((cs.take kn ++ (s ++ (q ++ v))) ++ [qc]) ++ tail' := by
        conv_lhs => rw [hcs, htail]
        simp [List.append_assoc]
      have hlenW : ((cs.take kn ++ (s ++ (q ++ v))) ++ [qc]).length = n := by
        simp [List.length_append, hkwlen]
        omega
      have htake : cs.take n = (cs.take kn ++ (s ++ (q ++ v))) ++ [qc] := by
        conv_lhs => rw [hcs2]
        exact List.take_left' hlenW
      exact ⟨qc, by rw [htake, getLast?_append_singleton], hqc⟩
    · -- no closing quote: what follows the match fails the value class
      right
      have hcs2 : cs = (cs.take kn ++ (s ++ (q ++ v))) ++ tail := by
        conv_lhs => rw [hcs]
        simp [List.append_assoc]
      have hlenW : (cs.take kn ++ (s ++ (q ++ v))).length = n := by
        simp [List.length_append, hkwlen]
        omega
      have hdrop : cs.drop n = tail := by
        conv_lhs => rw [hcs2, ← hlenW]
        exact List.drop_left _ _
      rw [hdrop]
      exact htail

theorem matchSecret_sound {cs : List Char} {n k : Nat}
    (h : matchSecret cs = some (n, k)) :
    ∃ kw s q v rest2,
      cs = kw ++ (s ++ (q ++ (v ++ rest2)))
      ∧ kw.map Char.toLower ∈ KeywordList
      ∧ kw.length = k
      ∧ s ≠ [] ∧ (∀ c ∈ s, secretSepChar c)
      ∧ (q = [] ∨ ∃ qc, q = [qc] ∧ quoteChar qc)
      ∧ 16 ≤ v.length ∧ (∀ c ∈ v, secretValueChar c)
      ∧ n ≤ cs.length ∧ 1 ≤ n
      ∧ ((∃ qc, (cs.take n).getLast? = some qc ∧ quoteChar qc)
         ∨ cs.drop n = [] ∨ ∃ d t, cs.drop n = d :: t ∧ secretValueChar d = false) := by
  unfold matchSecret at h
  split at h
  · exact absurd h (by simp)
  · rename_i kn hkn
    obtain ⟨hKW, hknle, hknpos⟩ := matchKeyword_sound hkn
    dsimp only at h
    split at h
    · exact absurd h (by simp)
    · rename_i hs0
      have hsall : ∀ c ∈ (cs.drop kn).takeWhile secretSepChar, secretSepChar c :=
        fun c hc => List.mem_takeWhile_imp hc
      have hsne : (cs.drop kn).takeWhile secretSepChar ≠ [] := by
        intro hnil
        exact hs0 (by rw [hnil]; rfl)
      have hd1 : cs.drop kn = (cs.drop kn).takeWhile secretSepChar
          ++ (cs.drop kn).drop ((cs.drop kn).takeWhile secretSepChar).length :=
        takeWhile_drop_split secretSepChar (cs.drop kn)
      rcases hcs2 : (cs.drop kn).drop ((cs.drop kn).takeWhile secretSepChar).length
        with _ | ⟨c2, rest2⟩
      · rw [hcs2] at h
        simp at h
      · rw [hcs2] at h
        dsimp only at h
        by_cases hq2 : quoteChar c2
        · rw [if_pos hq2] at h
          dsimp only at h
          split at h
          · rename_i h16
            have hd2 : rest2 = rest2.takeWhile secretValueChar
                ++ rest2.drop (rest2.takeWhile secretValueChar).length :=
              takeWhile_drop_split secretValueChar rest2
            have hvall : ∀ c ∈ rest2.takeWhile secretValueChar, secretValueChar c :=
              fun c hc => List.mem_takeWhile_imp hc
            have hdec : cs.drop kn = (cs.drop kn).takeWhile secretSepChar
                ++ ([c2] ++ (rest2.takeWhile secretValueChar
                  ++ rest2.drop (rest2.takeWhile secretValueChar).length)) := by
              conv_lhs => rw [hd1, hcs2]
              conv_lhs => rw [hd2]
              rfl
            rcases hcs4 : rest2.drop (rest2.takeWhile secretValueChar).length
              with _ | ⟨c4, t4⟩
            · rw [hcs4] at h
              dsimp only at h
              have hh : kn + ((cs.drop kn).takeWhile secretSepChar).length + 1
                  + (rest2.takeWhile secretValueChar).length + 0 = n ∧ kn = k := by
                simpa using h
              refine secretAt_package hKW hknle hknpos (hcs4 ▸ hdec) hsne hsall
                (Or.inr ⟨c2, rfl, hq2⟩) h16 hvall hh.2 (Or.inr ⟨Or.inl rfl, ?_⟩)
              have := hh.1
              simp only [List.length_cons, List.length_nil]
              omega
            · rw [hcs4] at h
              dsimp only at h
              by_cases hq4 : quoteChar c4
              · rw [if_pos hq4] at h
                have hh : kn + ((cs.drop kn).takeWhile secretSepChar).length + 1
                    + (rest2.takeWhile secretValueChar).length + 1 = n ∧ kn = k := by
                  simpa using h
                refine secretAt_package hKW hknle hknpos (hcs4 ▸ hdec) hsne hsall
                  (Or.inr ⟨c2, rfl, hq2⟩) h16 hvall hh.2
                  (Or.inl ⟨c4, t4, rfl, hq4, ?_⟩)
                have := hh.1
                simp only [List.length_cons, List.length_nil]
                omega
              · rw [if_neg hq4] at h
                have hh : kn + ((cs.drop kn).takeWhile secretSepChar).length + 1
                    + (rest2.takeWhile secretValueChar).length + 0 = n ∧ kn = k := by
                  simpa using h
                have hnv : secretValueChar c4 = false := by
                  have hts := @takeWhile_spec secretValueChar rest2
                  rcases hts.2 _ hcs4 with hnil | ⟨c, r, heq, hnp⟩
                  · exact absurd hnil (by simp)
                  · injection heq with he1 he2
                    rw [he1]
                    simpa using hnp
                refine secretAt_package hKW hknle hknpos (hcs4 ▸ hdec) hsne hsall
                  (Or.inr ⟨c2, rfl, hq2⟩) h16 hvall hh.2
                  (Or.inr ⟨Or.inr ⟨c4, t4, rfl, hnv⟩, ?_⟩)
                have := hh.1
                simp only [List.length_cons, List.length_nil]
                omega
          · exact absurd h (by simp)
        · rw [if_neg hq2] at h
          dsimp only at h
          split at h
          · rename_i h16
            have hd2 : c2 :: rest2 = (c2 :: rest2).takeWhile secretValueChar
                ++ (c2 :: rest2).drop ((c2 :: rest2).takeWhile secretValueChar).length :=
              takeWhile_drop_split secretValueChar (c2 :: rest2)
            have hvall : ∀ c ∈ (c2 :: rest2).takeWhile secretValueChar, secretValueChar c :=
              fun c hc => List.mem_takeWhile_imp hc
            have hdec : cs.drop kn = (cs.drop kn).takeWhile secretSepChar
                ++ ([] ++ ((c2 :: rest2).takeWhile secretValueChar
                  ++ (c2 :: rest2).drop ((c2 :: rest2).takeWhile secretValueChar).length)) := by
              conv_lhs => rw [hd1, hcs2]
              conv_lhs => rw [hd2]
              rfl
            rcases hcs4 : (c2 :: rest2).drop ((c2 :: rest2).takeWhile secretValueChar).length
              with _ | ⟨c4, t4⟩
            · rw [hcs4] at h
              dsimp only at h
              have hh : kn + ((cs.drop kn).takeWhile secretSepChar).length + 0
                  + ((c2 :: rest2).takeWhile secretValueChar).length + 0 = n ∧ kn = k := by
                simpa using h
              refine secretAt_package hKW hknle hknpos (hcs4 ▸ hdec) hsne hsall
                (Or.inl rfl) h16 hvall hh.2 (Or.inr ⟨Or.inl rfl, ?_⟩)
              have := hh.1
              simp only [List.length_nil]
              omega
            · rw [hcs4] at h
              dsimp only at h
              by_cases hq4 : quoteChar c4
              · rw [if_pos hq4] at h
                have hh : kn + ((cs.drop kn).takeWhile secretSepChar).length + 0
                    + ((c2 :: rest2).takeWhile secretValueChar).length + 1 = n ∧ kn = k := by
                  simpa using h
                refine secretAt_package hKW hknle hknpos (hcs4 ▸ hdec) hsne hsall
                  (Or.inl rfl) h16 hvall hh.2 (Or.inl ⟨c4, t4, rfl, hq4, ?_⟩)
                have := hh.1
                simp only [List.length_nil]
                omega
              · rw [if_neg hq4] at h
                have hh : kn + ((cs.drop kn).takeWhile secretSepChar).length + 0
                    + ((c2 :: rest2).takeWhile secretValueChar).length + 0 = n ∧ kn = k := by
                  simpa using h
                have hnv : secretValueChar c4 = false := by
                  have hts := @takeWhile_spec secretValueChar (c2 :: rest2)
                  rcases hts.2 _ hcs4 with hnil | ⟨c, r, heq, hnp⟩
                  · exact absurd hnil (by simp)
                  · injection heq with he1 he2
                    rw [he1]
                    simpa using hnp
                refine secretAt_package hKW hknle hknpos (hcs4 ▸ hdec) hsne hsall
                  (Or.inl rfl) h16 hvall hh.2
                  (Or.inr ⟨Or.inr ⟨c4, t4, rfl, hnv⟩, ?_⟩)
                have := hh.1
                simp only [List.length_nil]
                omega
          · exact absurd h (by simp)

theorem toLower_of_isDigit {c : Char} (h : c.isDigit) : c.toLower = c := by
  simp [Char.isDigit] at h
  unfold Char.toLower
  have h2 : c.toNat ≤ 57 := h.2
  rw [if_neg (by omega)]

theorem KL_no_digit : ∀ K ∈ KeywordList, ∀ c ∈ K, c.isDigit = false := by decide

theorem KL_no_at : ∀ K ∈ KeywordList, '@' ∉ K := by decide

theorem KL_len_lb : ∀ K ∈ KeywordList, 5 ≤ K.length := by decide

theorem KL_len_ub : ∀ K ∈ KeywordList, K.length ≤ 8 := by decide

theorem kw_no_digit {kw : List Char} (hk : kw.map Char.toLower ∈ KeywordList) :
    ∀ c ∈ kw, c.isDigit = false := by
  intro c hc
  by_cases hd : c.isDigit
  · have hmem : Char.toLower c ∈ kw.map Char.toLower := List.mem_map_of_mem _ hc
    rw [toLower_of_isDigit hd] at hmem
    rw [KL_no_digit _ hk c hmem] at hd
    exact absurd hd (by simp)
  · simpa using hd

theorem kw_no_at {kw : List Char} (hk : kw.map Char.toLower ∈ KeywordList) :
    ∀ c ∈ kw, (c == '@') = false := by
  intro c hc
  by_cases he : c = '@'
  · subst he
    have hmem : Char.toLower '@' ∈ kw.map Char.toLower := List.mem_map_of_mem _ hc
    rw [show Char.toLower '@' = '@' from by decide] at hmem
    exact absurd hmem (KL_no_at _ hk)
  · simp [he]

theorem kw_len_lb {kw : List Char} (hk : kw.map Char.toLower ∈ KeywordList) :
    5 ≤ kw.length := by
  have := KL_len_lb _ hk
  simpa using this

theorem kw_len_ub {kw : List Char} (hk : kw.map Char.toLower ∈ KeywordList) :
    kw.length ≤ 8 := by
  have := KL_len_ub _ hk
  simpa using this

theorem secretMatcher_none_iff {pr : Option Char} {s : List Char} :
    secretMatcher pr s = none ↔ matchSecret s = none := by
  simp [secretMatcher]

theorem secretMatcher_parts {pr : Option Char} {s : List Char} {n : Nat}
    {repl : List Char} (h : secretMatcher pr s = some (n, repl)) :
    ∃ k, matchSecret s = some (n, k)
      ∧ repl = s.take k ++ ": [REDACTED_SECRET]".data := by
  simp only [secretMatcher, Option.map_eq_some'] at h
  obtain ⟨⟨a1, a2⟩, ha, hpair⟩ := h
  obtain ⟨h1, h2⟩ := Prod.mk.injEq .. ▸ hpair
  exact ⟨a2, h1 ▸ ha, h2.symm⟩

/-- The keyword of a successful secret match is the take of its length. -/
theorem matchSecret_kw {cs : List Char} {n k : Nat}
    (h : matchSecret cs = some (n, k)) :
    (cs.take k).map Char.toLower ∈ KeywordList ∧ k ≤ cs.length := by
  obtain ⟨kw, s, q, v, r2, hdec, hkw, hklen, -⟩ := matchSecret_sound h
  have htake : cs.take k = kw := by
    rw [hdec, ← hklen]
    exact List.take_left _ _
  rw [htake]
  refine ⟨hkw, ?_⟩
  rw [hdec]
  simp [List.length_append]
  omega

theorem T_cons : ": [REDACTED_SECRET]".data
    = ':' :: ' ' :: '[' :: "REDACTED_SECRET]".data := by decide

theorem scanS_agree :
    ∀ fuel prev cs, AgreeS cs (replaceScanF secretMatcher fuel prev cs) := by
  intro fuel
  induction fuel with
  | zero => intro prev cs; cases cs <;> exact Or.inl rfl
  | succ f ih =>
    intro prev cs
    cases cs with
    | nil => exact Or.inl rfl
    | cons c rest =>
      rw [replaceScanF]
      rcases hm : secretMatcher prev (c :: rest) with _ | ⟨n, repl⟩
      · exact agreeS_cons (ih (some c) rest)
      · rcases n with _ | n'
        · exact agreeS_cons (ih (some c) rest)
        · obtain ⟨k, hms, hrepl⟩ := secretMatcher_parts hm
          obtain ⟨kw, s, q, v, r2, hdec, hkw, hklen, hsne, hsall, -⟩ :=
            matchSecret_sound hms
          have htake : (c :: rest).take k = kw := by
            rw [hdec, ← hklen]
            exact List.take_left _ _
          rcases hs : s with _ | ⟨s0, s''⟩
          · exact absurd hs hsne
          · refine Or.inr ⟨kw, s0, s'' ++ (q ++ (v ++ r2)),
              "REDACTED_SECRET]".data ++ replaceScanF secretMatcher f
                (((c :: rest).take (n' + 1)).getLast?) (rest.drop n'), ?_, ?_, ?_⟩
            · rw [hdec, hs]
              simp [List.append_assoc]
            · exact hsall s0 (by rw [hs]; simp)
            · rw [hrepl, htake, T_cons]
              simp [List.append_assoc]

theorem sep_not_word {c : Char} (h : secretSepChar c = true) :
    wordChar c = false := by
  simp only [secretSepChar, jsWhitespace, Bool.or_eq_true, decide_eq_true_eq] at h
  rcases h with ((((((((h | h) | h) | h) | h) | h) | h) | h) | h) | h <;>
    subst h <;> decide

theorem KL_no_lb : ∀ K ∈ KeywordList, '[' ∉ K := by decide

theorem KL_no_rb : ∀ K ∈ KeywordList, ']' ∉ K := by decide

theorem kw_not_mem {kw : List Char} {B : Char}
    (hk : kw.map Char.toLower ∈ KeywordList)
    (hfix : Char.toLower B = B) (hKL : ∀ K ∈ KeywordList, B ∉ K) : B ∉ kw := by
  intro hmem
  have : Char.toLower B ∈ kw.map Char.toLower := List.mem_map_of_mem _ hmem
  rw [hfix] at this
  exact hKL _ hk this

theorem witness_not_mem {kw s q v : List Char} {B : Char}
    (hkw : kw.map Char.toLower ∈ KeywordList)
    (hsall : ∀ c ∈ s, secretSepChar c)
    (hq : q = [] ∨ ∃ qc, q = [qc] ∧ quoteChar qc)
    (hvall : ∀ c ∈ v, secretValueChar c)
    (hfix : Char.toLower B = B) (hKL : ∀ K ∈ KeywordList, B ∉ K)
    (hBsep : secretSepChar B = false)
    (hBq : quoteChar B = false)
    (hBv : secretValueChar B = false) :
    B ∉ kw ++ (s ++ (q ++ v)) := by
  intro hmem
  simp only [List.mem_append] at hmem
  rcases hmem with hm | hm | hm | hm
  · exact kw_not_mem hkw hfix hKL hm
  · have hh := hsall B hm
    rw [hBsep] at hh
    exact absurd hh (by simp)
  · rcases hq with rfl | ⟨qc, rfl, hqc⟩
    · simp at hm
    · simp at hm
      subst hm
      rw [hBq] at hqc
      exact absurd hqc (by simp)
  · have hh := hvall B hm
    rw [hBv] at hh
    exact absurd hh (by simp)

theorem W_getLast_value {kw s q v : List Char} (hvne : v ≠ [])
    (hvall : ∀ c ∈ v, secretValueChar c) :
    ∃ lv, (kw ++ (s ++ (q ++ v))).getLast? = some lv ∧ secretValueChar lv := by
  have h1 : (kw ++ (s ++ (q ++ v))).getLast? = v.getLast? := by
    rw [getLast?_append_right (by simp [hvne]), getLast?_append_right (by simp [hvne]),
        getLast?_append_right hvne]
  rcases hq2 : v.getLast? with _ | lv
  · exact absurd (List.getLast?_eq_none_iff.mp hq2) hvne
  · exact ⟨lv, by rw [h1, hq2], hvall lv (List.mem_of_mem_getLast? hq2)⟩

theorem matchSecret_transfer_S {inp out : List Char} (hag : AgreeS inp out)
    (h : matchSecret inp = none) : matchSecret out = none := by
  rcases hout : matchSecret out with _ | ⟨n1, k1⟩
  · rfl
  · exfalso
    obtain ⟨kw, s, q, v, r2, hdec, hkw, hklen, hsne, hsall, hq, hvlen, hvall,
      -, -, -⟩ := matchSecret_sound hout
    rcases hag with rfl | ⟨A, c_s, i, o, hin, hsepc, hout2⟩
    · rw [h] at hout
      exact absurd hout (by simp)
    · have hvne : v ≠ [] := by
        intro hnil
        rw [hnil] at hvlen
        simp at hvlen
      have hWout : out = (kw ++ (s ++ (q ++ v))) ++ r2 := by
        rw [hdec]
        simp [List.append_assoc]
      have hWlen : 22 ≤ (kw ++ (s ++ (q ++ v))).length := by
        have h1 := kw_len_lb hkw
        have h2 : 1 ≤ s.length := by
          rcases s with _ | ⟨a, t⟩
          · exact absurd rfl hsne
          · simp
        simp only [List.length_append]
        omega
      have hWA : (kw ++ (s ++ (q ++ v))).length ≤ A.length := by
        by_contra hgt
        push_neg at hgt
        rcases Nat.lt_or_ge (A.length + 2) (kw ++ (s ++ (q ++ v))).length
          with hlt | hge
        · -- '[' belongs to the witness: impossible
          have he1 : out[A.length + 2]? = some '[' := by
            rw [hout2, List.getElem?_append_right (by omega)]
            have : A.length + 2 - A.length = 2 := by omega
            rw [this]
            simp
          have he2 : out[A.length + 2]? = (kw ++ (s ++ (q ++ v)))[A.length + 2]? := by
            rw [hWout, List.getElem?_append, if_pos hlt]
          rw [he2] at he1
          exact witness_not_mem hkw hsall hq hvall (by decide) KL_no_lb
            (by decide) (by decide) (by decide) (List.getElem?_mem he1)
        · -- the witness ends on the ':' or the ' ' of the replacement: its
          -- last character is a value character, contradiction
          obtain ⟨lv, hlast, hlv⟩ := W_getLast_value hvne hvall
          rw [List.getLast?_eq_getElem?] at hlast
          have hW2 : A.length ≤ (kw ++ (s ++ (q ++ v))).length - 1 := by omega
          have he2 : out[(kw ++ (s ++ (q ++ v))).length - 1]?
              = (kw ++ (s ++ (q ++ v)))[(kw ++ (s ++ (q ++ v))).length - 1]? := by
            rw [hWout]
            conv_lhs => rw [List.getElem?_append]
            rw [if_pos (by omega)]
          have hlast2 : out[(kw ++ (s ++ (q ++ v))).length - 1]? = some lv := by
            rw [he2]
            exact hlast
          rw [hout2, List.getElem?_append_right hW2] at hlast2
          rcases Nat.lt_or_ge ((kw ++ (s ++ (q ++ v))).length - 1 - A.length) 1
            with hi | hi
          · have hz : (kw ++ (s ++ (q ++ v))).length - 1 - A.length = 0 := by omega
            rw [hz] at hlast2
            have hcol : lv = ':' := by
              simp at hlast2
              exact hlast2.symm
            rw [hcol] at hlv
            exact absurd hlv (by decide)
          · have hz : (kw ++ (s ++ (q ++ v))).length - 1 - A.length = 1 := by omega
            rw [hz] at hlast2
            have hsp : lv = ' ' := by
              simp at hlast2
              exact hlast2.symm
            rw [hsp] at hlv
            exact absurd hlv (by decide)
      -- the witness fits in the common prefix: transfer to the input
      have hWtake : inp.take (kw ++ (s ++ (q ++ v))).length = kw ++ (s ++ (q ++ v)) := by
        have h1 : out.take (kw ++ (s ++ (q ++ v))).length = kw ++ (s ++ (q ++ v)) := by
          rw [hWout]
          exact List.take_left _ _
        have h2 : out.take (kw ++ (s ++ (q ++ v))).length
            = A.take (kw ++ (s ++ (q ++ v))).length := by
          rw [hout2]
          exact List.take_append_of_le_length hWA
        have h3 : inp.take (kw ++ (s ++ (q ++ v))).length
            = A.take (kw ++ (s ++ (q ++ v))).length := by
          rw [hin]
          exact List.take_append_of_le_length hWA
        rw [h3, ← h2, h1]
      apply matchSecret_complete _ h
      refine ⟨kw, s, q, v, inp.drop (kw ++ (s ++ (q ++ v))).length, ?_, hkw,
        hsne, hsall, hq, hvlen, hvall⟩
      conv_lhs => rw [← List.take_append_drop (kw ++ (s ++ (q ++ v))).length inp,
        hWtake]
      simp [List.append_assoc]

theorem matchIp_transfer_S {prev : Option Char} {inp out : List Char}
    (hag : AgreeS inp out) (h : matchIp prev inp = none) :
    matchIp prev out = none := by
  rcases hout : matchIp prev out with _ | m
  · rfl
  · exfalso
    obtain ⟨hpo, w, r, hwr, hcore, hbnd, hlen, hmpos⟩ := matchIp_sound hout
    rcases hag with rfl | ⟨A, c_s, i, o, hin, hsepc, hout2⟩
    · rw [h] at hout
      exact absurd hout (by simp)
    · subst hout2
      subst hin
      have hw : (A ++ ':' :: ' ' :: '[' :: o).take m = w := by
        rw [hwr]
        exact List.take_left' hlen
      by_cases hm : m ≤ A.length
      · apply matchIp_complete _ h
        have hwA : w = A.take m := by
          rw [← hw, List.take_append_of_le_length hm]
        refine ⟨hpo, w, (A ++ c_s :: i).drop m, ?_, hcore, ?_⟩
        · rw [hwA, ← List.take_append_of_le_length hm]
          exact (List.take_append_drop m (A ++ c_s :: i)).symm
        · have hr : r = (A ++ ':' :: ' ' :: '[' :: o).drop m := by
            rw [hwr, ← hlen, List.drop_left]
          by_cases hmA : m = A.length
          · subst hmA
            refine Or.inr ⟨c_s, i, ?_, sep_not_word hsepc⟩
            rw [List.drop_left]
          · have hmlt : m < A.length := by omega
            rcases hAd : A.drop m with _ | ⟨a0, arest⟩
            · exfalso
              have := congrArg List.length hAd
              simp at this
              omega
            · have hrform : r = a0 :: (arest ++ ':' :: ' ' :: '[' :: o) := by
                rw [hr, List.drop_append_of_le_length (le_of_lt hmlt), hAd]
                rfl
              rcases hbnd with hnil | ⟨cb, tb, hbeq, hnw⟩
              · rw [hnil] at hrform
                exact absurd hrform (by simp)
              · rw [hrform] at hbeq
                injection hbeq with hh1 hh2
                refine Or.inr ⟨a0, arest ++ c_s :: i, ?_, by rw [hh1]; exact hnw⟩
                rw [List.drop_append_of_le_length (le_of_lt hmlt), hAd]
                rfl
      · have hmem : ':' ∈ w := by
          rw [← hw]
          have h2 : m = A.length + ((m - A.length - 1) + 1) := by omega
          rw [h2, List.take_append]
          simp
        exact absurd (ipCore_chars hcore ':' hmem) (by decide)

theorem secretMatcher_pos : ∀ (pr : Option Char) s n repl,
    secretMatcher pr s = some (n, repl) → 1 ≤ n := by
  intro pr s n repl h
  obtain ⟨k, hms, -⟩ := secretMatcher_parts h
  obtain ⟨-, -, -, -, -, -, -, -, -, -, -, -, -, -, hpos, -⟩ := matchSecret_sound hms
  exact hpos

theorem T_at : ∀ c ∈ ": [REDACTED_SECRET]".data, (c == '@') = false := by decide

theorem T_digit : ∀ c ∈ ": [REDACTED_SECRET]".data, c.isDigit = false := by decide

theorem emailMatcher_block_S {kw : List Char}
    (hk : kw.map Char.toLower ∈ KeywordList) :
    ∀ (q : Option Char) j tail, j < (kw ++ ": [REDACTED_SECRET]".data).length →
      emailMatcher q ((kw ++ ": [REDACTED_SECRET]".data).drop j ++ tail) = none := by
  intro q j tail hj
  rw [emailMatcher_none_iff]
  rcases hout : matchEmail ((kw ++ ": [REDACTED_SECRET]".data).drop j ++ tail)
    with _ | n
  · rfl
  · exfalso
    have hs := (matchEmail_sound hout).1
    have hneed : ∀ c ∈ kw ++ ": [REDACTED_SECRET]".data, (c == '@') = false := by
      intro c hc
      rcases List.mem_append.mp hc with hm | hm
      · exact kw_no_at hk c hm
      · exact T_at c hm
    refine no_shape_in_block ?_ hneed (fun w hw => ⟨'@', emailShape_at hw, by simp⟩)
      (fun w hw => emailShape_not_rb hw) j tail n hj hs
    rw [getLast?_append_right (by decide)]
    decide

theorem phoneMatcher_block_S {kw : List Char}
    (hk : kw.map Char.toLower ∈ KeywordList) :
    ∀ (q : Option Char) j tail, j < (kw ++ ": [REDACTED_SECRET]".data).length →
      phoneMatcher q ((kw ++ ": [REDACTED_SECRET]".data).drop j ++ tail) = none := by
  intro q j tail hj
  rw [phoneMatcher_none_iff]
  rcases hout : matchPhone ((kw ++ ": [REDACTED_SECRET]".data).drop j ++ tail)
    with _ | n
  · rfl
  · exfalso
    have hs := (matchPhone_sound hout).1
    have hneed : ∀ c ∈ kw ++ ": [REDACTED_SECRET]".data, c.isDigit = false := by
      intro c hc
      rcases List.mem_append.mp hc with hm | hm
      · exact kw_no_digit hk c hm
      · exact T_digit c hm
    refine no_shape_in_block ?_ hneed (fun w hw => phoneShape_digit hw)
      (fun w hw => phoneShape_not_rb hw) j tail n hj hs
    rw [getLast?_append_right (by decide)]
    decide

theorem secretRegion_nodigit {kw : List Char}
    (hk : kw.map Char.toLower ∈ KeywordList) :
    ∀ c ∈ kw ++ ": [REDACTED_SECRET]".data, c.isDigit = false := by
  intro c hc
  rcases List.mem_append.mp hc with hm | hm
  · exact kw_no_digit hk c hm
  · exact T_digit c hm

theorem secretMatcher_block {kw : List Char}
    (hk : kw.map Char.toLower ∈ KeywordList) :
    ∀ (pr : Option Char) j tail, j < (kw ++ ": [REDACTED_SECRET]".data).length →
      secretMatcher pr ((kw ++ ": [REDACTED_SECRET]".data).drop j ++ tail) = none := by
  intro pr j tail hj
  rw [secretMatcher_none_iff]
  rcases hout : matchSecret ((kw ++ ": [REDACTED_SECRET]".data).drop j ++ tail)
    with _ | ⟨n1, k1⟩
  · rfl
  · exfalso
    obtain ⟨kw', s', q', v', r', hdec, hkw', -, hsne', hsall', hq', hvlen',
      hvall', -, -, -⟩ := matchSecret_sound hout
    have hRlen : (kw ++ ": [REDACTED_SECRET]".data).length = kw.length + 19 := by
      simp [List.length_append]
    have hWlen : 22 ≤ (kw' ++ (s' ++ (q' ++ v'))).length := by
      have h1 := kw_len_lb hkw'
      have h2 : 1 ≤ s'.length := by
        rcases s' with _ | ⟨a, t⟩
        · exact absurd rfl hsne'
        · simp
      simp only [List.length_append]
      omega
    have hWform : (kw ++ ": [REDACTED_SECRET]".data).drop j ++ tail
        = (kw' ++ (s' ++ (q' ++ v'))) ++ r' := by
      rw [hdec]
      simp [List.append_assoc]
    obtain ⟨idx, B, hidx, hBval, hBban⟩ : ∃ idx B, idx < 22
        ∧ ((kw ++ ": [REDACTED_SECRET]".data).drop j ++ tail)[idx]? = some B
        ∧ (B = '[' ∨ B = ']') := by
      rcases le_or_lt j (kw.length + 2) with hj2 | hj2
      · refine ⟨kw.length + 2 - j, '[', by have := kw_len_ub hk; omega, ?_, Or.inl rfl⟩
        have hx1 : kw.length + 2 - j < ((kw ++ ": [REDACTED_SECRET]".data).drop j).length := by
          simp only [List.length_drop, hRlen]
          omega
        rw [List.getElem?_append, if_pos hx1, List.getElem?_drop]
        have hx2 : j + (kw.length + 2 - j) = kw.length + 2 := by omega
        rw [hx2, List.getElem?_append_right (by omega)]
        have hx3 : kw.length + 2 - kw.length = 2 := by omega
        rw [hx3]
        decide
      · refine ⟨(kw ++ ": [REDACTED_SECRET]".data).length - 1 - j, ']', by omega, ?_,
          Or.inr rfl⟩
        have hx1 : (kw ++ ": [REDACTED_SECRET]".data).length - 1 - j
            < ((kw ++ ": [REDACTED_SECRET]".data).drop j).length := by
          simp only [List.length_drop, hRlen]
          omega
        rw [List.getElem?_append, if_pos hx1, List.getElem?_drop]
        have hx2 : j + ((kw ++ ": [REDACTED_SECRET]".data).length - 1 - j)
            = kw.length + 18 := by
          omega
        rw [hx2, List.getElem?_append_right (by omega)]
        have hx3 : kw.length + 18 - kw.length = 18 := by omega
        rw [hx3]
        decide
    have hidx2 : idx < (kw' ++ (s' ++ (q' ++ v'))).length := by omega
    have hBW : (kw' ++ (s' ++ (q' ++ v')))[idx]? = some B := by
      have hh := hBval
      rw [hWform] at hh
      rw [List.getElem?_append, if_pos hidx2] at hh
      exact hh
    have hBmem : B ∈ kw' ++ (s' ++ (q' ++ v')) := List.getElem?_mem hBW
    rcases hBban with rfl | rfl
    · exact witness_not_mem hkw' hsall' hq' hvall' (by decide) KL_no_lb
        (by decide) (by decide) (by decide) hBmem
    · exact witness_not_mem hkw' hsall' hq' hvall' (by decide) KL_no_rb
        (by decide) (by decide) (by decide) hBmem

theorem quote_not_word {c : Char} (h : quoteChar c = true) :
    wordChar c = false := by
  rcases quote_cases h with rfl | rfl <;> decide

theorem digit_value {c : Char} (h : c.isDigit) :
    secretValueChar c = true := by
  simp [secretValueChar, Char.isAlphanum, h]

theorem matchIp_prev_congr {p1 p2 : Option Char}
    (h : (p1.map wordChar).getD false = (p2.map wordChar).getD false)
    (cs : List Char) : matchIp p1 cs = matchIp p2 cs := by
  unfold matchIp
  rw [h]

theorem scanS_clean : ∀ fuel prev cs, cs.length ≤ fuel →
    Clean secretMatcher prev (replaceScanF secretMatcher fuel prev cs) :=
  scan_own_clean secretMatcher AgreeS
    (fun _ _ _ => rfl)
    secretMatcher_pos
    scanS_agree
    (fun c i o => agreeS_cons)
    (fun pr inp out hag h => by
      rw [secretMatcher_none_iff] at h ⊢
      exact matchSecret_transfer_S hag h)
    (fun pr s n repl h q j tail hj => by
      obtain ⟨k, hms, hrepl⟩ := secretMatcher_parts h
      obtain ⟨hkl, -⟩ := matchSecret_kw hms
      rw [hrepl] at hj ⊢
      exact secretMatcher_block hkl q j tail hj)

theorem email_clean_through_S : ∀ fuel prev cs, Clean emailMatcher prev cs →
    Clean emailMatcher prev (replaceScanF secretMatcher fuel prev cs) :=
  scan_preserves_clean emailMatcher secretMatcher AgreeS
    (fun _ _ _ => rfl)
    scanS_agree
    (fun c i o => agreeS_cons)
    (fun pr inp out hag h => by
      rw [emailMatcher_none_iff] at h ⊢
      exact matchEmail_transfer_S hag h)
    (fun pr s n repl h q j tail hj => by
      obtain ⟨k, hms, hrepl⟩ := secretMatcher_parts h
      obtain ⟨hkl, -⟩ := matchSecret_kw hms
      rw [hrepl] at hj ⊢
      exact emailMatcher_block_S hkl q j tail hj)

theorem phone_clean_through_S : ∀ fuel prev cs, Clean phoneMatcher prev cs →
    Clean phoneMatcher prev (replaceScanF secretMatcher fuel prev cs) :=
  scan_preserves_clean phoneMatcher secretMatcher AgreeS
    (fun _ _ _ => rfl)
    scanS_agree
    (fun c i o => agreeS_cons)
    (fun pr inp out hag h => by
      rw [phoneMatcher_none_iff] at h ⊢
      exact matchPhone_transfer_S hag h)
    (fun pr s n repl h q j tail hj => by
      obtain ⟨k, hms, hrepl⟩ := secretMatcher_parts h
      obtain ⟨hkl, -⟩ := matchSecret_kw hms
      rw [hrepl] at hj ⊢
      exact phoneMatcher_block_S hkl q j tail hj)

theorem ip_clean_through_S : ∀ fuel prev cs, Clean ipMatcher prev cs →
    Clean ipMatcher prev (replaceScanF secretMatcher fuel prev cs) := by
  intro fuel
  induction fuel with
  | zero =>
    intro prev cs hc
    cases cs <;> simpa [replaceScanF] using hc
  | succ f ih =>
    intro prev cs hc
    cases cs with
    | nil => trivial
    | cons c rest =>
      rw [replaceScanF]
      rcases hm : secretMatcher prev (c :: rest) with _ | ⟨n, repl⟩
      · refine ⟨?_, ih (some c) rest hc.2⟩
        have h0 := hc.1
        rw [ipMatcher_none_iff] at h0 ⊢
        exact matchIp_transfer_S (agreeS_cons (scanS_agree f (some c) rest)) h0
      · rcases n with _ | n'
        · refine ⟨?_, ih (some c) rest hc.2⟩
          have h0 := hc.1
          rw [ipMatcher_none_iff] at h0 ⊢
          exact matchIp_transfer_S (agreeS_cons (scanS_agree f (some c) rest)) h0
        · obtain ⟨k, hms, hrepl⟩ := secretMatcher_parts hm
          obtain ⟨hkl, -⟩ := matchSecret_kw hms
          obtain ⟨-, -, -, -, -, -, -, -, -, -, -, -, -, -, -, hend⟩ :=
            matchSecret_sound hms
          subst hrepl
          have hP0 : lastOr prev ((c :: rest).take (n' + 1))
              = ((c :: rest).take (n' + 1)).getLast? :=
            lastOr_of_ne_nil (by simp)
          have hclean2 : Clean ipMatcher (((c :: rest).take (n' + 1)).getLast?)
              (replaceScanF secretMatcher f (((c :: rest).take (n' + 1)).getLast?)
                (rest.drop n')) := by
            apply ih
            rw [← hP0]
            exact Clean_drop hc (n' + 1)
          refine Clean_append_last ((c :: rest).take k ++ ": [REDACTED_SECRET]".data)
            _ prev (some ']') ?_ ?_ ?_ ?_
          · -- the scanned suffix is clean also with `']'` on the left
            rcases hend with ⟨qc, hqlast, hqq⟩ | hbd
            · -- the match ended with a quote: same word-class as ']'
              rcases htl : replaceScanF secretMatcher f
                  (((c :: rest).take (n' + 1)).getLast?) (rest.drop n')
                with _ | ⟨d, t⟩
              · trivial
              · rw [htl] at hclean2
                refine ⟨?_, hclean2.2⟩
                rw [ipMatcher_none_iff]
                have hcongr := @matchIp_prev_congr (some ']')
                  (((c :: rest).take (n' + 1)).getLast?)
                  (by
                    rw [hqlast]
                    simp only [Option.map_some', Option.getD_some]
                    rw [quote_not_word hqq]
                    decide) (d :: t)
                rw [hcongr]
                have h0 := hclean2.1
                rw [ipMatcher_none_iff] at h0
                exact h0
            · -- no closing quote: the next character is not a digit
              refine Clean_retarget ?_ hclean2
              rw [ipMatcher_none_iff]
              apply matchIp_none_head
              intro d t hdt
              have hag := scanS_agree f (((c :: rest).take (n' + 1)).getLast?)
                (rest.drop n')
              rcases hag with heq | ⟨A, cs2, i2, o2, hin2, hsep2, hout2⟩
              · rw [heq] at hdt
                rcases hbd with hnil | ⟨d', t', hdd, hnv⟩
                · rw [show (c :: rest).drop (n' + 1) = rest.drop n' from rfl] at hnil
                  rw [hnil] at hdt
                  exact absurd hdt.symm (by simp)
                · rw [show (c :: rest).drop (n' + 1) = rest.drop n' from rfl] at hdd
                  rw [hdd] at hdt
                  injection hdt with hh1 hh2
                  rw [← hh1]
                  by_cases hdig : d'.isDigit
                  · rw [digit_value hdig] at hnv
                    exact absurd hnv (by simp)
                  · simpa using hdig
              · rw [hout2] at hdt
                rcases A with _ | ⟨a0, A'⟩
                · rw [List.nil_append] at hdt
                  injection hdt with hh1 hh2
                  rw [← hh1]
                  decide
                · injection hdt with hh1 hh2
                  rcases hbd with hnil | ⟨d', t', hdd, hnv⟩
                  · rw [show (c :: rest).drop (n' + 1) = rest.drop n' from rfl] at hnil
                    rw [hnil] at hin2
                    exact absurd hin2.symm (by simp)
                  · rw [show (c :: rest).drop (n' + 1) = rest.drop n' from rfl] at hdd
                    rw [hdd] at hin2
                    injection hin2 with hh3 hh4
                    rw [← hh1, ← hh3]
                    by_cases hdig : d'.isDigit
                    · rw [digit_value hdig] at hnv
                      exact absurd hnv (by simp)
                    · simpa using hdig
          · rw [getLast?_append_right (by decide)]
            decide
          · intro pr j hj
            exact ipMatcher_block_nodigit (secretRegion_nodigit hkl) pr j _ hj
          · simp

/-- C5: the redaction transform is idempotent: for every input text `t`,
applying the four ordered pattern substitutions (email, phone, IPv4,
secret) to `redact t` yields `redact t` again — no placeholder produced by
one pattern is re-matched by any pattern on a second pass. -/
theorem redact_idempotent (t : List Char) : redact (redact t) = redact t := by
  have he : Clean emailMatcher none (replaceScan emailMatcher t) :=
    scanE_clean t.length none t (le_refl _)
  have hp : Clean phoneMatcher none
      (replaceScan phoneMatcher (replaceScan emailMatcher t)) :=
    scanP_clean _ none _ (le_refl _)
  have hep : Clean emailMatcher none
      (replaceScan phoneMatcher (replaceScan emailMatcher t)) :=
    email_clean_through_P _ none _ he
  have hi : Clean ipMatcher none
      (replaceScan ipMatcher (replaceScan phoneMatcher (replaceScan emailMatcher t))) :=
    scanI_clean _ none _ (le_refl _)
  have hpi : Clean phoneMatcher none
      (replaceScan ipMatcher (replaceScan phoneMatcher (replaceScan emailMatcher t))) :=
    phone_clean_through_I _ none _ hp
  have hepi : Clean emailMatcher none
      (replaceScan ipMatcher (replaceScan phoneMatcher (replaceScan emailMatcher t))) :=
    email_clean_through_I _ none _ hep
  have hs : Clean secretMatcher none (redact t) :=
    scanS_clean _ none _ (le_refl _)
  have his : Clean ipMatcher none (redact t) :=
    ip_clean_through_S _ none _ hi
  have hpis : Clean phoneMatcher none (redact t) :=
    phone_clean_through_S _ none _ hpi
  have heis : Clean emailMatcher none (redact t) :=
    email_clean_through_S _ none _ hepi
  have h1 : replaceScan emailMatcher (redact t) = redact t :=
    clean_id heis _
  have h2 : replaceScan phoneMatcher (redact t) = redact t :=
    clean_id hpis _
  have h3 : replaceScan ipMatcher (redact t) = redact t :=
    clean_id his _
  have h4 : replaceScan secretMatcher (redact t) = redact t :=
    clean_id hs _
  show replaceScan secretMatcher (replaceScan ipMatcher (replaceScan phoneMatcher
    (replaceScan emailMatcher (redact t)))) = redact t
  rw [h1, h2, h3, h4]

end InfoTip
